import Mathlib

/-!
Verification development for the layered configuration loader
(`config.Load`, `pkg/index`, `pkg/env`, `pkg/flags`).

Go strings are embedded as `List Char`; Go maps with string keys are
embedded as association lists with overwrite-on-insert, which determinizes
the (order-irrelevant, since keys are unique) map semantics.  External
collaborators (the `creasty/defaults` default-literal setter, the
`zauberhaus/lookup` path setter/creator/exists, the JSON/YAML codecs and
the file-discovery I/O) are modelled from their contracts; everything else
is translated from the repository's source.
-/

set_option maxHeartbeats 1000000

abbrev GoStr := List Char

/-- Embedding of `strings.ToUpper` (ASCII range, which is all the code relies on). -/
def goUpper (s : GoStr) : GoStr := s.map Char.toUpper

/-- Embedding of `strings.ToLower` (ASCII range). -/
def goLower (s : GoStr) : GoStr := s.map Char.toLower

/-- Embedding of `strings.Trim`: remove leading and trailing characters of the cutset. -/
def trimBoth (cut : GoStr) (s : GoStr) : GoStr :=
  ((s.dropWhile (fun c => cut.contains c)).reverse.dropWhile (fun c => cut.contains c)).reverse

/-- Split a string at the first occurrence of a character, as
`strings.Index` plus slicing does in `env.Set`; `none` when absent. -/
def splitAtFirst (c : Char) : GoStr → Option (GoStr × GoStr)
  | [] => none
  | d :: rest =>
    if d = c then some ([], rest)
    else
      match splitAtFirst c rest with
      | some (a, b) => some (d :: a, b)
      | none => none

/-- Fuelled scanner of `strings.Replace(s, pat, rep, -1)` for a non-empty
pattern; the fuel is an upper bound on the string length, so the scan always
completes (structural recursion keeps the definition kernel-reducible). -/
def replaceAllGo (pat rep : GoStr) : Nat → GoStr → GoStr
  | 0, s => s
  | fuel + 1, s =>
    if pat.isPrefixOf s ∧ pat ≠ [] ∧ s ≠ [] then
      rep ++ replaceAllGo pat rep fuel (s.drop pat.length)
    else
      match s with
      | [] => []
      | c :: rest => c :: replaceAllGo pat rep fuel rest

/-- Embedding of `strings.Replace(s, pat, rep, -1)` (replace all,
left-to-right, non-overlapping; an empty pattern inserts `rep` at every
boundary, as in Go). -/
def replaceAll (s pat rep : GoStr) : GoStr :=
  if pat = [] then rep ++ s.foldr (fun c acc => c :: (rep ++ acc)) []
  else replaceAllGo pat rep s.length s

/-- Embedding of `strings.Replace(s, pat, rep, 1)` (replace the first
occurrence only). -/
def replaceOne (s pat rep : GoStr) : GoStr :=
  if pat.isPrefixOf s ∧ pat ≠ [] ∧ s ≠ [] then
    rep ++ s.drop pat.length
  else
    match s with
    | [] => if pat = [] then rep else []
    | c :: rest => if pat = [] then rep ++ c :: rest else c :: replaceOne rest pat rep

/-- Embedding of `strings.Join(parts, "_")`. -/
def joinU (parts : List GoStr) : GoStr := List.intercalate ['_'] parts

/-- Embedding of `strings.Join(parts, ".")`. -/
def joinD (parts : List GoStr) : GoStr := List.intercalate ['.'] parts

/-- Embedding of the in-place `tag[len(tag)-1] += suffix` mutation in `collect`. -/
def appendToLast : List GoStr → GoStr → List GoStr
  | [], _ => []
  | [x], suf => [x ++ suf]
  | x :: y :: rest, suf => x :: appendToLast (y :: rest) suf

/-- Number of occurrences of the literal placeholder `[]` in a string. -/
def countBr : GoStr → Nat
  | [] => 0
  | [_] => 0
  | c :: d :: rest =>
    if c = '[' ∧ d = ']' then countBr rest + 1 else countBr (d :: rest)

/-- A string is bracket-free when it contains neither `[` nor `]`. -/
def brFree (s : GoStr) : Bool := s.all (fun c => c != '[' && c != ']')

/-- Well-placeholdered strings: brackets occur only as adjacent `[]` pairs.
All keys and paths that `collect` builds from bracket-free names have this shape. -/
def wfStr : GoStr → Bool
  | [] => true
  | c :: rest =>
    if c = '[' then
      match rest with
      | d :: r => if d = ']' then wfStr r else false
      | [] => false
    else if c = ']' then false
    else wfStr rest

mutual

/-- Ordered list of bracket-group contents of a key, embedding
`braces.FindAllStringSubmatch(name, -1)` for the regex `\[([^\]]*)\]`
(each match runs from a `[` to the next `]`; a `[` with no later `]`
matches nothing, and then nothing further can match either). -/
def extractParams : GoStr → List GoStr
  | [] => []
  | c :: rest => if c = '[' then extractAfterLB rest else extractParams rest

/-- Scanner state inside an open bracket group: collect the content up to
the first `]`; an empty result means the bracket never closes. -/
def extractAfterLB : GoStr → List GoStr
  | [] => []
  | d :: rest =>
    if d = ']' then [] :: extractParams rest
    else
      match extractAfterLB rest with
      | [] => []
      | p :: ps => (d :: p) :: ps

end

mutual

/-- Canonical form of a key, embedding
`braces.ReplaceAllString(name, "[]")`: every bracket group collapses to `[]`,
characters outside matches are kept verbatim. -/
def canonKey : GoStr → GoStr
  | [] => []
  | c :: rest => if c = '[' then canonAfterLB rest [] else c :: canonKey rest

/-- Scanner state inside an open bracket group, carrying the consumed
content (reversed); an unclosed bracket is emitted verbatim. -/
def canonAfterLB : GoStr → GoStr → GoStr
  | [], acc => '[' :: acc.reverse
  | d :: rest, acc =>
    if d = ']' then '[' :: ']' :: canonKey rest else canonAfterLB rest (d :: acc)

end

/-- Substitution of bracket contents into `[]` placeholders in left-to-right
order; surplus contents are ignored and missing ones leave `[]` in place.
This is the specification-side description of what `Index.Find`'s
`strings.Replace` loop computes. -/
def fill : GoStr → List GoStr → GoStr
  | [], _ => []
  | [c], _ => [c]
  | c :: d :: rest, ps =>
    match ps with
    | [] => c :: d :: rest
    | p :: ps' =>
      if c = '[' ∧ d = ']' then '[' :: (p ++ ']' :: fill rest ps')
      else c :: fill (d :: rest) ps

/-- Association-list lookup, the embedding of a Go map read `m[k]`. -/
def lookupA {β : Type} : List (GoStr × β) → GoStr → Option β
  | [], _ => none
  | e :: rest, k => if e.1 = k then some e.2 else lookupA rest k

/-- Association-list insert with overwrite, the embedding of a Go map write
`m[k] = v` (unique keys are preserved). -/
def upsertA {β : Type} (m : List (GoStr × β)) (k : GoStr) (v : β) : List (GoStr × β) :=
  if m.any (fun e => decide (e.1 = k)) then
    m.map (fun e => if e.1 = k then (k, v) else e)
  else m ++ [(k, v)]

/-- Embedding of `maps.Insert(m, maps.All(tmp))`. -/
def insertAllA {β : Type} (m tmp : List (GoStr × β)) : List (GoStr × β) :=
  tmp.foldl (fun acc e => upsertA acc e.1 e.2) m

/-- Go collection kinds that `collect` treats alike (slice, array, map). -/
inductive CKind where
  | slice
  | array
  | mapK
deriving DecidableEq

/-- Embedding of the reflected Go types the index builder walks.  Each
constructor carries a `tu` flag recording whether a pointer to the type
implements `encoding.TextUnmarshaler` (the `reflect.New(e).Type().Implements(tm)`
test).  Struct fields are `(name, env-tag, exported, type)` tuples; an
absent `env` tag is the empty string, as `reflect.StructTag.Get` reports it. -/
inductive GoType where
  | scalar (tu : Bool)
  | ptr (t : GoType)
  | coll (k : CKind) (tu : Bool) (elem : GoType)
  | strct (tu : Bool) (fields : List (GoStr × GoStr × Bool × GoType))

/-- The stored TextUnmarshaler flag of a type (meaning: `*T` implements it). -/
def GoType.tuFlag : GoType → Bool
  | .scalar tu => tu
  | .ptr _ => false
  | .coll _ tu _ => tu
  | .strct tu _ => tu

/-- TextUnmarshaler capability of a collection's pointer element type
(`e.Implements(tm)` with `e` of pointer kind): the pointer type implements
it exactly when the pointee's method set does, and a double pointer never
does. -/
def ptrImplsTm : GoType → Bool
  | .ptr _ => false
  | e' => e'.tuFlag

/-- One entry of the index (`index.Item`): dotted path, element type and
the pointer-optionality flag. -/
structure Item where
  path : GoStr
  ty : GoType
  optional : Bool

/-- Embedding of `index.Index` as an association list with unique keys. -/
abbrev IndexL := List (GoStr × Item)

/-- Map read on an index. -/
def IndexL.lookup (v : IndexL) (k : GoStr) : Option Item := lookupA v k

/-- Embedding of `index.Index.Find`: extract bracket contents, canonicalize
the key, look it up, and substitute the contents into the stored path's
`[]` placeholders one at a time. -/
def IndexL.find (v : IndexL) (name : GoStr) : Option GoStr :=
  let params := extractParams name
  let key := canonKey name
  match v.lookup key with
  | some r => some (params.foldl (fun acc p => replaceOne acc ['[', ']'] ('[' :: (p ++ [']']))) r.path)
  | none => none

/-- Embedding of `index.Index.Exists`. -/
def IndexL.existsKey (v : IndexL) (name : GoStr) : Bool :=
  let n := canonKey name
  v.any (fun e => e.1 == n)

/-- Embedding of `index.Index.PathExists`. -/
def IndexL.pathExists (v : IndexL) (name : GoStr) : Bool :=
  let n := canonKey name
  v.any (fun e => e.2.path == n)

/-- ASCII uppercase test. -/
def isUpperCh (c : Char) : Bool := decide ('A' ≤ c ∧ c ≤ 'Z')

/-- ASCII lowercase test. -/
def isLowerCh (c : Char) : Bool := decide ('a' ≤ c ∧ c ≤ 'z')

/-- Modelled from the spec: the external `stringy` snake-case conversion used
by `SnakeCase` for mixed-case inputs ("otherwise it is converted to upper
snake-case").  An underscore is inserted before an uppercase letter that
follows a lowercase one, then everything is uppercased; this reproduces the
repository's own test vectors (camelCase → CAMEL_CASE, APIUrl → APIURL,
ServerHost → SERVER_HOST). -/
def insertUnders : GoStr → GoStr
  | [] => []
  | [c] => [c]
  | a :: b :: rest =>
    if isLowerCh a && isUpperCh b then a :: '_' :: insertUnders (b :: rest)
    else a :: insertUnders (b :: rest)

/-- Uppercase snake-case conversion for mixed-case tokens. -/
def upperSnakeModel (s : GoStr) : GoStr := goUpper (insertUnders s)

/-- Embedding of `index.SnakeCase`: uniformly-cased strings are returned
verbatim, mixed-case ones are converted. -/
def snakeCase (s : GoStr) : GoStr :=
  if goUpper s = s ∨ goLower s = s then s else upperSnakeModel s

/-- Embedding of the rename-table application in `collect`
(`strings.Replace(env, k, v, -1)` over the table's entries; the table is a
Go map, embedded as a list applied in order). -/
def applyRepl (d : List (GoStr × GoStr)) (s : GoStr) : GoStr :=
  d.foldl (fun acc kv => replaceAll acc kv.1 kv.2) s

/-- The structural error of the index builder
(`can't skip slice, array or map: <path>`). -/
inductive CollectErr where
  | cantSkipColl (path : GoStr)
deriving DecidableEq

mutual

/-- Embedding of `index.collect`: the recursive walker that builds the index.
The `isPtr` argument plays the role of the local flag set by the
pointer-unwrapping loop at the top of the Go function.  The Go function's
single collection case computes `(ma, e)` by unwrapping one pointer level of
the element; here the pointer/non-pointer element shapes are two match arms
of the same body so that the recursion stays structural. -/
def collect (v : GoType) (tag : List GoStr) (path : List GoStr) (skip : Bool)
    (d : List (GoStr × GoStr)) (isPtr : Bool) : Except CollectErr IndexL :=
  match v with
  | .ptr t => collect t tag path skip d true
  | .coll ck ctu (.ptr e') =>
    let ma := ptrImplsTm e'
    if skip then
      if ma then .ok []
      else
        match collect e' tag path true d false with
        | .error err => .error err
        | .ok tmp => if tmp.isEmpty then .ok [] else .error (.cantSkipColl (joinD path))
    else
      let m := upsertA [] (joinU tag) ⟨joinD path, .coll ck ctu (.ptr e'), isPtr⟩
      let tag' := appendToLast tag ['[', ']']
      let path' := appendToLast path ['[', ']']
      if ma then .ok (upsertA m (joinU tag') ⟨joinD path', e', isPtr⟩)
      else
        match collect e' tag' path' false d false with
        | .error err => .error err
        | .ok tmp => .ok (insertAllA m tmp)
  | .coll ck ctu e' =>
    let ma := e'.tuFlag
    if skip then
      if ma then .ok []
      else
        match collect e' tag path true d false with
        | .error err => .error err
        | .ok tmp => if tmp.isEmpty then .ok [] else .error (.cantSkipColl (joinD path))
    else
      let m := upsertA [] (joinU tag) ⟨joinD path, .coll ck ctu e', isPtr⟩
      let tag' := appendToLast tag ['[', ']']
      let path' := appendToLast path ['[', ']']
      if ma then .ok (upsertA m (joinU tag') ⟨joinD path', e', isPtr⟩)
      else
        match collect e' tag' path' false d false with
        | .error err => .error err
        | .ok tmp => .ok (insertAllA m tmp)
  | .strct _ fields =>
    let m := if skip = false ∧ path ≠ [] then upsertA [] (joinU tag) ⟨joinD path, v, isPtr⟩ else []
    collectFields fields tag path d m
  | .scalar _ =>
    if skip then .ok []
    else .ok (upsertA [] (joinU tag) ⟨joinD path, v, isPtr⟩)

/-- Embedding of the field loop inside `collect`'s struct case. -/
def collectFields (fields : List (GoStr × GoStr × Bool × GoType)) (tag : List GoStr)
    (path : List GoStr) (d : List (GoStr × GoStr)) (m : IndexL) : Except CollectErr IndexL :=
  match fields with
  | [] => .ok m
  | (name, envTag, exported, fty) :: rest =>
    if exported then
      if envTag = ['-', '-'] then collectFields rest tag path d m
      else if envTag = ['-'] then
        match collect fty tag (path ++ [goLower name]) true d false with
        | .error err => .error err
        | .ok tmp => collectFields rest tag path d (insertAllA m tmp)
      else
        let env := if envTag = [] then applyRepl d name else envTag
        match collect fty (tag ++ [snakeCase env]) (path ++ [goLower name]) false d false with
        | .error err => .error err
        | .ok tmp => collectFields rest tag path d (insertAllA m tmp)
    else collectFields rest tag path d m

end

/-- Pointer unwrapping at the top of `index.New`. -/
def stripPtrs : GoType → GoType
  | .ptr t => stripPtrs t
  | t => t

/-- Struct test used by `index.New` after unwrapping. -/
def isStructT : GoType → Bool
  | .strct _ _ => true
  | _ => false

/-- Embedding of `index.New`: unwrap pointers, return an empty index for
non-struct types, otherwise run `collect` from an empty context. -/
def buildIndex (v : GoType) (d : List (GoStr × GoStr)) : Except CollectErr IndexL :=
  let v' := stripPtrs v
  if isStructT v' then collect v' [] [] false d false else .ok []

/-- Errors of the `zauberhaus/lookup` setter, from its contract
(`lookup.NotFoundError{Name}`). -/
inductive LookErr where
  | notFound (name : GoStr)
deriving DecidableEq

/-- Modelled from the spec: the caller's nested record instance, as the
external path-setter sees it — an assignment of leaf paths to values plus
the set of pointer substructures that have been force-created.  A pointer
substructure is non-nil exactly when it was force-created or some leaf
under it carries a value. -/
structure Rec where
  fields : List (GoStr × GoStr)
  alloc : List GoStr
deriving DecidableEq

/-- Modelled from the spec: the record type's shape as the external
collaborators consume it — which dotted paths address a field, and the
declared default literals. -/
structure Shape where
  valid : GoStr → Bool
  defaults : List (GoStr × GoStr)

/-- Dotted-path strict descendance: `q` lies strictly inside the
substructure at `o`. -/
def underPath (o q : GoStr) : Bool := (o ++ ['.']).isPrefixOf q

/-- Modelled from the spec: `lookup.Exists` — the value at a path is
present/non-nil. -/
def present (r : Rec) (o : GoStr) : Bool :=
  r.alloc.any (fun a => a == o) || r.fields.any (fun e => e.1 == o || underPath o e.1)

/-- All pointer substructures strictly above `p` are present, i.e. the field
at `p` exists in memory. -/
def ancestorsOk (optional : List GoStr) (r : Rec) (p : GoStr) : Bool :=
  optional.all (fun o => !(underPath o p) || present r o)

/-- Modelled from the spec: the `creasty/defaults` setter — fills every
still-zero field that has a declared default literal, but only touches
fields that already exist in memory (nil pointer substructures are not
allocated and their inner defaults are not applied). -/
def applyDefaults (sh : Shape) (optional : List GoStr) (r : Rec) : Rec :=
  sh.defaults.foldl (fun acc kv =>
    if (lookupA acc.fields kv.1).isNone && ancestorsOk optional acc kv.1 then
      { acc with fields := upsertA acc.fields kv.1 kv.2 }
    else acc) r

/-- Modelled from the spec: `lookup.Set` — writes a value at a dotted path,
creating intermediate containers; fails with a not-found error when the
path addresses no field of the record type. -/
def lookupSet (sh : Shape) (r : Rec) (p v : GoStr) : Except LookErr Rec :=
  if sh.valid p then .ok { r with fields := upsertA r.fields p v }
  else .error (.notFound p)

/-- Modelled from the spec: `lookup.Create` — forces allocation of the
pointer substructure at a path; consistent with §4.5's rationale (and the
repository's own tests), the freshly allocated substructure receives its
declared default literals for its still-zero fields. -/
def lookupCreate (sh : Shape) (optional : List GoStr) (r : Rec) (o : GoStr) : Rec :=
  let r' : Rec := { r with alloc := r.alloc ++ [o] }
  sh.defaults.foldl (fun acc kv =>
    if underPath o kv.1 && (lookupA acc.fields kv.1).isNone && ancestorsOk optional acc kv.1 then
      { acc with fields := upsertA acc.fields kv.1 kv.2 }
    else acc) r'

/-- Modelled from the spec: a deserialized configuration file — the codecs
are external, so a file is embedded as the list of leaf assignments its
bytes decode to; unmarshalling merges them into the record in order. -/
def unmarshal (data : List (GoStr × GoStr)) (r : Rec) : Rec :=
  data.foldl (fun acc kv => { acc with fields := upsertA acc.fields kv.1 kv.2 }) r

/-- Embedding of `env.WithName` / `env.Prefix`: uppercase, rewrite `.` and
`-` to `_`, and append `_` when non-empty. -/
def envPfx (name : GoStr) : GoStr :=
  if name = [] then []
  else replaceAll (replaceAll (goUpper name) ['.'] ['_']) ['-'] ['_'] ++ ['_']

/-- Outcome of processing one `KEY=VALUE` environment entry in the
collection loop of `env.Set`. -/
inductive VarOut where
  | skip
  | entry (path : GoStr) (val : GoStr)
  | fail (key : GoStr)
deriving DecidableEq

/-- Test for the failing outcome of `processVar`. -/
def VarOut.isFail : VarOut → Bool
  | .fail _ => true
  | _ => false

/-- Embedding of the per-variable logic of `env.Set`'s first loop: split at
the first `=`, prefix-filter and strip, trim and uppercase the key, resolve
it through `Index.Find`, and trim the value. -/
def processVar (pfx : GoStr) (idx : IndexL) (envVar : GoStr) : VarOut :=
  match splitAtFirst '=' envVar with
  | none => .skip
  | some (key, value) =>
    let kOpt : Option GoStr :=
      if pfx = [] then some key
      else if pfx.isPrefixOf key then some (key.drop pfx.length) else none
    match kOpt with
    | none => .skip
    | some key =>
      let key := goUpper (trimBoth ['_', ' ', '\n', '\r', '\t'] key)
      match IndexL.find idx key with
      | some p => .entry p (trimBoth [' ', '\n', '\r', '\t'] value)
      | none => .fail key

/-- Embedding of `env.Set`'s first loop: collect resolved `path → value`
entries into a map, failing on the first unresolvable key in strict mode
and skipping it otherwise. -/
def envCollect (pfx : GoStr) (idx : IndexL) (strict : Bool) :
    List GoStr → List (GoStr × GoStr) → Except LookErr (List (GoStr × GoStr))
  | [], m => .ok m
  | v :: rest, m =>
    match processVar pfx idx v with
    | .skip => envCollect pfx idx strict rest m
    | .entry p val => envCollect pfx idx strict rest (upsertA m p val)
    | .fail k => if strict then .error (.notFound k) else envCollect pfx idx strict rest m

/-- Embedding of `env.Set`'s second loop: apply the collected entries in
the given key order through the external path-setter; a not-found setter
error is skipped in non-strict mode and fatal in strict mode. -/
def envApplyKeys (sh : Shape) (strict : Bool) (m : List (GoStr × GoStr)) :
    List GoStr → Rec → Except LookErr Rec
  | [], r => .ok r
  | k :: rest, r =>
    let v := (lookupA m k).getD []
    match lookupSet sh r k v with
    | .ok r' => envApplyKeys sh strict m rest r'
    | .error e => if strict then .error e else envApplyKeys sh strict m rest r

/-- Lexicographic sort of the collected keys (`sort.Strings`). -/
def sortKeys (l : List GoStr) : List GoStr := List.insertionSort (fun a b => a ≤ b) l

/-- Embedding of `env.Set` (the environment layer): collect the matching
variables, then apply them in ascending lexicographic order of the resolved
paths.  The index is taken as an argument: at its call site in `Load` it is
always supplied via `env.WithIndex`. -/
def envSet (sh : Shape) (idx : IndexL) (name : GoStr) (strict : Bool)
    (environ : List GoStr) (r : Rec) : Except LookErr Rec :=
  match envCollect (envPfx name) idx strict environ [] with
  | .error e => .error e
  | .ok m => envApplyKeys sh strict m (sortKeys (m.map (fun e => e.1))) r

/-- Embedding of `pflag.Flag` as the flag layer consumes it: a name, the
`Changed` indicator, and the extracted value (the typed accessor dispatch of
`getValue` is value-preserving, so the value is carried directly). -/
structure PFlag where
  name : GoStr
  changed : Bool
  value : GoStr
deriving DecidableEq

/-- Embedding of `flags.Flag`: a bound flag with its parent command name and
persistence marker. -/
structure BFlag where
  flag : PFlag
  parent : GoStr
  persistent : Bool
deriving DecidableEq

/-- Embedding of `flags.Flags`: the bound-flag map plus the optional index. -/
structure FlagsL where
  flags : List (GoStr × BFlag)
  dict : IndexL

/-- Errors of flag binding, one constructor per `errors.New`/`fmt.Errorf`
site in `BindFlag`/`BindCmdFlag`. -/
inductive BindErr where
  | emptyTarget
  | nilCmd
  | sourceNotFound (source target : GoStr)
  | targetNotFound (target : GoStr)
  | flagNotFound (target : GoStr)
deriving DecidableEq

/-- Embedding of `flags.Flags.BindFlag`. -/
def bindFlag (f : FlagsL) (target : GoStr) (flag : Option PFlag) : Except BindErr FlagsL :=
  if target = [] then .error .emptyTarget
  else
    match flag with
    | none => .error (.flagNotFound target)
    | some fl => .ok { f with flags := upsertA f.flags (goLower target) ⟨fl, [], false⟩ }

/-- Embedding of a `cobra.Command` as `BindCmdFlag` consumes it: its `Use`
name and its persistent and local flag sets. -/
structure Cmd where
  use : GoStr
  persistentFlags : List PFlag
  localFlags : List PFlag

/-- Embedding of `pflag.FlagSet.Lookup`. -/
def flagLookup (l : List PFlag) (n : GoStr) : Option PFlag :=
  l.find? (fun p => p.name == n)

/-- Embedding of `flags.Flags.BindCmdFlag`. -/
def bindCmdFlag (f : FlagsL) (cmd : Option Cmd) (target source : GoStr) : Except BindErr FlagsL :=
  if target = [] then .error .emptyTarget
  else
    match cmd with
    | none => .error .nilCmd
    | some c =>
      let found : Option (PFlag × Bool) :=
        match flagLookup c.persistentFlags source with
        | some v => some (v, true)
        | none =>
          match flagLookup c.localFlags source with
          | some v => some (v, false)
          | none => none
      match found with
      | none => .error (.sourceNotFound source target)
      | some fl =>
        let tres : Except BindErr GoStr :=
          if f.dict.isEmpty then .ok (goLower target)
          else
            match f.dict.find target with
            | some t => .ok t
            | none =>
              let t := goLower target
              if f.dict.pathExists t then .ok t else .error (.targetNotFound target)
        match tres with
        | .error e => .error e
        | .ok t => .ok { f with flags := upsertA f.flags t ⟨fl.1, c.use, fl.2⟩ }

/-- Embedding of `flags.SetFlags`: walk the bound flags and apply exactly
those whose `Changed` indicator is true through the external path-setter;
any setter error is fatal. -/
def setFlags (sh : Shape) (r : Rec) : List (GoStr × BFlag) → Except LookErr Rec
  | [] => .ok r
  | (k, b) :: rest =>
    if b.flag.changed then
      match lookupSet sh r k b.flag.value with
      | .ok r' => setFlags sh r' rest
      | .error e => .error e
    else setFlags sh r rest

/-- Embedding of `config.Load` from the point where the file is resolved
(file discovery, byte reading and codec selection are external I/O; the
file argument is the decoded assignment list, `none` when no file was
found): apply defaults, derive the optional paths from the index,
deserialize the file, run the optional-substructure reload when the file
touched any optional path, then the environment layer (when a name is
configured) and the flag layer (when bindings are supplied). -/
def Load (sh : Shape) (idx : IndexL) (file : Option (List (GoStr × GoStr)))
    (name : GoStr) (strict : Bool) (fl : Option (List (GoStr × BFlag)))
    (environ : List GoStr) : Except LookErr Rec :=
  let optional := (idx.filter (fun e => e.2.optional)).map (fun e => e.2.path)
  let cfg := applyDefaults sh optional ⟨[], []⟩
  let cfg :=
    match file with
    | none => cfg
    | some data =>
      let cfg := unmarshal data cfg
      if optional.isEmpty then cfg
      else
        let changed := optional.filter (fun o => present cfg o)
        if changed.isEmpty then cfg
        else
          let tmp := applyDefaults sh optional ⟨[], []⟩
          let tmp := changed.foldl (fun acc o => lookupCreate sh optional acc o) tmp
          unmarshal data tmp
  match (if name = [] then .ok cfg else envSet sh idx name strict environ cfg :
      Except LookErr Rec) with
  | .error e => .error e
  | .ok cfg =>
    match fl with
    | none => .ok cfg
    | some flags => setFlags sh cfg flags

/-- Convenience literal coercion from `String` to the embedded `GoStr`. -/
def gs (s : String) : GoStr := s.data

/-- Success test on a fallible result (`err == nil` in Go). -/
def isOkE {ε α : Type} : Except ε α → Bool
  | .ok _ => true
  | .error _ => false

/-- Resolved `path → value` entry contributed by one environment variable,
`none` when the variable is skipped or fails. -/
def entryOf (pfx : GoStr) (idx : IndexL) (v : GoStr) : Option (GoStr × GoStr) :=
  match processVar pfx idx v with
  | .entry p val => some (p, val)
  | _ => none

mutual

/-- Specification-side safety predicate for C4: the type (walked in
skip-context `skip`) contains no `env:"-"`-flattened subtree that crosses a
collection of entry-producing or recursively-walked elements; `collect`
never fails on such types. -/
def noSkipColl : Bool → GoType → Bool
  | skip, .ptr t => noSkipColl skip t
  | _, .scalar _ => true
  | skip, .coll _ _ (.ptr e') =>
    if skip then ptrImplsTm e' else (ptrImplsTm e' || noSkipColl false e')
  | skip, .coll _ _ e' =>
    if skip then e'.tuFlag else (e'.tuFlag || noSkipColl false e')
  | _, .strct _ fs => noSkipFields fs

/-- Field-wise part of `noSkipColl`. -/
def noSkipFields : List (GoStr × GoStr × Bool × GoType) → Bool
  | [] => true
  | (_, tag, exported, fty) :: rest =>
    (if exported then
       if tag = ['-', '-'] then true
       else if tag = ['-'] then noSkipColl true fty
       else noSkipColl false fty
     else true) && noSkipFields rest

end

mutual

/-- Bracket-freeness of all the strings of a type: every field name and
every explicit tag contains neither `[` nor `]` (Go identifiers always
satisfy the name half; tags need not). -/
def typeBF : GoType → Bool
  | .scalar _ => true
  | .ptr t => typeBF t
  | .coll _ _ e => typeBF e
  | .strct _ fs => fieldsBF fs

/-- Field-wise part of `typeBF`. -/
def fieldsBF : List (GoStr × GoStr × Bool × GoType) → Bool
  | [] => true
  | (name, tag, _, fty) :: rest =>
    brFree name && brFree tag && typeBF fty && fieldsBF rest

end

/-- Bracket-freeness of a rename table's entries. -/
def replBF (d : List (GoStr × GoStr)) : Bool :=
  d.all (fun kv => brFree kv.1 && brFree kv.2)

/-! ### Association-list lemmas -/

theorem lookupA_mapUpd_ne {β : Type} (m : List (GoStr × β)) (k p : GoStr) (v : β)
    (hpk : p ≠ k) :
    lookupA (m.map (fun e => if e.1 = k then (k, v) else e)) p = lookupA m p := by
  induction m with
  | nil => rfl
  | cons e rest ih =>
    by_cases he : e.1 = k
    · have hkp : ¬(k = p) := fun h => hpk h.symm
      have hep : ¬(e.1 = p) := by rw [he]; exact hkp
      simp [lookupA, he, hkp, hep, ih]
    · simp [lookupA, he, ih]

theorem lookupA_mapUpd_self {β : Type} (m : List (GoStr × β)) (k : GoStr) (v : β)
    (hany : m.any (fun e => decide (e.1 = k)) = true) :
    lookupA (m.map (fun e => if e.1 = k then (k, v) else e)) k = some v := by
  induction m with
  | nil => simp at hany
  | cons e rest ih =>
    by_cases he : e.1 = k
    · simp [lookupA, he]
    · simp only [List.any_cons, Bool.or_eq_true, decide_eq_true_eq] at hany
      rcases hany with h | h
      · exact absurd h he
      · simp [lookupA, he, ih h]

theorem lookupA_append_ne {β : Type} (m : List (GoStr × β)) (k p : GoStr) (v : β)
    (hpk : p ≠ k) :
    lookupA (m ++ [(k, v)]) p = lookupA m p := by
  induction m with
  | nil =>
    have hkp : ¬(k = p) := fun h => hpk h.symm
    simp [lookupA, hkp]
  | cons e rest ih =>
    by_cases he : e.1 = p
    · simp [lookupA, he]
    · simp [lookupA, he, ih]

theorem lookupA_append_self {β : Type} (m : List (GoStr × β)) (k : GoStr) (v : β)
    (hany : m.any (fun e => decide (e.1 = k)) = false) :
    lookupA (m ++ [(k, v)]) k = some v := by
  induction m with
  | nil => simp [lookupA]
  | cons e rest ih =>
    simp only [List.any_cons, Bool.or_eq_false_iff, decide_eq_false_iff_not] at hany
    simp [lookupA, hany.1, ih hany.2]

/-- Map-write/read law: reading after `m[k] = v` yields `v` at `k` and is
unchanged elsewhere. -/
theorem lookupA_upsertA {β : Type} (m : List (GoStr × β)) (k p : GoStr) (v : β) :
    lookupA (upsertA m k v) p = if p = k then some v else lookupA m p := by
  unfold upsertA
  split
  · rename_i hany
    by_cases hp : p = k
    · subst hp
      rw [if_pos rfl]
      exact lookupA_mapUpd_self m p v hany
    · rw [if_neg hp]
      exact lookupA_mapUpd_ne m k p v hp
  · rename_i hany
    by_cases hp : p = k
    · subst hp
      rw [if_pos rfl]
      exact lookupA_append_self m p v (Bool.eq_false_iff.mpr hany)
    · rw [if_neg hp]
      exact lookupA_append_ne m k p v hp

/-! ### Claim C7: only explicitly-set flags are applied -/

theorem setFlags_filter_changed (sh : Shape) :
    ∀ (fl : List (GoStr × BFlag)) (r : Rec),
      setFlags sh r fl = setFlags sh r (fl.filter (fun e => e.2.flag.changed)) := by
  intro fl
  induction fl with
  | nil => intro r; rfl
  | cons e rest ih =>
    intro r
    obtain ⟨k, b⟩ := e
    by_cases hc : b.flag.changed
    · rw [List.filter_cons_of_pos (by simpa using hc)]
      simp only [setFlags, hc, if_pos]
      cases lookupSet sh r k b.flag.value with
      | ok r' => exact ih r'
      | error err => rfl
    · rw [List.filter_cons_of_neg (by simpa using hc)]
      simp only [setFlags, hc, if_neg, Bool.false_eq_true]
      exact ih r

theorem setFlags_frame (sh : Shape) (p : GoStr) :
    ∀ (fl : List (GoStr × BFlag)) (r r' : Rec),
      (∀ e ∈ fl, e.2.flag.changed = true → e.1 ≠ p) →
      setFlags sh r fl = .ok r' →
      lookupA r'.fields p = lookupA r.fields p := by
  intro fl
  induction fl with
  | nil =>
    intro r r' _ hset
    cases hset
    rfl
  | cons e rest ih =>
    intro r r' hno hset
    obtain ⟨k, b⟩ := e
    by_cases hc : b.flag.changed
    · rw [setFlags, if_pos hc] at hset
      cases hls : lookupSet sh r k b.flag.value with
      | error err => rw [hls] at hset; cases hset
      | ok r1 =>
        rw [hls] at hset
        have h1 := ih r1 r' (fun e he hc' => hno e (List.mem_cons_of_mem _ he) hc') hset
        have hkp : k ≠ p := hno (k, b) (List.mem_cons_self _ _) hc
        unfold lookupSet at hls
        split at hls
        · cases hls
          rw [h1]
          show lookupA (upsertA r.fields k b.flag.value) p = _
          rw [lookupA_upsertA, if_neg (fun h => hkp h.symm)]
        · cases hls
    · rw [setFlags, if_neg (by simpa using hc)] at hset
      exact ih r r' (fun e he hc' => hno e (List.mem_cons_of_mem _ he) hc') hset

/-- Claim C7: for every bound flag whose `Changed` indicator is false,
`SetFlags` performs no application for it — the flag layer computes the same
result as on the changed-only sublist, and the record's value at a path
bound only by unchanged flags is untouched regardless of those flags'
default values. -/
theorem C7_setFlags_skips_unchanged (sh : Shape) (r : Rec) (fl : List (GoStr × BFlag))
    (p : GoStr) (hno : ∀ e ∈ fl, e.2.flag.changed = true → e.1 ≠ p) :
    setFlags sh r fl = setFlags sh r (fl.filter (fun e => e.2.flag.changed)) ∧
    ∀ r', setFlags sh r fl = .ok r' → lookupA r'.fields p = lookupA r.fields p := by
  exact ⟨setFlags_filter_changed sh fl r, fun r' h => setFlags_frame sh p fl r r' hno h⟩

/-- Witness for C7: a bound but unchanged flag at path `port` with default
value `1111` leaves the record's `port` (here `8080`) untouched. -/
theorem C7_witness :
    (∀ e ∈ [((gs "port"), (⟨⟨gs "port", false, gs "1111"⟩, [], false⟩ : BFlag))],
        e.2.flag.changed = true → e.1 ≠ gs "port") ∧
    lookupA (Rec.mk [(gs "port", gs "8080")] []).fields (gs "port") = some (gs "8080") ∧
    ∀ r', setFlags ⟨fun _ => true, []⟩ (Rec.mk [(gs "port", gs "8080")] [])
        [((gs "port"), ⟨⟨gs "port", false, gs "1111"⟩, [], false⟩)] = .ok r' →
      lookupA r'.fields (gs "port") = lookupA (Rec.mk [(gs "port", gs "8080")] []).fields (gs "port") := by
  refine ⟨by decide, by decide, ?_⟩
  exact (C7_setFlags_skips_unchanged ⟨fun _ => true, []⟩ (Rec.mk [(gs "port", gs "8080")] [])
    [((gs "port"), ⟨⟨gs "port", false, gs "1111"⟩, [], false⟩)] (gs "port") (by decide)).2

/-! ### Claim C8: flag-binding error conditions -/

theorem bindFlag_ok_iff (f : FlagsL) (target : GoStr) (flag : Option PFlag) :
    isOkE (bindFlag f target flag) = true ↔ (target ≠ [] ∧ flag ≠ none) := by
  unfold bindFlag
  by_cases ht : target = []
  · simp [ht, isOkE]
  · cases flag with
    | none => simp [ht, isOkE]
    | some fl => simp [ht, isOkE]

theorem bindFlag_records (f : FlagsL) (target : GoStr) (fl : PFlag) (ht : target ≠ []) :
    ∃ g, bindFlag f target (some fl) = .ok g ∧
      lookupA g.flags (goLower target) = some ⟨fl, [], false⟩ := by
  refine ⟨{ f with flags := upsertA f.flags (goLower target) ⟨fl, [], false⟩ }, ?_, ?_⟩
  · unfold bindFlag
    rw [if_neg ht]
  · rw [lookupA_upsertA]
    simp

theorem bindCmdFlag_ok_iff (f : FlagsL) (c : Cmd) (target source : GoStr) :
    isOkE (bindCmdFlag f (some c) target source) = true ↔
      (target ≠ [] ∧
       (flagLookup c.persistentFlags source ≠ none ∨ flagLookup c.localFlags source ≠ none) ∧
       (f.dict.isEmpty = false →
         (IndexL.find f.dict target ≠ none ∨ f.dict.pathExists (goLower target) = true))) := by
  unfold bindCmdFlag
  by_cases ht : target = []
  · simp [ht, isOkE]
  · rw [if_neg ht]
    cases hpf : flagLookup c.persistentFlags source with
    | some v =>
      by_cases hd : f.dict.isEmpty
      · simp [hpf, hd, isOkE, ht]
      · cases hf : IndexL.find f.dict target with
        | some t => simp [hpf, hd, hf, isOkE, ht]
        | none =>
          by_cases hpe : f.dict.pathExists (goLower target)
          · simp [hpf, hd, hf, hpe, isOkE, ht]
          · simp [hpf, hd, hf, hpe, isOkE, ht]
    | none =>
      cases hlf : flagLookup c.localFlags source with
      | some v =>
        by_cases hd : f.dict.isEmpty
        · simp [hpf, hlf, hd, isOkE, ht]
        · cases hf : IndexL.find f.dict target with
          | some t => simp [hpf, hlf, hd, hf, isOkE, ht]
          | none =>
            by_cases hpe : f.dict.pathExists (goLower target)
            · simp [hpf, hlf, hd, hf, hpe, isOkE, ht]
            · simp [hpf, hlf, hd, hf, hpe, isOkE, ht]
      | none => simp [hpf, hlf, isOkE, ht]

theorem bindCmdFlag_nilCmd (f : FlagsL) (target source : GoStr) :
    isOkE (bindCmdFlag f none target source) = false := by
  unfold bindCmdFlag
  by_cases ht : target = [] <;> simp [ht, isOkE]

/-- Claim C8 (amended): `BindCmdFlag` succeeds exactly when the target is
non-empty, the command is present, the source flag is found in the command's
persistent or local flag set, and — when the flag list carries a non-empty
index — either the target resolves through `Find` or its lowercased form
exists as a path; a nil command always fails.  `BindFlag`, by contrast,
never consults the index: it succeeds exactly when the target is non-empty
and the flag handle is present, and then records the mapping under the
lowercased target. -/
theorem C8_bind_error_conditions :
    (∀ (f : FlagsL) (target : GoStr) (flag : Option PFlag),
      isOkE (bindFlag f target flag) = true ↔ (target ≠ [] ∧ flag ≠ none)) ∧
    (∀ (f : FlagsL) (target : GoStr) (fl : PFlag), target ≠ [] →
      ∃ g, bindFlag f target (some fl) = .ok g ∧
        lookupA g.flags (goLower target) = some ⟨fl, [], false⟩) ∧
    (∀ (f : FlagsL) (c : Cmd) (target source : GoStr),
      isOkE (bindCmdFlag f (some c) target source) = true ↔
        (target ≠ [] ∧
         (flagLookup c.persistentFlags source ≠ none ∨ flagLookup c.localFlags source ≠ none) ∧
         (f.dict.isEmpty = false →
           (IndexL.find f.dict target ≠ none ∨ f.dict.pathExists (goLower target) = true)))) ∧
    (∀ (f : FlagsL) (target source : GoStr),
      isOkE (bindCmdFlag f none target source) = false) :=
  ⟨bindFlag_ok_iff, bindFlag_records, bindCmdFlag_ok_iff, bindCmdFlag_nilCmd⟩

/-- Witness for C8: binding `My.Target` through `BindFlag` records the
mapping under `my.target` (mirroring the repository's `BindFlag` test). -/
theorem C8_witness :
    (gs "My.Target") ≠ [] ∧
    ∃ g, bindFlag ⟨[], []⟩ (gs "My.Target") (some ⟨gs "test-flag", false, gs "default"⟩) = .ok g ∧
      lookupA g.flags (goLower (gs "My.Target")) =
        some ⟨⟨gs "test-flag", false, gs "default"⟩, [], false⟩ :=
  ⟨by decide, C8_bind_error_conditions.2.1 ⟨[], []⟩ (gs "My.Target")
    ⟨gs "test-flag", false, gs "default"⟩ (by decide)⟩

/-- Counterexample to C8 as stated: `BindFlag` on a flag list that carries a
non-empty index succeeds for a target that exists in the index neither as a
key nor as a lowercased path — the claimed index-validation failure does not
occur, because `BindFlag` never consults the index. -/
theorem C8_counterexample :
    (let dict : IndexL := [(gs "KEY", ⟨gs "path.key", .scalar false, false⟩)]
     dict.isEmpty = false ∧
     IndexL.find dict (gs "Absent") = none ∧
     dict.pathExists (goLower (gs "Absent")) = false ∧
     isOkE (bindFlag ⟨[], dict⟩ (gs "Absent") (some ⟨gs "src", false, []⟩)) = true) := by
  decide

/-! ### Claim C5: unresolved environment keys, strict vs non-strict -/

theorem envCollect_strict_fail (pfx : GoStr) (idx : IndexL) (k : GoStr) :
    ∀ (pre : List GoStr) (bad : GoStr) (post : List GoStr) (m : List (GoStr × GoStr)),
      processVar pfx idx bad = .fail k →
      (∀ v ∈ pre, ∀ k', processVar pfx idx v ≠ .fail k') →
      envCollect pfx idx true (pre ++ bad :: post) m = .error (.notFound k) := by
  intro pre
  induction pre with
  | nil =>
    intro bad post m hbad _
    rw [List.nil_append, envCollect, hbad]
    rfl
  | cons v pre' ih =>
    intro bad post m hbad hpre
    have hv := hpre v (List.mem_cons_self _ _)
    rw [List.cons_append, envCollect]
    cases hpv : processVar pfx idx v with
    | skip => exact ih bad post m hbad (fun u hu k' => hpre u (List.mem_cons_of_mem _ hu) k')
    | entry p val => exact ih bad post _ hbad (fun u hu k' => hpre u (List.mem_cons_of_mem _ hu) k')
    | fail k' => exact absurd hpv (hv k')

theorem envCollect_nonstrict_skip (pfx : GoStr) (idx : IndexL) (k : GoStr) :
    ∀ (pre : List GoStr) (bad : GoStr) (post : List GoStr) (m : List (GoStr × GoStr)),
      processVar pfx idx bad = .fail k →
      envCollect pfx idx false (pre ++ bad :: post) m = envCollect pfx idx false (pre ++ post) m := by
  intro pre
  induction pre with
  | nil =>
    intro bad post m hbad
    rw [List.nil_append, List.nil_append, envCollect, hbad]
    rfl
  | cons v pre' ih =>
    intro bad post m hbad
    rw [List.cons_append, List.cons_append, envCollect, envCollect]
    cases hpv : processVar pfx idx v with
    | skip => exact ih bad post m hbad
    | entry p val => exact ih bad post _ hbad
    | fail k' => exact ih bad post m hbad

/-- Claim C5: an environment variable that survives prefix filtering but
does not resolve against the index makes the strict environment layer fail
with a not-found error naming the processed key (no record is returned),
while the non-strict layer behaves exactly as if the variable were absent
from the environment. -/
theorem C5_env_unresolved_key (sh : Shape) (idx : IndexL) (name : GoStr)
    (pre post : List GoStr) (bad k : GoStr) (r : Rec)
    (hbad : processVar (envPfx name) idx bad = .fail k)
    (hpre : ∀ v ∈ pre, (processVar (envPfx name) idx v).isFail = false) :
    envSet sh idx name true (pre ++ bad :: post) r = .error (.notFound k) ∧
    envSet sh idx name false (pre ++ bad :: post) r =
      envSet sh idx name false (pre ++ post) r := by
  have hpre' : ∀ v ∈ pre, ∀ k', processVar (envPfx name) idx v ≠ .fail k' := by
    intro v hv k' heq
    have h := hpre v hv
    rw [heq] at h
    simp [VarOut.isFail] at h
  constructor
  · unfold envSet
    rw [envCollect_strict_fail (envPfx name) idx k pre bad post [] hbad hpre']
  · unfold envSet
    rw [envCollect_nonstrict_skip (envPfx name) idx k pre bad post [] hbad]

/-- Witness for C5: with an index knowing only `HOST`, the variable
`APP_UNKNOWN=v` fails a strict load with a not-found error naming
`UNKNOWN`, and is ignored without effect in a non-strict load. -/
theorem C5_witness :
    (processVar (envPfx (gs "APP")) [(gs "HOST", ⟨gs "host", .scalar false, false⟩)]
        (gs "APP_UNKNOWN=v") = .fail (gs "UNKNOWN")) ∧
    envSet ⟨fun p => p = gs "host", []⟩ [(gs "HOST", ⟨gs "host", .scalar false, false⟩)]
        (gs "APP") true [gs "APP_HOST=h", gs "APP_UNKNOWN=v"] ⟨[], []⟩ =
      .error (.notFound (gs "UNKNOWN")) ∧
    envSet ⟨fun p => p = gs "host", []⟩ [(gs "HOST", ⟨gs "host", .scalar false, false⟩)]
        (gs "APP") false [gs "APP_HOST=h", gs "APP_UNKNOWN=v"] ⟨[], []⟩ =
      envSet ⟨fun p => p = gs "host", []⟩ [(gs "HOST", ⟨gs "host", .scalar false, false⟩)]
        (gs "APP") false [gs "APP_HOST=h"] ⟨[], []⟩ := by
  refine ⟨by decide, ?_⟩
  have h := C5_env_unresolved_key ⟨fun p => p = gs "host", []⟩
    [(gs "HOST", ⟨gs "host", .scalar false, false⟩)] (gs "APP")
    [gs "APP_HOST=h"] [] (gs "APP_UNKNOWN=v") (gs "UNKNOWN") ⟨[], []⟩
    (by decide) (by decide)
  exact h

/-! ### Claim C6: deterministic, sorted application order of the environment layer -/

theorem upsertA_of_not_mem {β : Type} (m : List (GoStr × β)) (k : GoStr) (v : β)
    (h : m.any (fun e => decide (e.1 = k)) = false) : upsertA m k v = m ++ [(k, v)] := by
  unfold upsertA
  simp [h]

theorem foldl_upsertA_nodup {β : Type} :
    ∀ (es acc : List (GoStr × β)),
      ((acc ++ es).map (fun e => e.1)).Nodup →
      es.foldl (fun a e => upsertA a e.1 e.2) acc = acc ++ es := by
  intro es
  induction es with
  | nil => intro acc _; simp
  | cons e rest ih =>
    intro acc hnd
    have hkey : acc.any (fun x => decide (x.1 = e.1)) = false := by
      rw [List.any_eq_false]
      intro x hx
      simp only [decide_eq_true_eq]
      intro hx1
      have h1 : e.1 ∈ acc.map (fun e => e.1) := List.mem_map.mpr ⟨x, hx, hx1⟩
      have h2 : e.1 ∈ (e :: rest).map (fun e => e.1) :=
        List.mem_map.mpr ⟨e, List.mem_cons_self e rest, rfl⟩
      have hnd' : ((acc.map (fun e => e.1)) ++ ((e :: rest).map (fun e => e.1))).Nodup := by
        rw [← List.map_append]
        exact hnd
      exact (List.nodup_append.mp hnd').2.2 h1 h2
    have hnd2 : (((acc ++ [e]) ++ rest).map (fun e => e.1)).Nodup := by
      rw [List.append_assoc]
      exact hnd
    rw [List.foldl_cons, upsertA_of_not_mem _ _ _ hkey, ih (acc ++ [e]) hnd2,
      List.append_assoc]
    rfl

theorem envCollect_ok (pfx : GoStr) (idx : IndexL) (strict : Bool) :
    ∀ (environ : List GoStr) (m : List (GoStr × GoStr)),
      (∀ v ∈ environ, (processVar pfx idx v).isFail = false) →
      envCollect pfx idx strict environ m =
        .ok ((environ.filterMap (entryOf pfx idx)).foldl (fun a e => upsertA a e.1 e.2) m) := by
  intro environ
  induction environ with
  | nil => intro m _; rfl
  | cons v rest ih =>
    intro m hok
    rw [envCollect]
    cases hpv : processVar pfx idx v with
    | skip =>
      simp only [List.filterMap_cons, entryOf, hpv]
      exact ih m (fun u hu => hok u (List.mem_cons_of_mem _ hu))
    | entry p val =>
      simp only [List.filterMap_cons, entryOf, hpv, List.foldl_cons]
      exact ih _ (fun u hu => hok u (List.mem_cons_of_mem _ hu))
    | fail k =>
      have := hok v (List.mem_cons_self _ _)
      rw [hpv] at this
      simp [VarOut.isFail] at this

theorem lookupA_some_mem {β : Type} :
    ∀ {m : List (GoStr × β)} {k : GoStr} {v : β}, lookupA m k = some v → (k, v) ∈ m := by
  intro m
  induction m with
  | nil => intro k v h; cases h
  | cons e rest ih =>
    intro k v h
    rw [lookupA] at h
    split at h
    · rename_i he
      cases h
      have he2 : e = (k, e.2) := Prod.ext_iff.mpr ⟨he, rfl⟩
      rw [← he2]
      exact List.mem_cons_self _ _
    · exact List.mem_cons_of_mem _ (ih h)

theorem lookupA_eq_none_iff {β : Type} :
    ∀ (m : List (GoStr × β)) (k : GoStr), lookupA m k = none ↔ ∀ e ∈ m, e.1 ≠ k := by
  intro m
  induction m with
  | nil => intro k; simp [lookupA]
  | cons e rest ih =>
    intro k
    rw [lookupA]
    by_cases he : e.1 = k
    · rw [if_pos he]
      constructor
      · intro h; cases h
      · intro h; exact absurd he (h e (List.mem_cons_self _ _))
    · rw [if_neg he, ih k]
      constructor
      · intro h e' he'
        rcases List.mem_cons.mp he' with rfl | hmem
        · exact he
        · exact h e' hmem
      · intro h e' he'
        exact h e' (List.mem_cons_of_mem _ he')

theorem lookupA_mem_nodup {β : Type} :
    ∀ (m : List (GoStr × β)) (k : GoStr) (v : β),
      (m.map (fun e => e.1)).Nodup → (k, v) ∈ m → lookupA m k = some v := by
  intro m
  induction m with
  | nil => intro k v _ hm; cases hm
  | cons e rest ih =>
    intro k v hnd hm
    rw [List.map_cons, List.nodup_cons] at hnd
    rw [lookupA]
    rcases List.mem_cons.mp hm with h | h
    · subst h
      rw [if_pos rfl]
    · have hne : e.1 ≠ k := by
        intro heq
        exact hnd.1 (heq ▸ List.mem_map.mpr ⟨(k, v), h, rfl⟩)
      rw [if_neg hne]
      exact ih k v hnd.2 h

theorem lookupA_perm_nodup {β : Type} {m₁ m₂ : List (GoStr × β)} (hp : m₁.Perm m₂)
    (hnd : (m₁.map (fun e => e.1)).Nodup) (k : GoStr) :
    lookupA m₁ k = lookupA m₂ k := by
  have hnd₂ : (m₂.map (fun e => e.1)).Nodup := (hp.map (fun e => e.1)).nodup_iff.mp hnd
  cases h : lookupA m₁ k with
  | some v =>
    exact (lookupA_mem_nodup m₂ k v hnd₂ (hp.subset (lookupA_some_mem h))).symm
  | none =>
    rw [lookupA_eq_none_iff] at h
    exact ((lookupA_eq_none_iff m₂ k).mpr (fun e he => h e (hp.mem_iff.mpr he))).symm

theorem envApplyKeys_congr (sh : Shape) (strict : Bool) (m₁ m₂ : List (GoStr × GoStr))
    (hm : ∀ k, lookupA m₁ k = lookupA m₂ k) :
    ∀ (keys : List GoStr) (r : Rec),
      envApplyKeys sh strict m₁ keys r = envApplyKeys sh strict m₂ keys r := by
  intro keys
  induction keys with
  | nil => intro r; rfl
  | cons k rest ih =>
    intro r
    rw [envApplyKeys, envApplyKeys, hm k]
    cases lookupSet sh r k ((lookupA m₂ k).getD []) with
    | ok r' => exact ih r'
    | error e => cases strict <;> simp [ih r]

theorem sortKeys_sorted (l : List GoStr) :
    List.Sorted (fun a b : GoStr => a ≤ b) (sortKeys l) :=
  List.sorted_insertionSort _ l

theorem sortKeys_perm (l : List GoStr) : (sortKeys l).Perm l :=
  List.perm_insertionSort _ l

/-- Claim C6: the environment layer applies its matched entries in ascending
lexicographic order of the resolved paths, and — given collision-free
resolved paths — its result does not depend on the enumeration order of the
process environment. -/
theorem C6_env_deterministic_order (sh : Shape) (idx : IndexL) (name : GoStr) (strict : Bool)
    (environ environ' : List GoStr) (r : Rec)
    (hok : ∀ v ∈ environ, (processVar (envPfx name) idx v).isFail = false)
    (hperm : environ.Perm environ')
    (hnd : ((environ.filterMap (entryOf (envPfx name) idx)).map (fun e => e.1)).Nodup) :
    (∃ keys : List GoStr,
       List.Sorted (fun a b : GoStr => a ≤ b) keys ∧
       keys.Perm ((environ.filterMap (entryOf (envPfx name) idx)).map (fun e => e.1)) ∧
       envSet sh idx name strict environ r =
         envApplyKeys sh strict (environ.filterMap (entryOf (envPfx name) idx)) keys r) ∧
    envSet sh idx name strict environ r = envSet sh idx name strict environ' r := by
  have hok' : ∀ v ∈ environ', (processVar (envPfx name) idx v).isFail = false :=
    fun v hv => hok v (hperm.mem_iff.mpr hv)
  have hes : (environ.filterMap (entryOf (envPfx name) idx)).Perm
      (environ'.filterMap (entryOf (envPfx name) idx)) := hperm.filterMap _
  have hnd' : ((environ'.filterMap (entryOf (envPfx name) idx)).map (fun e => e.1)).Nodup :=
    (hes.map (fun e => e.1)).nodup_iff.mp hnd
  have h1 : envSet sh idx name strict environ r =
      envApplyKeys sh strict (environ.filterMap (entryOf (envPfx name) idx))
        (sortKeys ((environ.filterMap (entryOf (envPfx name) idx)).map (fun e => e.1))) r := by
    unfold envSet
    rw [envCollect_ok _ _ _ _ _ hok, foldl_upsertA_nodup _ [] (by simpa using hnd)]
    simp
  have h2 : envSet sh idx name strict environ' r =
      envApplyKeys sh strict (environ'.filterMap (entryOf (envPfx name) idx))
        (sortKeys ((environ'.filterMap (entryOf (envPfx name) idx)).map (fun e => e.1))) r := by
    unfold envSet
    rw [envCollect_ok _ _ _ _ _ hok', foldl_upsertA_nodup _ [] (by simpa using hnd')]
    simp
  have hkeys : sortKeys ((environ.filterMap (entryOf (envPfx name) idx)).map (fun e => e.1)) =
      sortKeys ((environ'.filterMap (entryOf (envPfx name) idx)).map (fun e => e.1)) := by
    apply List.eq_of_perm_of_sorted (r := fun a b : GoStr => a ≤ b)
    · exact (sortKeys_perm _).trans
        ((hes.map (fun e => e.1)).trans (sortKeys_perm _).symm)
    · exact sortKeys_sorted _
    · exact sortKeys_sorted _
  refine ⟨⟨sortKeys ((environ.filterMap (entryOf (envPfx name) idx)).map (fun e => e.1)),
      sortKeys_sorted _, sortKeys_perm _, h1⟩, ?_⟩
  rw [h1, h2, ← hkeys]
  exact envApplyKeys_congr sh strict _ _ (lookupA_perm_nodup hes hnd) _ r

/-- Witness for C6: two enumeration orders of the same two variables load
identically, and the applications happen on the sorted key list. -/
theorem C6_witness :
    envSet ⟨fun _ => true, []⟩
        [(gs "HOST", ⟨gs "host", .scalar false, false⟩), (gs "PORT", ⟨gs "port", .scalar false, false⟩)]
        (gs "APP") false [gs "APP_PORT=1", gs "APP_HOST=h"] ⟨[], []⟩ =
      envSet ⟨fun _ => true, []⟩
        [(gs "HOST", ⟨gs "host", .scalar false, false⟩), (gs "PORT", ⟨gs "port", .scalar false, false⟩)]
        (gs "APP") false [gs "APP_HOST=h", gs "APP_PORT=1"] ⟨[], []⟩ :=
  (C6_env_deterministic_order ⟨fun _ => true, []⟩
    [(gs "HOST", ⟨gs "host", .scalar false, false⟩), (gs "PORT", ⟨gs "port", .scalar false, false⟩)]
    (gs "APP") false [gs "APP_PORT=1", gs "APP_HOST=h"] [gs "APP_HOST=h", gs "APP_PORT=1"] ⟨[], []⟩
    (by decide) (List.Perm.swap _ _ _) (by decide)).2

theorem upsertA_ne_nil {β : Type} (m : List (GoStr × β)) (k : GoStr) (v : β) :
    upsertA m k v ≠ [] := by
  unfold upsertA
  split
  · rename_i hany
    intro h
    rw [List.map_eq_nil_iff] at h
    subst h
    simp at hany
  · intro h
    cases m <;> simp at h

theorem insertAllA_ne_nil_left {β : Type} :
    ∀ (tmp m : List (GoStr × β)), m ≠ [] → insertAllA m tmp ≠ [] := by
  intro tmp
  induction tmp with
  | nil => intro m hm; exact hm
  | cons e rest ih =>
    intro m hm
    unfold insertAllA
    rw [List.foldl_cons]
    exact ih (upsertA m e.1 e.2) (upsertA_ne_nil m e.1 e.2)

theorem insertAllA_ne_nil_right {β : Type} (tmp m : List (GoStr × β)) (h : tmp ≠ []) :
    insertAllA m tmp ≠ [] := by
  cases tmp with
  | nil => exact absurd rfl h
  | cons e rest =>
    unfold insertAllA
    rw [List.foldl_cons]
    exact insertAllA_ne_nil_left rest (upsertA m e.1 e.2) (upsertA_ne_nil m e.1 e.2)

theorem collectFields_ok_ne_nil :
    ∀ (fs : List (GoStr × GoStr × Bool × GoType)) (tag path : List GoStr)
      (d : List (GoStr × GoStr)) (m l : IndexL),
      m ≠ [] → collectFields fs tag path d m = .ok l → l ≠ [] := by
  intro fs
  induction fs with
  | nil =>
    intro tag path d m l hm hcf
    rw [collectFields] at hcf
    cases hcf
    exact hm
  | cons f rest ih =>
    intro tag path d m l hm hcf
    obtain ⟨nm, tg, ex, fty⟩ := f
    rw [collectFields] at hcf
    by_cases hex : ex = true
    · rw [if_pos hex] at hcf
      by_cases h2 : tg = ['-', '-']
      · rw [if_pos h2] at hcf
        exact ih tag path d m l hm hcf
      · rw [if_neg h2] at hcf
        by_cases h1 : tg = ['-']
        · rw [if_pos h1] at hcf
          cases hc : collect fty tag (path ++ [goLower nm]) true d false with
          | error err => rw [hc] at hcf; cases hcf
          | ok tmp =>
            rw [hc] at hcf
            exact ih tag path d _ l (insertAllA_ne_nil_left tmp m hm) hcf
        · rw [if_neg h1] at hcf
          dsimp only at hcf
          cases hc : collect fty (tag ++ [snakeCase (if tg = [] then applyRepl d nm else tg)])
              (path ++ [goLower nm]) false d false with
          | error err => rw [hc] at hcf; cases hcf
          | ok tmp =>
            rw [hc] at hcf
            exact ih tag path d _ l (insertAllA_ne_nil_left tmp m hm) hcf
    · rw [if_neg hex] at hcf
      exact ih tag path d m l hm hcf

theorem collect_skipfalse_ne_nil :
    (v : GoType) → ∀ (tag path : List GoStr) (d : List (GoStr × GoStr)) (isPtr : Bool),
      path ≠ [] → ∀ l, collect v tag path false d isPtr = .ok l → l ≠ []
  | .ptr t => fun tag path d isPtr hpath l hok => by
    simp only [collect] at hok
    exact collect_skipfalse_ne_nil t tag path d true hpath l hok
  | .coll ck ctu (.ptr e1) => fun tag path d isPtr hpath l hok => by
    simp only [collect] at hok
    rw [if_neg (by decide : ¬(false = true))] at hok
    split at hok
    · cases hok
      exact upsertA_ne_nil _ _ _
    · split at hok
      · cases hok
      · cases hok
        exact insertAllA_ne_nil_left _ _ (upsertA_ne_nil _ _ _)
  | .coll ck ctu (.scalar stu) => fun tag path d isPtr hpath l hok => by
    simp only [collect] at hok
    rw [if_neg (by decide : ¬(false = true))] at hok
    split at hok
    · cases hok
      exact upsertA_ne_nil _ _ _
    · split at hok
      · cases hok
      · cases hok
        exact insertAllA_ne_nil_left _ _ (upsertA_ne_nil _ _ _)
  | .coll ck ctu (.coll ck2 ctu2 e2) => fun tag path d isPtr hpath l hok => by
    simp only [collect] at hok
    rw [if_neg (by decide : ¬(false = true))] at hok
    split at hok
    · cases hok
      exact upsertA_ne_nil _ _ _
    · split at hok
      · cases hok
      · cases hok
        exact insertAllA_ne_nil_left _ _ (upsertA_ne_nil _ _ _)
  | .coll ck ctu (.strct stu sfs) => fun tag path d isPtr hpath l hok => by
    simp only [collect] at hok
    rw [if_neg (by decide : ¬(false = true))] at hok
    split at hok
    · cases hok
      exact upsertA_ne_nil _ _ _
    · split at hok
      · cases hok
      · cases hok
        exact insertAllA_ne_nil_left _ _ (upsertA_ne_nil _ _ _)
  | .strct tu fields => fun tag path d isPtr hpath l hok => by
    simp only [collect] at hok
    rw [if_pos ⟨trivial, hpath⟩] at hok
    exact collectFields_ok_ne_nil fields tag path d _ l (upsertA_ne_nil _ _ _) hok
  | .scalar tu => fun tag path d isPtr hpath l hok => by
    simp only [collect] at hok
    rw [if_neg (by decide : ¬(false = true))] at hok
    cases hok
    exact upsertA_ne_nil _ _ _

mutual

theorem collect_ok_of_noSkip :
    (v : GoType) → ∀ (tag path : List GoStr) (skip : Bool) (d : List (GoStr × GoStr)) (isPtr : Bool),
      noSkipColl skip v = true → isOkE (collect v tag path skip d isPtr) = true
  | .ptr t => fun tag path skip d isPtr h => by
    simp only [collect]
    exact collect_ok_of_noSkip t tag path skip d true h
  | .coll ck ctu (.ptr e1) => fun tag path skip d isPtr h => by
    cases skip with
    | true =>
      have hma : (ptrImplsTm e1) = true := h
      simp only [collect]
      rw [if_pos trivial, if_pos hma]
      rfl
    | false =>
      by_cases hma : (ptrImplsTm e1) = true
      · simp only [collect]
        rw [if_neg (by decide : ¬(false = true)), if_pos hma]
        rfl
      · have hns : noSkipColl false (e1) = true := by
          have hor : (ptrImplsTm e1) = true ∨ noSkipColl false (e1) = true := by
            have h2 : ((ptrImplsTm e1) || noSkipColl false (e1)) = true := h
            simpa using h2
          rcases hor with h3 | h3
          · exact absurd h3 hma
          · exact h3
        have hrec := collect_ok_of_noSkip (e1) (appendToLast tag ['[', ']'])
          (appendToLast path ['[', ']']) false d false hns
        simp only [collect]
        rw [if_neg (by decide : ¬(false = true)), if_neg hma]
        split
        · rename_i err heq
          simp only [collect] at hrec
          rw [heq] at hrec
          exact absurd hrec (by simp [isOkE])
        · rfl
  | .coll ck ctu (.scalar stu) => fun tag path skip d isPtr h => by
    cases skip with
    | true =>
      have hma : ((GoType.scalar stu).tuFlag) = true := h
      simp only [collect]
      rw [if_pos trivial, if_pos hma]
      rfl
    | false =>
      by_cases hma : ((GoType.scalar stu).tuFlag) = true
      · simp only [collect]
        rw [if_neg (by decide : ¬(false = true)), if_pos hma]
        rfl
      · have hns : noSkipColl false (GoType.scalar stu) = true := by
          simp [noSkipColl]
        have hrec := collect_ok_of_noSkip (GoType.scalar stu) (appendToLast tag ['[', ']'])
          (appendToLast path ['[', ']']) false d false hns
        simp only [collect]
        rw [if_neg (by decide : ¬(false = true)), if_neg hma]
        split
        · rename_i err heq
          simp only [collect] at hrec
          rw [heq] at hrec
          exact absurd hrec (by simp [isOkE])
        · rfl
  | .coll ck ctu (.coll ck2 ctu2 e2) => fun tag path skip d isPtr h => by
    cases skip with
    | true =>
      have hma : ((GoType.coll ck2 ctu2 e2).tuFlag) = true := h
      simp only [collect]
      rw [if_pos trivial, if_pos hma]
      rfl
    | false =>
      by_cases hma : ((GoType.coll ck2 ctu2 e2).tuFlag) = true
      · simp only [collect]
        rw [if_neg (by decide : ¬(false = true)), if_pos hma]
        rfl
      · have hns : noSkipColl false (GoType.coll ck2 ctu2 e2) = true := by
          have hor : ((GoType.coll ck2 ctu2 e2).tuFlag) = true ∨ noSkipColl false (GoType.coll ck2 ctu2 e2) = true := by
            have h2 : (((GoType.coll ck2 ctu2 e2).tuFlag) || noSkipColl false (GoType.coll ck2 ctu2 e2)) = true := h
            simpa using h2
          rcases hor with h3 | h3
          · exact absurd h3 hma
          · exact h3
        have hrec := collect_ok_of_noSkip (GoType.coll ck2 ctu2 e2) (appendToLast tag ['[', ']'])
          (appendToLast path ['[', ']']) false d false hns
        simp only [collect]
        rw [if_neg (by decide : ¬(false = true)), if_neg hma]
        split
        · rename_i err heq
          simp only [collect] at hrec
          rw [heq] at hrec
          exact absurd hrec (by simp [isOkE])
        · rfl
  | .coll ck ctu (.strct stu sfs) => fun tag path skip d isPtr h => by
    cases skip with
    | true =>
      have hma : ((GoType.strct stu sfs).tuFlag) = true := h
      simp only [collect]
      rw [if_pos trivial, if_pos hma]
      rfl
    | false =>
      by_cases hma : ((GoType.strct stu sfs).tuFlag) = true
      · simp only [collect]
        rw [if_neg (by decide : ¬(false = true)), if_pos hma]
        rfl
      · have hns : noSkipColl false (GoType.strct stu sfs) = true := by
          have hor : ((GoType.strct stu sfs).tuFlag) = true ∨ noSkipColl false (GoType.strct stu sfs) = true := by
            have h2 : (((GoType.strct stu sfs).tuFlag) || noSkipColl false (GoType.strct stu sfs)) = true := h
            simpa using h2
          rcases hor with h3 | h3
          · exact absurd h3 hma
          · exact h3
        have hrec := collect_ok_of_noSkip (GoType.strct stu sfs) (appendToLast tag ['[', ']'])
          (appendToLast path ['[', ']']) false d false hns
        simp only [collect]
        rw [if_neg (by decide : ¬(false = true)), if_neg hma]
        split
        · rename_i err heq
          simp only [collect] at hrec
          rw [heq] at hrec
          exact absurd hrec (by simp [isOkE])
        · rfl
  | .strct tu fields => fun tag path skip d isPtr h => by
    simp only [collect]
    exact collectFields_ok_of_noSkip fields tag path d _ h
  | .scalar tu => fun tag path skip d isPtr h => by
    cases skip with
    | true => simp [collect, isOkE]
    | false => simp [collect, isOkE]

theorem collectFields_ok_of_noSkip :
    (fs : List (GoStr × GoStr × Bool × GoType)) → ∀ (tag path : List GoStr)
      (d : List (GoStr × GoStr)) (m : IndexL),
      noSkipFields fs = true → isOkE (collectFields fs tag path d m) = true
  | [] => fun tag path d m _ => by
    simp only [collectFields]
    rfl
  | (nm, tg, ex, fty) :: rest => fun tag path d m h => by
    simp only [noSkipFields, Bool.and_eq_true] at h
    simp only [collectFields]
    by_cases hex : ex = true
    · rw [if_pos hex]
      by_cases h2 : tg = ['-', '-']
      · rw [if_pos h2]
        exact collectFields_ok_of_noSkip rest tag path d m h.2
      · rw [if_neg h2]
        by_cases h1 : tg = ['-']
        · rw [if_pos h1]
          have hns : noSkipColl true fty = true := by
            have h4 := h.1
            rw [if_pos hex, if_neg h2, if_pos h1] at h4
            exact h4
          have hrec := collect_ok_of_noSkip fty tag (path ++ [goLower nm]) true d false hns
          cases hc : collect fty tag (path ++ [goLower nm]) true d false with
          | error err => rw [hc] at hrec; exact absurd hrec (by simp [isOkE])
          | ok tmp =>
            exact collectFields_ok_of_noSkip rest tag path d _ h.2
        · rw [if_neg h1]
          have hns : noSkipColl false fty = true := by
            have h4 := h.1
            rw [if_pos hex, if_neg h2, if_neg h1] at h4
            exact h4
          have hrec := collect_ok_of_noSkip fty
            (tag ++ [snakeCase (if tg = [] then applyRepl d nm else tg)])
            (path ++ [goLower nm]) false d false hns
          cases hc : collect fty (tag ++ [snakeCase (if tg = [] then applyRepl d nm else tg)])
              (path ++ [goLower nm]) false d false with
          | error err => rw [hc] at hrec; exact absurd hrec (by simp [isOkE])
          | ok tmp =>
            exact collectFields_ok_of_noSkip rest tag path d _ h.2
    · rw [if_neg hex]
      exact collectFields_ok_of_noSkip rest tag path d m h.2

end

theorem collectFields_plain_ne_nil :
    ∀ (fs : List (GoStr × GoStr × Bool × GoType)) (tag path : List GoStr)
      (d : List (GoStr × GoStr)) (m l : IndexL) (gn gt : GoStr) (gty : GoType),
      (gn, gt, true, gty) ∈ fs → gt ≠ ['-', '-'] → gt ≠ ['-'] →
      collectFields fs tag path d m = .ok l → l ≠ [] := by
  intro fs
  induction fs with
  | nil => intro _ _ _ _ _ _ _ _ hmem; cases hmem
  | cons f rest ih =>
    intro tag path d m l gn gt gty hmem h2 h1 hcf
    obtain ⟨nm, tg, ex, fty⟩ := f
    rw [collectFields] at hcf
    rcases List.mem_cons.mp hmem with heq | hmem'
    · obtain ⟨rfl, rfl, hex, rfl⟩ : nm = gn ∧ tg = gt ∧ ex = true ∧ fty = gty := by
        simpa [Prod.ext_iff] using heq.symm
      rw [if_pos hex, if_neg h2, if_neg h1] at hcf
      dsimp only at hcf
      cases hc : collect fty (tag ++ [snakeCase (if tg = [] then applyRepl d nm else tg)])
          (path ++ [goLower nm]) false d false with
      | error err => rw [hc] at hcf; cases hcf
      | ok tmp =>
        rw [hc] at hcf
        have htmp : tmp ≠ [] :=
          collect_skipfalse_ne_nil fty _ (path ++ [goLower nm]) d false (by simp) tmp hc
        exact collectFields_ok_ne_nil rest tag path d _ l
          (insertAllA_ne_nil_right tmp m htmp) hcf
    · by_cases hex : ex = true
      · rw [if_pos hex] at hcf
        by_cases ht2 : tg = ['-', '-']
        · rw [if_pos ht2] at hcf
          exact ih tag path d m l gn gt gty hmem' h2 h1 hcf
        · rw [if_neg ht2] at hcf
          by_cases ht1 : tg = ['-']
          · rw [if_pos ht1] at hcf
            cases hc : collect fty tag (path ++ [goLower nm]) true d false with
            | error err => rw [hc] at hcf; cases hcf
            | ok tmp =>
              rw [hc] at hcf
              exact ih tag path d _ l gn gt gty hmem' h2 h1 hcf
          · rw [if_neg ht1] at hcf
            dsimp only at hcf
            cases hc : collect fty (tag ++ [snakeCase (if tg = [] then applyRepl d nm else tg)])
                (path ++ [goLower nm]) false d false with
            | error err => rw [hc] at hcf; cases hcf
            | ok tmp =>
              rw [hc] at hcf
              exact ih tag path d _ l gn gt gty hmem' h2 h1 hcf
      · rw [if_neg hex] at hcf
        exact ih tag path d m l gn gt gty hmem' h2 h1 hcf

theorem collectFields_skip_err :
    ∀ (fs : List (GoStr × GoStr × Bool × GoType)) (tag path : List GoStr)
      (d : List (GoStr × GoStr)) (nm : GoStr) (fty : GoType) (err : CollectErr),
      (nm, ['-'], true, fty) ∈ fs →
      collect fty tag (path ++ [goLower nm]) true d false = .error err →
      ∀ m, ∃ err2, collectFields fs tag path d m = .error err2 := by
  intro fs
  induction fs with
  | nil => intro _ _ _ _ _ _ hmem; cases hmem
  | cons f rest ih =>
    intro tag path d nm fty err hmem herr m
    obtain ⟨fn, tg, ex, ft⟩ := f
    rcases List.mem_cons.mp hmem with heq | hmem'
    · obtain ⟨rfl, rfl, hex, rfl⟩ : fn = nm ∧ tg = ['-'] ∧ ex = true ∧ ft = fty := by
        simpa [Prod.ext_iff] using heq.symm
      refine ⟨err, ?_⟩
      rw [collectFields, if_pos hex, if_neg (by decide), if_pos rfl, herr]
    · by_cases hex : ex = true
      · by_cases ht2 : tg = ['-', '-']
        · obtain ⟨err2, he⟩ := ih tag path d nm fty err hmem' herr m
          exact ⟨err2, by rw [collectFields, if_pos hex, if_pos ht2]; exact he⟩
        · by_cases ht1 : tg = ['-']
          · cases hc : collect ft tag (path ++ [goLower fn]) true d false with
            | error e2 =>
              exact ⟨e2, by rw [collectFields, if_pos hex, if_neg ht2, if_pos ht1, hc]⟩
            | ok tmp =>
              obtain ⟨err2, he⟩ := ih tag path d nm fty err hmem' herr (insertAllA m tmp)
              exact ⟨err2, by rw [collectFields, if_pos hex, if_neg ht2, if_pos ht1, hc]; exact he⟩
          · cases hc : collect ft (tag ++ [snakeCase (if tg = [] then applyRepl d fn else tg)])
                (path ++ [goLower fn]) false d false with
            | error e2 =>
              refine ⟨e2, ?_⟩
              rw [collectFields, if_pos hex, if_neg ht2, if_neg ht1]
              dsimp only
              rw [hc]
            | ok tmp =>
              obtain ⟨err2, he⟩ := ih tag path d nm fty err hmem' herr (insertAllA m tmp)
              refine ⟨err2, ?_⟩
              rw [collectFields, if_pos hex, if_neg ht2, if_neg ht1]
              dsimp only
              rw [hc]
              exact he
      · obtain ⟨err2, he⟩ := ih tag path d nm fty err hmem' herr m
        exact ⟨err2, by rw [collectFields, if_neg hex]; exact he⟩

theorem collect_skip_structcoll_err (ck : CKind) (ctu : Bool)
    (efs : List (GoStr × GoStr × Bool × GoType)) (tag path : List GoStr)
    (d : List (GoStr × GoStr)) (isPtr : Bool) (gn gt : GoStr) (gty : GoType)
    (hmem : (gn, gt, true, gty) ∈ efs) (h2 : gt ≠ ['-', '-']) (h1 : gt ≠ ['-']) :
    ∃ err, collect (.coll ck ctu (.strct false efs)) tag path true d isPtr = .error err := by
  cases hc : collect (.strct false efs) tag path true d false with
  | error e =>
    refine ⟨e, ?_⟩
    simp only [collect] at hc ⊢
    rw [if_pos trivial, if_neg (by simp [GoType.tuFlag] : ¬((GoType.strct false efs).tuFlag = true)), hc]
  | ok tmp =>
    have htmp : tmp ≠ [] := by
      simp only [collect] at hc
      exact collectFields_plain_ne_nil efs tag path d _ tmp gn gt gty hmem h2 h1 hc
    refine ⟨.cantSkipColl (joinD path), ?_⟩
    simp only [collect] at hc ⊢
    rw [if_pos trivial, if_neg (by simp [GoType.tuFlag] : ¬((GoType.strct false efs).tuFlag = true)), hc]
    simp [List.isEmpty_iff, htmp]

theorem C4_skip_collection_error :
    (∀ (v : GoType) (d : List (GoStr × GoStr)),
      noSkipColl false (stripPtrs v) = true → isOkE (buildIndex v d) = true) ∧
    (∀ (tu : Bool) (fs : List (GoStr × GoStr × Bool × GoType)) (d : List (GoStr × GoStr))
       (nm : GoStr) (ck : CKind) (ctu : Bool) (efs : List (GoStr × GoStr × Bool × GoType))
       (gn gt : GoStr) (gty : GoType),
      (nm, ['-'], true, GoType.coll ck ctu (.strct false efs)) ∈ fs →
      (gn, gt, true, gty) ∈ efs → gt ≠ ['-', '-'] → gt ≠ ['-'] →
      isOkE (buildIndex (.strct tu fs) d) = false) := by
  constructor
  · intro v d h
    unfold buildIndex
    by_cases hs : isStructT (stripPtrs v) = true
    · rw [if_pos hs]
      exact collect_ok_of_noSkip (stripPtrs v) [] [] false d false h
    · rw [if_neg hs]
      rfl
  · intro tu fs d nm ck ctu efs gn gt gty hmem hg h2 h1
    obtain ⟨err, herr⟩ :=
      collect_skip_structcoll_err ck ctu efs [] ([] ++ [goLower nm]) d false gn gt gty hg h2 h1
    obtain ⟨err2, he⟩ :=
      collectFields_skip_err fs [] [] d nm (GoType.coll ck ctu (.strct false efs)) err hmem herr []
    unfold buildIndex
    simp only [stripPtrs, isStructT]
    rw [if_pos trivial]
    simp only [collect]
    rw [if_neg (by simp : ¬(True ∧ ([] : List GoStr) ≠ []))]
    rw [he]
    rfl

theorem C4_counterexample :
    isOkE (buildIndex (.strct false
      [(gs "A", gs "-", true, .coll .slice false (.scalar false))]) []) = true ∧
    (match buildIndex (.strct false
        [(gs "A", gs "-", true, .coll .slice false (.scalar false))]) [] with
     | .ok l => l.isEmpty
     | .error _ => false) = true := by decide

theorem C4_witness :
    isOkE (buildIndex (.strct false [(gs "Host", [], true, .scalar false)]) []) = true ∧
    isOkE (buildIndex (.strct false
      [(gs "Nested", ['-'], true,
        .coll .slice false (.strct false [(gs "Name", [], true, .scalar false)]))]) []) = false :=
  ⟨C4_skip_collection_error.1 _ [] (by decide),
   C4_skip_collection_error.2 false _ [] (gs "Nested") .slice false _ (gs "Name") [] (.scalar false)
     (List.mem_cons_self _ _) (List.mem_cons_self _ _) (by decide) (by decide)⟩

/-! ### Character and bracket-freeness lemmas -/

theorem toNat_ofNat_mid (n : Nat) (h1 : 65 ≤ n) (h2 : n ≤ 122) : (Char.ofNat n).toNat = n := by
  have hv : n.isValidChar := Or.inl (by omega)
  simp [Char.ofNat, hv, Char.ofNatAux, Char.toNat, UInt32.toNat, BitVec.toNat_ofNat]

theorem toLower_ne_bracket (c b : Char) (hb1 : 91 ≤ b.toNat) (hb2 : b.toNat ≤ 96)
    (h : c ≠ b) : c.toLower ≠ b := by
  unfold Char.toLower
  dsimp only
  split
  · intro he
    have h2 : (Char.ofNat (c.toNat + 32)).toNat = c.toNat + 32 := by
      apply toNat_ofNat_mid <;> omega
    rw [he] at h2
    omega
  · exact h

theorem toUpper_ne_bracket (c b : Char) (hb1 : 91 ≤ b.toNat) (hb2 : b.toNat ≤ 96)
    (h : c ≠ b) : c.toUpper ≠ b := by
  unfold Char.toUpper
  dsimp only
  split
  · intro he
    have h2 : (Char.ofNat (c.toNat - 32)).toNat = c.toNat - 32 := by
      apply toNat_ofNat_mid <;> omega
    rw [he] at h2
    omega
  · exact h

theorem brFree_iff (s : GoStr) : brFree s = true ↔ ∀ c ∈ s, c ≠ '[' ∧ c ≠ ']' := by
  unfold brFree
  rw [List.all_eq_true]
  constructor
  · intro h c hc
    have := h c hc
    simp only [bne_iff_ne, Bool.and_eq_true] at this
    exact this
  · intro h c hc
    simp only [bne_iff_ne, Bool.and_eq_true]
    exact h c hc

theorem brFree_lower (s : GoStr) (h : brFree s = true) : brFree (goLower s) = true := by
  rw [brFree_iff] at h ⊢
  intro c hc
  rw [goLower, List.mem_map] at hc
  obtain ⟨a, ha, rfl⟩ := hc
  obtain ⟨h1, h2⟩ := h a ha
  exact ⟨toLower_ne_bracket a '[' (by decide) (by decide) h1,
         toLower_ne_bracket a ']' (by decide) (by decide) h2⟩

theorem brFree_upper (s : GoStr) (h : brFree s = true) : brFree (goUpper s) = true := by
  rw [brFree_iff] at h ⊢
  intro c hc
  rw [goUpper, List.mem_map] at hc
  obtain ⟨a, ha, rfl⟩ := hc
  obtain ⟨h1, h2⟩ := h a ha
  exact ⟨toUpper_ne_bracket a '[' (by decide) (by decide) h1,
         toUpper_ne_bracket a ']' (by decide) (by decide) h2⟩

theorem mem_insertUnders : (s : GoStr) → ∀ c ∈ insertUnders s, c ∈ s ∨ c = '_'
  | [], _, hc => absurd hc (by simp [insertUnders])
  | [a], c, hc => by
    simp only [insertUnders] at hc
    simp only [List.mem_singleton] at hc
    exact Or.inl (hc ▸ List.mem_singleton.mpr rfl)
  | a :: b :: rest, c, hc => by
    simp only [insertUnders] at hc
    split at hc
    · rcases List.mem_cons.mp hc with rfl | hc
      · exact Or.inl (List.mem_cons_self _ _)
      · rcases List.mem_cons.mp hc with rfl | hc
        · exact Or.inr rfl
        · rcases mem_insertUnders (b :: rest) c hc with h | h
          · exact Or.inl (List.mem_cons_of_mem _ h)
          · exact Or.inr h
    · rcases List.mem_cons.mp hc with rfl | hc
      · exact Or.inl (List.mem_cons_self _ _)
      · rcases mem_insertUnders (b :: rest) c hc with h | h
        · exact Or.inl (List.mem_cons_of_mem _ h)
        · exact Or.inr h

theorem brFree_insertUnders (s : GoStr) (h : brFree s = true) :
    brFree (insertUnders s) = true := by
  rw [brFree_iff] at h ⊢
  intro c hc
  rcases mem_insertUnders s c hc with h1 | rfl
  · exact h c h1
  · exact ⟨by decide, by decide⟩

theorem brFree_snakeCase (s : GoStr) (h : brFree s = true) : brFree (snakeCase s) = true := by
  unfold snakeCase
  split
  · exact h
  · exact brFree_upper _ (brFree_insertUnders s h)

theorem brFree_append (a b : GoStr) (ha : brFree a = true) (hb : brFree b = true) :
    brFree (a ++ b) = true := by
  unfold brFree at *
  rw [List.all_append, ha, hb]
  rfl

theorem brFree_sub (s t : GoStr) (hs : brFree s = true) (h : ∀ c ∈ t, c ∈ s) :
    brFree t = true := by
  rw [brFree_iff] at hs ⊢
  exact fun c hc => hs c (h c hc)

theorem brFree_replaceAllGo (pat rep : GoStr) (hrep : brFree rep = true) :
    (fuel : Nat) → (s : GoStr) → brFree s = true → brFree (replaceAllGo pat rep fuel s) = true
  | 0, s, hs => hs
  | fuel + 1, s, hs => by
    unfold replaceAllGo
    split
    · exact brFree_append _ _ hrep
        (brFree_replaceAllGo pat rep hrep fuel (s.drop pat.length)
          (brFree_sub s _ hs (fun c hc => List.mem_of_mem_drop hc)))
    · match s, hs with
      | [], _ => exact rfl
      | c :: rest, hs => ?_
      have hc : (c != '[' && c != ']') = true := by
        rw [brFree_iff] at hs
        have := hs c (List.mem_cons_self _ _)
        simp only [bne_iff_ne, Bool.and_eq_true]
        exact this
      have hrest : brFree rest = true := by
        rw [brFree_iff] at hs ⊢
        exact fun x hx => hs x (List.mem_cons_of_mem _ hx)
      have := brFree_replaceAllGo pat rep hrep fuel rest hrest
      unfold brFree at this ⊢
      simp only [List.all_cons, hc, this, Bool.and_self]

theorem brFree_replaceAll (s pat rep : GoStr) (hs : brFree s = true) (hrep : brFree rep = true) :
    brFree (replaceAll s pat rep) = true := by
  unfold replaceAll
  split
  · apply brFree_append _ _ hrep
    induction s with
    | nil => rfl
    | cons c rest ih =>
      have hc : brFree [c] = true := by
        rw [brFree_iff] at hs ⊢
        intro x hx
        rw [List.mem_singleton] at hx
        exact hx ▸ hs c (List.mem_cons_self _ _)
      have hrest : brFree rest = true := by
        rw [brFree_iff] at hs ⊢
        exact fun x hx => hs x (List.mem_cons_of_mem _ hx)
      simp only [List.foldr_cons]
      have h1 : brFree (rep ++ rest.foldr (fun c acc => c :: (rep ++ acc)) []) = true :=
        brFree_append _ _ hrep (ih hrest)
      rw [brFree_iff] at h1 hc ⊢
      intro x hx
      rcases List.mem_cons.mp hx with rfl | hx
      · exact hc x (List.mem_singleton.mpr rfl)
      · exact h1 x hx
  · exact brFree_replaceAllGo pat rep hrep s.length s hs

theorem brFree_applyRepl : (d : List (GoStr × GoStr)) → (s : GoStr) → replBF d = true →
    brFree s = true → brFree (applyRepl d s) = true
  | [], _, _, hs => hs
  | kv :: rest, s, hd, hs => by
    have hkv : brFree kv.2 = true := by
      unfold replBF at hd
      rw [List.all_eq_true] at hd
      have := hd kv (List.mem_cons_self _ _)
      simp only [Bool.and_eq_true] at this
      exact this.2
    have hrest : replBF rest = true := by
      unfold replBF at hd ⊢
      rw [List.all_eq_true] at hd ⊢
      exact fun x hx => hd x (List.mem_cons_of_mem _ hx)
    have h1 : brFree (replaceAll s kv.1 kv.2) = true := brFree_replaceAll s kv.1 kv.2 hs hkv
    have h2 := brFree_applyRepl rest (replaceAll s kv.1 kv.2) hrest h1
    unfold applyRepl at h2 ⊢
    simpa using h2

/-! ### Placeholder-counting lemmas -/

theorem countBr_cons_of_ne_lb (c : Char) (s : GoStr) (h : c ≠ '[') :
    countBr (c :: s) = countBr s := by
  cases s with
  | nil => rfl
  | cons d rest =>
    simp only [countBr]
    rw [if_neg (fun hp => h hp.1)]

theorem countBr_cons_cons_zero (c d : Char) (rest : GoStr) (h : countBr (c :: d :: rest) = 0) :
    ¬(c = '[' ∧ d = ']') ∧ countBr (d :: rest) = 0 := by
  unfold countBr at h
  split at h
  · exact absurd h (Nat.succ_ne_zero _)
  · exact ⟨by assumption, h⟩

theorem brFree_countBr : (s : GoStr) → brFree s = true → countBr s = 0
  | [], _ => rfl
  | c :: rest, hs => by
    have hc : c ≠ '[' := by
      rw [brFree_iff] at hs
      exact (hs c (List.mem_cons_self _ _)).1
    have hrest : brFree rest = true := by
      rw [brFree_iff] at hs ⊢
      exact fun x hx => hs x (List.mem_cons_of_mem _ hx)
    rw [countBr_cons_of_ne_lb c rest hc]
    exact brFree_countBr rest hrest

theorem brFree_wfStr : (s : GoStr) → brFree s = true → wfStr s = true
  | [], _ => rfl
  | c :: rest, hs => by
    have hc := (brFree_iff _ |>.mp hs) c (List.mem_cons_self _ _)
    have hrest : brFree rest = true := by
      rw [brFree_iff] at hs ⊢
      exact fun x hx => hs x (List.mem_cons_of_mem _ hx)
    unfold wfStr
    rw [if_neg hc.1, if_neg hc.2]
    exact brFree_wfStr rest hrest

theorem wfStr_cons_other (c : Char) (s : GoStr) (h1 : c ≠ '[') (h2 : c ≠ ']') :
    wfStr (c :: s) = wfStr s := by
  cases s with
  | nil => simp [wfStr, h1, h2]
  | cons d r =>
    simp only [wfStr]
    rw [if_neg h1, if_neg h2]

theorem wfStr_cons_pair (s : GoStr) : wfStr ('[' :: ']' :: s) = wfStr s := by
  simp [wfStr]

theorem countBr_cons_pair (s : GoStr) : countBr ('[' :: ']' :: s) = countBr s + 1 := by
  simp [countBr]

theorem wfStr_lb (d : Char) (r : GoStr) (h : wfStr ('[' :: d :: r) = true) :
    d = ']' ∧ wfStr r = true := by
  by_cases hd : d = ']'
  · subst hd
    exact ⟨rfl, by rwa [wfStr_cons_pair] at h⟩
  · simp only [wfStr] at h
    rw [if_neg hd] at h
    exact absurd h Bool.false_ne_true

theorem wfStr_rb (rest : GoStr) : wfStr (']' :: rest) = false := by
  cases rest with
  | nil => simp [wfStr]
  | cons d r => simp [wfStr]

theorem countBr_append_wf : (a : GoStr) → wfStr a = true → ∀ b,
    countBr (a ++ b) = countBr a + countBr b
  | [], _, b => by
    have h0 : countBr ([] : GoStr) = 0 := rfl
    rw [List.nil_append, h0]
    omega
  | [c], ha, b => by
    have hc : c ≠ '[' := by
      intro h
      subst h
      simp [wfStr] at ha
    rw [List.singleton_append, countBr_cons_of_ne_lb c b hc]
    have h0 : countBr [c] = 0 := rfl
    rw [h0]
    omega
  | c :: d :: rest, ha, b => by
    by_cases hc : c = '['
    · subst hc
      have hd : d = ']' := (wfStr_lb _ _ ha).1
      subst hd
      have hrest : wfStr rest = true := by rwa [wfStr_cons_pair] at ha
      show countBr ('[' :: ']' :: (rest ++ b)) = countBr ('[' :: ']' :: rest) + countBr b
      rw [countBr_cons_pair, countBr_cons_pair, countBr_append_wf rest hrest b]
      omega
    · have hc2 : c ≠ ']' := by
        intro h
        subst h
        simp [wfStr] at ha
      have hrest : wfStr (d :: rest) = true := by rwa [wfStr_cons_other c _ hc hc2] at ha
      show countBr (c :: (d :: rest ++ b)) = countBr (c :: d :: rest) + countBr b
      rw [countBr_cons_of_ne_lb c _ hc, countBr_cons_of_ne_lb c _ hc]
      exact countBr_append_wf (d :: rest) hrest b

theorem wfStr_append : (a : GoStr) → wfStr a = true → ∀ b, wfStr b = true →
    wfStr (a ++ b) = true
  | [], _, b, hb => hb
  | [c], ha, b, hb => by
    have hc1 : c ≠ '[' := by
      intro h; subst h; simp [wfStr] at ha
    have hc2 : c ≠ ']' := by
      intro h; subst h; simp [wfStr] at ha
    rw [List.singleton_append, wfStr_cons_other c b hc1 hc2]
    exact hb
  | c :: d :: rest, ha, b, hb => by
    by_cases hc : c = '['
    · subst hc
      have hd : d = ']' := (wfStr_lb _ _ ha).1
      subst hd
      have hrest : wfStr rest = true := by rwa [wfStr_cons_pair] at ha
      show wfStr ('[' :: ']' :: (rest ++ b)) = true
      rw [wfStr_cons_pair]
      exact wfStr_append rest hrest b hb
    · have hc2 : c ≠ ']' := by
        intro h; subst h; simp [wfStr] at ha
      have hrest : wfStr (d :: rest) = true := by rwa [wfStr_cons_other c _ hc hc2] at ha
      show wfStr (c :: (d :: rest ++ b)) = true
      rw [wfStr_cons_other c _ hc hc2]
      exact wfStr_append (d :: rest) hrest b hb

theorem wfStr_getLast : (s : GoStr) → wfStr s = true → s.getLast? ≠ some '['
  | [], _ => by simp
  | [c], hs => by
    have hc1 : c ≠ '[' := by
      intro h; subst h; simp [wfStr] at hs
    simpa using hc1
  | c :: d :: rest, hs => by
    by_cases hc : c = '['
    · subst hc
      have hd : d = ']' := (wfStr_lb _ _ hs).1
      subst hd
      have hrest : wfStr rest = true := by rwa [wfStr_cons_pair] at hs
      rw [List.getLast?_cons_cons]
      match rest, hrest with
      | [], _ => simp
      | e :: r, hrest =>
        rw [List.getLast?_cons_cons]
        have := wfStr_getLast (e :: r) hrest
        simpa using this
    · have hc2 : c ≠ ']' := by
        intro h; subst h; simp [wfStr] at hs
      have hrest : wfStr (d :: rest) = true := by rwa [wfStr_cons_other c _ hc hc2] at hs
      rw [List.getLast?_cons_cons]
      exact wfStr_getLast (d :: rest) hrest

theorem brFree_getLast (s : GoStr) (hs : brFree s = true) : s.getLast? ≠ some '[' := by
  intro h
  have hm : '[' ∈ s := by
    rcases List.getLast?_eq_some_iff.mp h with ⟨l, hl⟩
    exact hl ▸ List.mem_append_right l (List.mem_singleton.mpr rfl)
  exact ((brFree_iff s |>.mp hs) '[' hm).1 rfl

theorem countBr_clean_append : (C : GoStr) → countBr C = 0 → C.getLast? ≠ some '[' →
    ∀ D, countBr (C ++ D) = countBr D
  | [], _, _, D => rfl
  | [c], _, hl, D => by
    have hc : c ≠ '[' := by simpa using hl
    rw [List.singleton_append, countBr_cons_of_ne_lb c D hc]
  | c :: d :: rest, h0, hl, D => by
    obtain ⟨hpair, hrest⟩ := countBr_cons_cons_zero c d rest h0
    have hstep : countBr (c :: d :: (rest ++ D)) = countBr (d :: (rest ++ D)) := by
      simp only [countBr]
      rw [if_neg hpair]
    have hrec := countBr_clean_append (d :: rest) hrest
      (by rw [← List.getLast?_cons_cons (a := c)]; exact hl) D
    calc countBr ((c :: d :: rest) ++ D) = countBr (c :: d :: (rest ++ D)) := by
          simp only [List.cons_append]
      _ = countBr (d :: (rest ++ D)) := hstep
      _ = countBr ((d :: rest) ++ D) := by simp only [List.cons_append]
      _ = countBr D := hrec

theorem getLast_clean_append (C D : GoStr) (hC : C.getLast? ≠ some '[')
    (hD : D.getLast? ≠ some '[') : (C ++ D).getLast? ≠ some '[' := by
  rw [List.getLast?_append]
  match hd : D.getLast? with
  | some x =>
    rw [hd] at hD
    simpa [Option.or] using hD
  | none =>
    simpa [Option.or, hd] using hC

/-! ### Join and membership lemmas -/

theorem intercalate_one (sep : GoStr) (x : GoStr) : List.intercalate sep [x] = x := by
  simp [List.intercalate]

theorem intercalate_cons_cons (sep : GoStr) (x y : GoStr) (r : List GoStr) :
    List.intercalate sep (x :: y :: r) = x ++ sep ++ List.intercalate sep (y :: r) := by
  simp [List.intercalate, List.intersperse]

theorem intercalate_append_one (sep : GoStr) :
    (l : List GoStr) → l ≠ [] → ∀ x,
    List.intercalate sep (l ++ [x]) = List.intercalate sep l ++ sep ++ x
  | [], h, _ => absurd rfl h
  | [y], _, x => by
    rw [List.singleton_append, intercalate_cons_cons, intercalate_one, intercalate_one]
  | y :: z :: r, _, x => by
    have h1 : (y :: z :: r) ++ [x] = y :: z :: (r ++ [x]) := by simp
    rw [h1, intercalate_cons_cons]
    have h2 : z :: (r ++ [x]) = (z :: r) ++ [x] := by simp
    rw [h2, intercalate_append_one sep (z :: r) (List.cons_ne_nil z r) x]
    rw [intercalate_cons_cons sep y z r]
    simp [List.append_assoc]

theorem appendToLast_ne_nil : (l : List GoStr) → l ≠ [] → ∀ suf, appendToLast l suf ≠ []
  | [], h, _ => absurd rfl h
  | [x], _, suf => by simp [appendToLast]
  | x :: y :: r, _, suf => by simp [appendToLast]

theorem intercalate_appendToLast (sep : GoStr) :
    (l : List GoStr) → l ≠ [] → ∀ suf,
    List.intercalate sep (appendToLast l suf) = List.intercalate sep l ++ suf
  | [], h, _ => absurd rfl h
  | [x], _, suf => by
    show List.intercalate sep [x ++ suf] = List.intercalate sep [x] ++ suf
    rw [intercalate_one, intercalate_one]
  | x :: y :: r, _, suf => by
    show List.intercalate sep (x :: appendToLast (y :: r) suf)
        = List.intercalate sep (x :: y :: r) ++ suf
    have hne := appendToLast_ne_nil (y :: r) (List.cons_ne_nil y r) suf
    match ha : appendToLast (y :: r) suf, hne with
    | z :: zr, _ =>
      rw [intercalate_cons_cons, ← ha,
          intercalate_appendToLast sep (y :: r) (List.cons_ne_nil y r) suf,
          intercalate_cons_cons]
      simp [List.append_assoc]

theorem mem_upsertA {β : Type} (m : List (GoStr × β)) (k : GoStr) (v : β) :
    ∀ e ∈ upsertA m k v, e ∈ m ∨ e = (k, v) := by
  intro e he
  unfold upsertA at he
  split at he
  · rw [List.mem_map] at he
    obtain ⟨a, ha, hae⟩ := he
    by_cases hk : a.1 = k
    · rw [if_pos hk] at hae
      exact Or.inr hae.symm
    · rw [if_neg hk] at hae
      exact Or.inl (hae ▸ ha)
  · rcases List.mem_append.mp he with h | h
    · exact Or.inl h
    · exact Or.inr (List.mem_singleton.mp h)

theorem mem_insertAllA {β : Type} :
    (tmp : List (GoStr × β)) → (m : List (GoStr × β)) →
    ∀ e ∈ insertAllA m tmp, e ∈ m ∨ e ∈ tmp
  | [], m, e, he => Or.inl he
  | a :: rest, m, e, he => by
    have h1 : insertAllA m (a :: rest) = insertAllA (upsertA m a.1 a.2) rest := by
      simp [insertAllA]
    rw [h1] at he
    rcases mem_insertAllA rest (upsertA m a.1 a.2) e he with h | h
    · rcases mem_upsertA m a.1 a.2 e h with h2 | h2
      · exact Or.inl h2
      · right
        rw [h2]
        exact List.mem_cons_self _ _
    · exact Or.inr (List.mem_cons_of_mem _ h)

/-! ### Placeholder substitution lemmas -/

theorem replaceOne_nil (pat rep : GoStr) (h : pat ≠ []) : replaceOne [] pat rep = [] := by
  unfold replaceOne
  rw [if_neg (by simp)]
  simp [h]

theorem replaceOne_cons2 (c d : Char) (t rep : GoStr) (h : ¬(c = '[' ∧ d = ']')) :
    replaceOne (c :: d :: t) ['[', ']'] rep = c :: replaceOne (d :: t) ['[', ']'] rep := by
  by_cases hc : c = '['
  · subst hc
    have hd : d ≠ ']' := fun h' => h ⟨rfl, h'⟩
    simp [replaceOne, List.isPrefixOf, hd]
    intro h'
    exact absurd h'.symm hd
  · simp [replaceOne, List.isPrefixOf, hc]
    intro h'
    exact absurd h'.symm hc

theorem replaceOne_cons1 (c : Char) (rep : GoStr) (h : c ≠ '[') :
    ∀ s, replaceOne (c :: s) ['[', ']'] rep = c :: replaceOne s ['[', ']'] rep := by
  intro s
  cases s with
  | nil => simp [replaceOne, List.isPrefixOf, h]
  | cons d t => exact replaceOne_cons2 c d t rep (fun hp => h hp.1)

theorem replaceOne_hit (b rep : GoStr) :
    replaceOne ('[' :: ']' :: b) ['[', ']'] rep = rep ++ b := by
  unfold replaceOne
  rw [if_pos ⟨by simp [List.isPrefixOf], by simp, by simp⟩]
  rfl

theorem replaceOne_skip : (C : GoStr) → countBr C = 0 → C.getLast? ≠ some '[' →
    ∀ b rep, replaceOne (C ++ b) ['[', ']'] rep = C ++ replaceOne b ['[', ']'] rep
  | [], _, _, b, rep => rfl
  | [c], _, hl, b, rep => by
    have hc : c ≠ '[' := by simpa using hl
    rw [List.singleton_append, replaceOne_cons1 c rep hc b]
    rfl
  | c :: d :: rest, h0, hl, b, rep => by
    obtain ⟨hpair, hrest⟩ := countBr_cons_cons_zero c d rest h0
    have h1 : (c :: d :: rest) ++ b = c :: ((d :: rest) ++ b) := by simp
    have h2 : (d :: rest) ++ b = d :: (rest ++ b) := by simp
    rw [h1, h2, replaceOne_cons2 c d (rest ++ b) rep hpair, ← h2,
        replaceOne_skip (d :: rest) hrest
          (by rw [← List.getLast?_cons_cons (a := c)]; exact hl) b rep]
    simp

theorem replaceOne_at_ph : (a : GoStr) → brFree a = true →
    ∀ b rep, replaceOne (a ++ '[' :: ']' :: b) ['[', ']'] rep = a ++ rep ++ b
  | [], _, b, rep => by
    rw [List.nil_append, replaceOne_hit b rep]
    simp
  | c :: a', ha, b, rep => by
    have hc : c ≠ '[' := ((brFree_iff _).mp ha c (List.mem_cons_self _ _)).1
    have ha' : brFree a' = true := by
      rw [brFree_iff] at ha ⊢
      exact fun x hx => ha x (List.mem_cons_of_mem _ hx)
    have h1 : (c :: a') ++ '[' :: ']' :: b = c :: (a' ++ '[' :: ']' :: b) := by simp
    rw [h1, replaceOne_cons1 c rep hc _, replaceOne_at_ph a' ha' b rep]
    simp

theorem split_first_ph : (k : GoStr) → wfStr k = true → countBr k ≠ 0 →
    ∃ a b, k = a ++ '[' :: ']' :: b ∧ brFree a = true ∧ wfStr b = true
  | [], _, hc => absurd rfl hc
  | c :: rest, hw, hc => by
    by_cases h1 : c = '['
    · subst h1
      match rest, hw with
      | d :: r, hw =>
        obtain ⟨hd, hr⟩ := wfStr_lb d r hw
        subst hd
        exact ⟨[], r, rfl, rfl, hr⟩
      | [], hw => exact absurd hw (by simp [wfStr])
    · by_cases h2 : c = ']'
      · subst h2
        cases rest with
        | nil => exact absurd hw (by simp [wfStr])
        | cons d r => exact absurd hw (by simp [wfStr])
      · have hw' : wfStr rest = true := by rwa [wfStr_cons_other c rest h1 h2] at hw
        have hc' : countBr rest ≠ 0 := by rwa [countBr_cons_of_ne_lb c rest h1] at hc
        obtain ⟨a, b, heq, hba, hwb⟩ := split_first_ph rest hw' hc'
        exact ⟨c :: a, b, by rw [heq]; simp, by
          rw [brFree_iff] at hba ⊢
          intro x hx
          rcases List.mem_cons.mp hx with rfl | hx
          · exact ⟨h1, h2⟩
          · exact hba x hx, hwb⟩

theorem fill_nil : (k : GoStr) → fill k [] = k
  | [] => rfl
  | [_] => rfl
  | c :: d :: rest => by
    simp only [fill]

theorem fill_zero : (k : GoStr) → countBr k = 0 → ∀ ps, fill k ps = k
  | [], _, ps => rfl
  | [_], _, ps => rfl
  | c :: d :: rest, h0, ps => by
    obtain ⟨hpair, hrest⟩ := countBr_cons_cons_zero c d rest h0
    match ps with
    | [] => exact fill_nil _
    | p :: ps' =>
      simp only [fill]
      rw [if_neg hpair]
      rw [fill_zero (d :: rest) hrest (p :: ps')]

theorem fill_cons1 (c : Char) (s : GoStr) (hc : c ≠ '[') (ps : List GoStr) :
    fill (c :: s) ps = c :: fill s ps := by
  match s, ps with
  | [], [] => rfl
  | [], p :: ps' => rfl
  | d :: t, [] => rw [fill_nil, fill_nil]
  | d :: t, p :: ps' =>
    simp only [fill]
    rw [if_neg (fun hp => hc hp.1)]

theorem fill_at_ph : (a : GoStr) → brFree a = true →
    ∀ b p ps', fill (a ++ '[' :: ']' :: b) (p :: ps') = a ++ '[' :: (p ++ ']' :: fill b ps')
  | [], _, b, p, ps' => by
    rw [List.nil_append]
    simp [fill]
  | c :: a', ha, b, p, ps' => by
    have hc : c ≠ '[' := ((brFree_iff _).mp ha c (List.mem_cons_self _ _)).1
    have ha' : brFree a' = true := by
      rw [brFree_iff] at ha ⊢
      exact fun x hx => ha x (List.mem_cons_of_mem _ hx)
    have h1 : (c :: a') ++ '[' :: ']' :: b = c :: (a' ++ '[' :: ']' :: b) := by simp
    rw [h1, fill_cons1 c _ hc, fill_at_ph a' ha' b p ps']
    simp

/-! ### Canonicalization and extraction lemmas -/

theorem canon_wf : (k : GoStr) → wfStr k = true → canonKey k = k
  | [], _ => rfl
  | c :: rest, hw => by
    by_cases h1 : c = '['
    · subst h1
      match rest, hw with
      | d :: r, hw =>
        obtain ⟨hd, hr⟩ := wfStr_lb d r hw
        subst hd
        show canonAfterLB (']' :: r) [] = '[' :: ']' :: r
        simp only [canonAfterLB]
        rw [if_pos (by simp), canon_wf r hr]
      | [], hw => exact absurd hw (by simp [wfStr])
    · by_cases h2 : c = ']'
      · subst h2
        rw [wfStr_rb] at hw
        exact absurd hw Bool.false_ne_true
      · have hw' : wfStr rest = true := by rwa [wfStr_cons_other c rest h1 h2] at hw
        simp only [canonKey]
        rw [if_neg h1, canon_wf rest hw']

theorem canonAfterLB_no_rb : (p : GoStr) → (∀ c ∈ p, c ≠ ']') →
    ∀ t acc, canonAfterLB (p ++ ']' :: t) acc = '[' :: ']' :: canonKey t
  | [], _, t, acc => by
    rw [List.nil_append]
    simp only [canonAfterLB]
    rw [if_pos (by simp)]
  | q :: p', hp, t, acc => by
    have hq : q ≠ ']' := hp q (List.mem_cons_self _ _)
    have hp' : ∀ c ∈ p', c ≠ ']' := fun c hc => hp c (List.mem_cons_of_mem _ hc)
    have h1 : (q :: p') ++ ']' :: t = q :: (p' ++ ']' :: t) := by simp
    rw [h1]
    simp only [canonAfterLB]
    rw [if_neg hq, canonAfterLB_no_rb p' hp' t (q :: acc)]

theorem canon_fill : (k : GoStr) → wfStr k = true → ∀ ps, (∀ p ∈ ps, brFree p = true) →
    canonKey (fill k ps) = k
  | k, hw, [], _ => by rw [fill_nil, canon_wf k hw]
  | [], _, p :: ps', _ => rfl
  | [c], hw, p :: ps', _ => by
    have h1 : c ≠ '[' := by
      intro h; subst h; simp [wfStr] at hw
    have h2 : c ≠ ']' := by
      intro h; subst h; simp [wfStr] at hw
    show canonKey [c] = [c]
    simp only [canonKey]
    rw [if_neg h1]
  | c :: d :: rest, hw, p :: ps', hps => by
    have hpbr : brFree p = true := hps p (List.mem_cons_self _ _)
    have hps' : ∀ x ∈ ps', brFree x = true := fun x hx => hps x (List.mem_cons_of_mem _ hx)
    by_cases hpair : c = '[' ∧ d = ']'
    · obtain ⟨rfl, rfl⟩ := hpair
      have hrest : wfStr rest = true := by rwa [wfStr_cons_pair] at hw
      simp only [fill]
      rw [if_pos (by simp)]
      show canonKey ('[' :: (p ++ ']' :: fill rest ps')) = '[' :: ']' :: rest
      simp only [canonKey]
      rw [if_pos (by simp)]
      rw [canonAfterLB_no_rb p (fun x hx => ((brFree_iff p).mp hpbr x hx).2) (fill rest ps') []]
      rw [canon_fill rest hrest ps' hps']
    · have hc : c ≠ '[' := by
        intro h
        subst h
        obtain ⟨hd, _⟩ := wfStr_lb d rest hw
        exact hpair ⟨rfl, hd⟩
      have hc2 : c ≠ ']' := by
        intro h; subst h
        rw [wfStr_rb] at hw
        exact Bool.false_ne_true hw
      have hw' : wfStr (d :: rest) = true := by rwa [wfStr_cons_other c _ hc hc2] at hw
      simp only [fill]
      rw [if_neg hpair]
      show canonKey (c :: fill (d :: rest) (p :: ps')) = c :: d :: rest
      simp only [canonKey]
      rw [if_neg hc, canon_fill (d :: rest) hw' (p :: ps') hps]

theorem extractAfterLB_no_rb : (p : GoStr) → (∀ c ∈ p, c ≠ ']') →
    ∀ t, extractAfterLB (p ++ ']' :: t) = p :: extractParams t
  | [], _, t => by
    rw [List.nil_append]
    simp only [extractAfterLB]
    rw [if_pos (by simp)]
  | q :: p', hp, t => by
    have hq : q ≠ ']' := hp q (List.mem_cons_self _ _)
    have hp' : ∀ c ∈ p', c ≠ ']' := fun c hc => hp c (List.mem_cons_of_mem _ hc)
    have h1 : (q :: p') ++ ']' :: t = q :: (p' ++ ']' :: t) := by simp
    rw [h1]
    simp only [extractAfterLB]
    rw [if_neg hq, extractAfterLB_no_rb p' hp' t]

theorem extract_wf_zero : (k : GoStr) → wfStr k = true → countBr k = 0 → extractParams k = []
  | [], _, _ => rfl
  | c :: rest, hw, h0 => by
    have hc : c ≠ '[' := by
      intro h
      subst h
      match rest, hw with
      | d :: r, hw =>
        obtain ⟨hd, _⟩ := wfStr_lb d r hw
        subst hd
        rw [countBr_cons_pair] at h0
        exact Nat.succ_ne_zero _ h0
      | [], hw => exact absurd hw (by simp [wfStr])
    have hc2 : c ≠ ']' := by
      intro h; subst h
      rw [wfStr_rb] at hw
      exact Bool.false_ne_true hw
    have hw' : wfStr rest = true := by rwa [wfStr_cons_other c rest hc hc2] at hw
    have h0' : countBr rest = 0 := by rwa [countBr_cons_of_ne_lb c rest hc] at h0
    simp only [extractParams]
    rw [if_neg hc]
    exact extract_wf_zero rest hw' h0'

theorem extract_fill : (k : GoStr) → wfStr k = true → ∀ ps, (∀ p ∈ ps, brFree p = true) →
    ps.length = countBr k → extractParams (fill k ps) = ps
  | k, hw, [], _, hlen => by
    rw [fill_nil]
    exact extract_wf_zero k hw (hlen.symm ▸ rfl)
  | [], _, p :: ps', _, hlen => by
    exact absurd hlen (by simp [countBr])
  | [c], _, p :: ps', _, hlen => by
    exact absurd hlen (by simp [countBr])
  | c :: d :: rest, hw, p :: ps', hps, hlen => by
    have hpbr : brFree p = true := hps p (List.mem_cons_self _ _)
    have hps' : ∀ x ∈ ps', brFree x = true := fun x hx => hps x (List.mem_cons_of_mem _ hx)
    by_cases hpair : c = '[' ∧ d = ']'
    · obtain ⟨rfl, rfl⟩ := hpair
      have hrest : wfStr rest = true := by rwa [wfStr_cons_pair] at hw
      have hlen' : ps'.length = countBr rest := by
        rw [countBr_cons_pair] at hlen
        simpa using hlen
      simp only [fill]
      rw [if_pos (by simp)]
      show extractParams ('[' :: (p ++ ']' :: fill rest ps')) = p :: ps'
      simp only [extractParams]
      rw [if_pos (by simp)]
      rw [extractAfterLB_no_rb p (fun x hx => ((brFree_iff p).mp hpbr x hx).2) (fill rest ps')]
      rw [extract_fill rest hrest ps' hps' hlen']
    · have hc : c ≠ '[' := by
        intro h
        subst h
        obtain ⟨hd, _⟩ := wfStr_lb d rest hw
        exact hpair ⟨rfl, hd⟩
      have hc2 : c ≠ ']' := by
        intro h; subst h
        rw [wfStr_rb] at hw
        exact Bool.false_ne_true hw
      have hw' : wfStr (d :: rest) = true := by rwa [wfStr_cons_other c _ hc hc2] at hw
      have hlen' : (p :: ps').length = countBr (d :: rest) := by
        rwa [countBr_cons_of_ne_lb c _ hc] at hlen
      simp only [fill]
      rw [if_neg hpair]
      show extractParams (c :: fill (d :: rest) (p :: ps')) = p :: ps'
      simp only [extractParams]
      rw [if_neg hc, extract_fill (d :: rest) hw' (p :: ps') hps hlen']

/-! ### The Find substitution loop computes `fill` -/

theorem brFree_append_rb : (p : GoStr) → brFree p = true → countBr (p ++ [']']) = 0
  | [], _ => rfl
  | x :: xs, hbr => by
    have hx : x ≠ '[' := ((brFree_iff _).mp hbr x (List.mem_cons_self _ _)).1
    have hxs : brFree xs = true := by
      rw [brFree_iff] at hbr ⊢
      exact fun y hy => hbr y (List.mem_cons_of_mem _ hy)
    have h4 : (x :: xs) ++ [']'] = x :: (xs ++ [']']) := by simp
    rw [h4, countBr_cons_of_ne_lb x _ hx]
    exact brFree_append_rb xs hxs

theorem block_countBr (p : GoStr) (hbr : brFree p = true) (hne : p ≠ []) :
    countBr ('[' :: (p ++ [']'])) = 0 := by
  match p, hne with
  | q :: p', _ =>
    have hq : q ≠ ']' := ((brFree_iff _).mp hbr q (List.mem_cons_self _ _)).2
    have h1 : '[' :: ((q :: p') ++ [']']) = '[' :: q :: (p' ++ [']']) := by simp
    rw [h1]
    have h2 : countBr ('[' :: q :: (p' ++ [']'])) = countBr (q :: (p' ++ [']'])) := by
      simp only [countBr]
      rw [if_neg (fun hp => hq hp.2)]
    rw [h2]
    have h5 : q :: (p' ++ [']']) = (q :: p') ++ [']'] := by simp
    rw [h5]
    exact brFree_append_rb (q :: p') hbr

theorem block_getLast (p : GoStr) : ('[' :: (p ++ [']'])).getLast? ≠ some '[' := by
  have h1 : '[' :: (p ++ [']']) = ('[' :: p) ++ [']'] := by simp
  rw [h1, List.getLast?_concat]
  simp

theorem replaceOne_no_ph (b : GoStr) (hb0 : countBr b = 0) (hl : b.getLast? ≠ some '[')
    (rep : GoStr) : replaceOne b ['[', ']'] rep = b := by
  have h := replaceOne_skip b hb0 hl [] rep
  rw [List.append_nil] at h
  rw [h, replaceOne_nil _ _ (by simp), List.append_nil]

theorem foldl_replaceOne_aux :
    (ps : List GoStr) → (∀ p ∈ ps, brFree p = true ∧ p ≠ []) →
    ∀ (C b : GoStr), countBr C = 0 → C.getLast? ≠ some '[' → wfStr b = true →
    ps.foldl (fun acc p => replaceOne acc ['[', ']'] ('[' :: (p ++ [']']))) (C ++ b)
      = C ++ fill b ps
  | [], _, C, b, _, _, _ => by rw [List.foldl_nil, fill_nil]
  | p :: ps', hps, C, b, hC0, hCl, hwb => by
    have hpbr : brFree p = true := (hps p (List.mem_cons_self _ _)).1
    have hpne : p ≠ [] := (hps p (List.mem_cons_self _ _)).2
    have hps' : ∀ x ∈ ps', brFree x = true ∧ x ≠ [] :=
      fun x hx => hps x (List.mem_cons_of_mem _ hx)
    rw [List.foldl_cons]
    rw [replaceOne_skip C hC0 hCl b ('[' :: (p ++ [']']))]
    by_cases hb0 : countBr b = 0
    · rw [replaceOne_no_ph b hb0 (wfStr_getLast b hwb) _]
      rw [foldl_replaceOne_aux ps' hps' C b hC0 hCl hwb]
      rw [fill_zero b hb0 ps', fill_zero b hb0 (p :: ps')]
    · obtain ⟨a, b', heq, hba, hwb'⟩ := split_first_ph b hwb hb0
      subst heq
      rw [replaceOne_at_ph a hba b' ('[' :: (p ++ [']']))]
      have hC2 : countBr (C ++ (a ++ ('[' :: (p ++ [']'])))) = 0 := by
        rw [countBr_clean_append C hC0 hCl,
            countBr_clean_append a (brFree_countBr a hba) (brFree_getLast a hba),
            block_countBr p hpbr hpne]
      have hC2l : (C ++ (a ++ ('[' :: (p ++ [']'])))).getLast? ≠ some '[' := by
        apply getLast_clean_append _ _ hCl
        apply getLast_clean_append _ _ (brFree_getLast a hba)
        exact block_getLast p
      have hg := foldl_replaceOne_aux ps' hps' (C ++ (a ++ ('[' :: (p ++ [']'])))) b'
        hC2 hC2l hwb'
      rw [fill_at_ph a hba b' p ps']
      simp only [List.append_assoc, List.cons_append, List.singleton_append] at hg ⊢
      exact hg

theorem foldl_replaceOne_fill (b : GoStr) (hwb : wfStr b = true) (ps : List GoStr)
    (hps : ∀ p ∈ ps, brFree p = true ∧ p ≠ []) :
    ps.foldl (fun acc p => replaceOne acc ['[', ']'] ('[' :: (p ++ [']']))) b = fill b ps := by
  have h := foldl_replaceOne_aux ps hps [] b rfl (by simp) hwb
  rwa [List.nil_append, List.nil_append] at h

theorem countBr_fill : (k : GoStr) → wfStr k = true →
    ∀ ps, (∀ p ∈ ps, brFree p = true ∧ p ≠ []) →
    countBr (fill k ps) = countBr k - ps.length
  | k, hw, [], _ => by rw [fill_nil]; simp
  | [], _, p :: ps', _ => by simp [fill, countBr]
  | [c], _, p :: ps', _ => by simp [fill, countBr]
  | c :: d :: rest, hw, p :: ps', hps => by
    have hpbr : brFree p = true := (hps p (List.mem_cons_self _ _)).1
    have hpne : p ≠ [] := (hps p (List.mem_cons_self _ _)).2
    have hps' : ∀ x ∈ ps', brFree x = true ∧ x ≠ [] :=
      fun x hx => hps x (List.mem_cons_of_mem _ hx)
    by_cases hpair : c = '[' ∧ d = ']'
    · obtain ⟨rfl, rfl⟩ := hpair
      have hrest : wfStr rest = true := by rwa [wfStr_cons_pair] at hw
      simp only [fill]
      rw [if_pos (by simp)]
      have h1 : '[' :: (p ++ ']' :: fill rest ps')
          = ('[' :: (p ++ [']'])) ++ fill rest ps' := by simp
      rw [h1, countBr_clean_append _ (block_countBr p hpbr hpne) (block_getLast p)]
      rw [countBr_fill rest hrest ps' hps', countBr_cons_pair]
      simp
    · have hc : c ≠ '[' := by
        intro h
        subst h
        obtain ⟨hd, _⟩ := wfStr_lb d rest hw
        exact hpair ⟨rfl, hd⟩
      have hc2 : c ≠ ']' := by
        intro h; subst h
        rw [wfStr_rb] at hw
        exact Bool.false_ne_true hw
      have hw' : wfStr (d :: rest) = true := by rwa [wfStr_cons_other c _ hc hc2] at hw
      simp only [fill]
      rw [if_neg hpair, countBr_cons_of_ne_lb c _ hc, countBr_cons_of_ne_lb c _ hc]
      exact countBr_fill (d :: rest) hw' (p :: ps') hps

theorem find_unfold (idx : IndexL) (name : GoStr) (it : Item)
    (hl : lookupA idx (canonKey name) = some it) :
    IndexL.find idx name = some ((extractParams name).foldl
      (fun acc p => replaceOne acc ['[', ']'] ('[' :: (p ++ [']']))) it.path) := by
  unfold IndexL.find IndexL.lookup
  dsimp only
  rw [hl]

/-- Claim C10: for every index and every observed key whose canonical form is a
key of the index, `Find` succeeds even when the key's bracket-group count
differs from the stored path's placeholder count: the result is the stored
path with the extracted contents substituted left-to-right (`fill`), so
surplus contents are dropped and missing ones leave literal `[]`
placeholders (the leftover count is exactly the difference). -/
theorem C10_find_lenient (idx : IndexL) (name : GoStr) (it : Item)
    (hl : lookupA idx (canonKey name) = some it)
    (hwf : wfStr it.path = true)
    (hps : ∀ p ∈ extractParams name, brFree p = true ∧ p ≠ []) :
    IndexL.find idx name = some (fill it.path (extractParams name)) ∧
    (IndexL.find idx name).isSome = true ∧
    countBr (fill it.path (extractParams name))
      = countBr it.path - (extractParams name).length := by
  have hfind := find_unfold idx name it hl
  rw [foldl_replaceOne_fill it.path hwf (extractParams name) hps] at hfind
  exact ⟨hfind, by rw [hfind]; rfl,
    countBr_fill it.path hwf (extractParams name) hps⟩

/-- Witness for C10: an index mapping `K[]` to the path `p[].q[]` (two
placeholders), probed with the key `K[7]` (one bracket group): `Find`
succeeds and returns `p[7].q[]`, one placeholder left unfilled. -/
theorem C10_witness :
    IndexL.find [(gs "K[]", ⟨gs "p[].q[]", GoType.scalar false, false⟩)] (gs "K[7]")
        = some (fill (gs "p[].q[]") (extractParams (gs "K[7]"))) ∧
    (IndexL.find [(gs "K[]", ⟨gs "p[].q[]", GoType.scalar false, false⟩)]
        (gs "K[7]")).isSome = true ∧
    countBr (fill (gs "p[].q[]") (extractParams (gs "K[7]")))
        = countBr (gs "p[].q[]") - (extractParams (gs "K[7]")).length :=
  C10_find_lenient [(gs "K[]", ⟨gs "p[].q[]", GoType.scalar false, false⟩)] (gs "K[7]")
    ⟨gs "p[].q[]", GoType.scalar false, false⟩ rfl (by decide) (by decide)

/-! ### Key/path context extension lemmas -/

theorem intercalate_nil (sep : GoStr) : List.intercalate sep [] = [] := by
  simp [List.intercalate]

theorem join_ext_bf (sep : Char) (h1 : sep ≠ '[') (h2 : sep ≠ ']')
    (tag : List GoStr) (hw : wfStr (List.intercalate [sep] tag) = true)
    (x : GoStr) (hx : brFree x = true) :
    wfStr (List.intercalate [sep] (tag ++ [x])) = true ∧
    countBr (List.intercalate [sep] (tag ++ [x])) = countBr (List.intercalate [sep] tag) := by
  cases tag with
  | nil =>
    rw [List.nil_append, intercalate_one, intercalate_nil]
    exact ⟨brFree_wfStr x hx, by rw [brFree_countBr x hx]; rfl⟩
  | cons y r =>
    rw [intercalate_append_one [sep] (y :: r) (by simp) x]
    have hbx : brFree (sep :: x) = true := by
      rw [brFree_iff] at hx ⊢
      intro c hc
      rcases List.mem_cons.mp hc with rfl | hc
      · exact ⟨h1, h2⟩
      · exact hx c hc
    have hshape : List.intercalate [sep] (y :: r) ++ [sep] ++ x
        = List.intercalate [sep] (y :: r) ++ (sep :: x) := by simp
    rw [hshape]
    constructor
    · exact wfStr_append _ hw (sep :: x) (brFree_wfStr _ hbx)
    · rw [countBr_append_wf _ hw (sep :: x), brFree_countBr _ hbx]
      omega

theorem join_br_ext (sep : Char) (tag : List GoStr) (hne : tag ≠ [])
    (hw : wfStr (List.intercalate [sep] tag) = true) :
    wfStr (List.intercalate [sep] (appendToLast tag ['[', ']'])) = true ∧
    countBr (List.intercalate [sep] (appendToLast tag ['[', ']']))
      = countBr (List.intercalate [sep] tag) + 1 := by
  rw [intercalate_appendToLast [sep] tag hne ['[', ']']]
  constructor
  · exact wfStr_append _ hw ['[', ']'] (by decide)
  · rw [countBr_append_wf _ hw ['[', ']'], show countBr ['[', ']'] = 1 from by decide]

theorem joinU_eq (l : List GoStr) : joinU l = List.intercalate ['_'] l := rfl

theorem joinD_eq (l : List GoStr) : joinD l = List.intercalate ['.'] l := rfl

theorem joinU_ext_bf (tag : List GoStr) (hw : wfStr (joinU tag) = true) (x : GoStr)
    (hx : brFree x = true) :
    wfStr (joinU (tag ++ [x])) = true ∧ countBr (joinU (tag ++ [x])) = countBr (joinU tag) :=
  join_ext_bf '_' (by decide) (by decide) tag hw x hx

theorem joinD_ext_bf (path : List GoStr) (hw : wfStr (joinD path) = true) (x : GoStr)
    (hx : brFree x = true) :
    wfStr (joinD (path ++ [x])) = true ∧ countBr (joinD (path ++ [x])) = countBr (joinD path) :=
  join_ext_bf '.' (by decide) (by decide) path hw x hx

theorem joinU_br_ext (tag : List GoStr) (hne : tag ≠ []) (hw : wfStr (joinU tag) = true) :
    wfStr (joinU (appendToLast tag ['[', ']'])) = true ∧
    countBr (joinU (appendToLast tag ['[', ']'])) = countBr (joinU tag) + 1 :=
  join_br_ext '_' tag hne hw

theorem joinD_br_ext (path : List GoStr) (hne : path ≠ []) (hw : wfStr (joinD path) = true) :
    wfStr (joinD (appendToLast path ['[', ']'])) = true ∧
    countBr (joinD (appendToLast path ['[', ']'])) = countBr (joinD path) + 1 :=
  join_br_ext '.' path hne hw

mutual

theorem collect_entry_inv :
    (v : GoType) → ∀ (tag path : List GoStr) (skip : Bool) (d : List (GoStr × GoStr))
      (isPtr : Bool) (l : IndexL),
      typeBF v = true → replBF d = true →
      wfStr (joinU tag) = true → wfStr (joinD path) = true →
      countBr (joinU tag) = countBr (joinD path) →
      (skip = false → (∀ ck2 ctu2 e2, stripPtrs v ≠ GoType.coll ck2 ctu2 e2) ∨
        (tag ≠ [] ∧ path ≠ [])) →
      collect v tag path skip d isPtr = .ok l →
      ∀ e ∈ l, wfStr e.1 = true ∧ wfStr e.2.path = true ∧ countBr e.1 = countBr e.2.path
  | .ptr t => fun tag path skip d isPtr l htv hd hU hD hC hs hok =>
    collect_entry_inv t tag path skip d true l htv hd hU hD hC hs hok
  | .coll ck ctu (.ptr e1) => fun tag path skip d isPtr l htv hd hU hD hC hs hok => by
    have htv1 : typeBF e1 = true := htv
    cases skip with
    | true =>
      simp only [collect] at hok
      rw [if_pos trivial] at hok
      by_cases hma : ptrImplsTm e1 = true
      · rw [if_pos hma] at hok
        injection hok with hl
        subst hl
        intro e he
        exact absurd he (List.not_mem_nil e)
      · rw [if_neg hma] at hok
        split at hok
        · exact absurd hok (by simp)
        · rename_i tmp heq
          by_cases hemp : tmp.isEmpty
          · rw [if_pos hemp] at hok
            injection hok with hl
            subst hl
            intro e he
            exact absurd he (List.not_mem_nil e)
          · rw [if_neg hemp] at hok
            exact absurd hok (by simp)
    | false =>
      rcases hs rfl with hnc | ⟨htne, hpne⟩
      · exact absurd rfl (hnc _ _ _)
      have hUx := joinU_br_ext tag htne hU
      have hDx := joinD_br_ext path hpne hD
      simp only [collect] at hok
      rw [if_neg (by decide : ¬(false = true))] at hok
      by_cases hma : ptrImplsTm e1 = true
      · rw [if_pos hma] at hok
        injection hok with hl
        subst hl
        intro e he
        rcases mem_upsertA _ _ _ e he with he1 | rfl
        · rcases mem_upsertA _ _ _ e he1 with he2 | rfl
          · exact absurd he2 (List.not_mem_nil e)
          · exact ⟨hU, hD, hC⟩
        · refine ⟨hUx.1, hDx.1, ?_⟩
          rw [hUx.2, hDx.2, hC]
      · rw [if_neg hma] at hok
        split at hok
        · exact absurd hok (by simp)
        · rename_i tmp heq
          injection hok with hl
          subst hl
          intro e he
          rcases mem_insertAllA tmp _ e he with he1 | he2
          · rcases mem_upsertA _ _ _ e he1 with he2 | rfl
            · exact absurd he2 (List.not_mem_nil e)
            · exact ⟨hU, hD, hC⟩
          · exact collect_entry_inv e1 (appendToLast tag ['[', ']'])
              (appendToLast path ['[', ']']) false d false tmp htv1 hd hUx.1 hDx.1
              (by rw [hUx.2, hDx.2, hC])
              (fun _ => Or.inr ⟨appendToLast_ne_nil tag htne _, appendToLast_ne_nil path hpne _⟩)
              heq e he2
  | .coll ck ctu (.scalar stu) => fun tag path skip d isPtr l htv hd hU hD hC hs hok => by
    have htv1 : typeBF (GoType.scalar stu) = true := htv
    cases skip with
    | true =>
      simp only [collect] at hok
      rw [if_pos trivial] at hok
      by_cases hma : (GoType.scalar stu).tuFlag = true
      · rw [if_pos hma] at hok
        injection hok with hl
        subst hl
        intro e he
        exact absurd he (List.not_mem_nil e)
      · rw [if_neg hma] at hok
        split at hok
        · exact absurd hok (by simp)
        · rename_i tmp heq
          by_cases hemp : tmp.isEmpty
          · rw [if_pos hemp] at hok
            injection hok with hl
            subst hl
            intro e he
            exact absurd he (List.not_mem_nil e)
          · rw [if_neg hemp] at hok
            exact absurd hok (by simp)
    | false =>
      rcases hs rfl with hnc | ⟨htne, hpne⟩
      · exact absurd rfl (hnc _ _ _)
      have hUx := joinU_br_ext tag htne hU
      have hDx := joinD_br_ext path hpne hD
      simp only [collect] at hok
      rw [if_neg (by decide : ¬(false = true))] at hok
      by_cases hma : (GoType.scalar stu).tuFlag = true
      · rw [if_pos hma] at hok
        injection hok with hl
        subst hl
        intro e he
        rcases mem_upsertA _ _ _ e he with he1 | rfl
        · rcases mem_upsertA _ _ _ e he1 with he2 | rfl
          · exact absurd he2 (List.not_mem_nil e)
          · exact ⟨hU, hD, hC⟩
        · refine ⟨hUx.1, hDx.1, ?_⟩
          rw [hUx.2, hDx.2, hC]
      · rw [if_neg hma] at hok
        split at hok
        · exact absurd hok (by simp)
        · rename_i tmp heq
          injection hok with hl
          subst hl
          intro e he
          rcases mem_insertAllA tmp _ e he with he1 | he2
          · rcases mem_upsertA _ _ _ e he1 with he2 | rfl
            · exact absurd he2 (List.not_mem_nil e)
            · exact ⟨hU, hD, hC⟩
          · exact collect_entry_inv (GoType.scalar stu) (appendToLast tag ['[', ']'])
              (appendToLast path ['[', ']']) false d false tmp htv1 hd hUx.1 hDx.1
              (by rw [hUx.2, hDx.2, hC])
              (fun _ => Or.inr ⟨appendToLast_ne_nil tag htne _, appendToLast_ne_nil path hpne _⟩)
              heq e he2
  | .coll ck ctu (.coll ck2 ctu2 e2) => fun tag path skip d isPtr l htv hd hU hD hC hs hok => by
    have htv1 : typeBF (GoType.coll ck2 ctu2 e2) = true := htv
    cases skip with
    | true =>
      simp only [collect] at hok
      rw [if_pos trivial] at hok
      by_cases hma : (GoType.coll ck2 ctu2 e2).tuFlag = true
      · rw [if_pos hma] at hok
        injection hok with hl
        subst hl
        intro e he
        exact absurd he (List.not_mem_nil e)
      · rw [if_neg hma] at hok
        split at hok
        · exact absurd hok (by simp)
        · rename_i tmp heq
          by_cases hemp : tmp.isEmpty
          · rw [if_pos hemp] at hok
            injection hok with hl
            subst hl
            intro e he
            exact absurd he (List.not_mem_nil e)
          · rw [if_neg hemp] at hok
            exact absurd hok (by simp)
    | false =>
      rcases hs rfl with hnc | ⟨htne, hpne⟩
      · exact absurd rfl (hnc _ _ _)
      have hUx := joinU_br_ext tag htne hU
      have hDx := joinD_br_ext path hpne hD
      simp only [collect] at hok
      rw [if_neg (by decide : ¬(false = true))] at hok
      by_cases hma : (GoType.coll ck2 ctu2 e2).tuFlag = true
      · rw [if_pos hma] at hok
        injection hok with hl
        subst hl
        intro e he
        rcases mem_upsertA _ _ _ e he with he1 | rfl
        · rcases mem_upsertA _ _ _ e he1 with he2 | rfl
          · exact absurd he2 (List.not_mem_nil e)
          · exact ⟨hU, hD, hC⟩
        · refine ⟨hUx.1, hDx.1, ?_⟩
          rw [hUx.2, hDx.2, hC]
      · rw [if_neg hma] at hok
        split at hok
        · exact absurd hok (by simp)
        · rename_i tmp heq
          injection hok with hl
          subst hl
          intro e he
          rcases mem_insertAllA tmp _ e he with he1 | he2
          · rcases mem_upsertA _ _ _ e he1 with he2 | rfl
            · exact absurd he2 (List.not_mem_nil e)
            · exact ⟨hU, hD, hC⟩
          · exact collect_entry_inv (GoType.coll ck2 ctu2 e2) (appendToLast tag ['[', ']'])
              (appendToLast path ['[', ']']) false d false tmp htv1 hd hUx.1 hDx.1
              (by rw [hUx.2, hDx.2, hC])
              (fun _ => Or.inr ⟨appendToLast_ne_nil tag htne _, appendToLast_ne_nil path hpne _⟩)
              heq e he2
  | .coll ck ctu (.strct stu sfs) => fun tag path skip d isPtr l htv hd hU hD hC hs hok => by
    have htv1 : typeBF (GoType.strct stu sfs) = true := htv
    cases skip with
    | true =>
      simp only [collect] at hok
      rw [if_pos trivial] at hok
      by_cases hma : (GoType.strct stu sfs).tuFlag = true
      · rw [if_pos hma] at hok
        injection hok with hl
        subst hl
        intro e he
        exact absurd he (List.not_mem_nil e)
      · rw [if_neg hma] at hok
        split at hok
        · exact absurd hok (by simp)
        · rename_i tmp heq
          by_cases hemp : tmp.isEmpty
          · rw [if_pos hemp] at hok
            injection hok with hl
            subst hl
            intro e he
            exact absurd he (List.not_mem_nil e)
          · rw [if_neg hemp] at hok
            exact absurd hok (by simp)
    | false =>
      rcases hs rfl with hnc | ⟨htne, hpne⟩
      · exact absurd rfl (hnc _ _ _)
      have hUx := joinU_br_ext tag htne hU
      have hDx := joinD_br_ext path hpne hD
      simp only [collect] at hok
      rw [if_neg (by decide : ¬(false = true))] at hok
      by_cases hma : (GoType.strct stu sfs).tuFlag = true
      · rw [if_pos hma] at hok
        injection hok with hl
        subst hl
        intro e he
        rcases mem_upsertA _ _ _ e he with he1 | rfl
        · rcases mem_upsertA _ _ _ e he1 with he2 | rfl
          · exact absurd he2 (List.not_mem_nil e)
          · exact ⟨hU, hD, hC⟩
        · refine ⟨hUx.1, hDx.1, ?_⟩
          rw [hUx.2, hDx.2, hC]
      · rw [if_neg hma] at hok
        split at hok
        · exact absurd hok (by simp)
        · rename_i tmp heq
          injection hok with hl
          subst hl
          intro e he
          rcases mem_insertAllA tmp _ e he with he1 | he2
          · rcases mem_upsertA _ _ _ e he1 with he2 | rfl
            · exact absurd he2 (List.not_mem_nil e)
            · exact ⟨hU, hD, hC⟩
          · have heq2 : collect (GoType.strct stu sfs) (appendToLast tag ['[', ']'])
                (appendToLast path ['[', ']']) false d false = .ok tmp := by
              simp only [collect]
              exact heq
            exact collect_entry_inv (GoType.strct stu sfs) (appendToLast tag ['[', ']'])
              (appendToLast path ['[', ']']) false d false tmp htv1 hd hUx.1 hDx.1
              (by rw [hUx.2, hDx.2, hC])
              (fun _ => Or.inr ⟨appendToLast_ne_nil tag htne _, appendToLast_ne_nil path hpne _⟩)
              heq2 e he2
  | .strct tu fields => fun tag path skip d isPtr l htv hd hU hD hC hs hok => by
    simp only [collect] at hok
    refine collectFields_entry_inv fields tag path d _ l htv hd hU hD hC ?_ hok
    intro e he
    split at he
    · rcases mem_upsertA _ _ _ e he with he1 | rfl
      · exact absurd he1 (List.not_mem_nil e)
      · exact ⟨hU, hD, hC⟩
    · exact absurd he (List.not_mem_nil e)
  | .scalar tu => fun tag path skip d isPtr l htv hd hU hD hC hs hok => by
    cases skip with
    | true =>
      have he : collect (.scalar tu) tag path true d isPtr = .ok [] := rfl
      rw [he] at hok
      injection hok with hl
      subst hl
      intro e he2
      exact absurd he2 (List.not_mem_nil e)
    | false =>
      have he : collect (.scalar tu) tag path false d isPtr
          = .ok (upsertA [] (joinU tag) ⟨joinD path, .scalar tu, isPtr⟩) := rfl
      rw [he] at hok
      injection hok with hl
      subst hl
      intro e he2
      rcases mem_upsertA _ _ _ e he2 with he3 | rfl
      · exact absurd he3 (List.not_mem_nil e)
      · exact ⟨hU, hD, hC⟩

theorem collectFields_entry_inv :
    (fs : List (GoStr × GoStr × Bool × GoType)) → ∀ (tag path : List GoStr)
      (d : List (GoStr × GoStr)) (m : IndexL) (l : IndexL),
      fieldsBF fs = true → replBF d = true →
      wfStr (joinU tag) = true → wfStr (joinD path) = true →
      countBr (joinU tag) = countBr (joinD path) →
      (∀ e ∈ m, wfStr e.1 = true ∧ wfStr e.2.path = true ∧ countBr e.1 = countBr e.2.path) →
      collectFields fs tag path d m = .ok l →
      ∀ e ∈ l, wfStr e.1 = true ∧ wfStr e.2.path = true ∧ countBr e.1 = countBr e.2.path
  | [] => fun tag path d m l _ _ _ _ _ hm hok => by
    have he : collectFields [] tag path d m = .ok m := rfl
    rw [he] at hok
    injection hok with hl
    subst hl
    exact hm
  | (nm, tg, ex, fty) :: rest => fun tag path d m l hbf hd hU hD hC hm hok => by
    simp only [fieldsBF, Bool.and_eq_true] at hbf
    obtain ⟨⟨⟨hnm, htg⟩, hfty⟩, hrest⟩ := hbf
    simp only [collectFields] at hok
    by_cases hex : ex = true
    · rw [if_pos hex] at hok
      by_cases h2 : tg = ['-', '-']
      · rw [if_pos h2] at hok
        exact collectFields_entry_inv rest tag path d m l hrest hd hU hD hC hm hok
      · rw [if_neg h2] at hok
        by_cases h1 : tg = ['-']
        · rw [if_pos h1] at hok
          split at hok
          · exact absurd hok (by simp)
          · rename_i tmp heq
            have hDx := joinD_ext_bf path hD (goLower nm) (brFree_lower nm hnm)
            have htmp := collect_entry_inv fty tag (path ++ [goLower nm]) true d false tmp
              hfty hd hU hDx.1 (by rw [hDx.2]; exact hC)
              (fun hff => absurd hff (by decide)) heq
            exact collectFields_entry_inv rest tag path d _ l hrest hd hU hD hC
              (fun e he => by
                rcases mem_insertAllA tmp m e he with he1 | he2
                · exact hm e he1
                · exact htmp e he2) hok
        · rw [if_neg h1] at hok
          split at hok
          · exact absurd hok (by simp)
          · rename_i tmp heq
            have henv : brFree (if tg = [] then applyRepl d nm else tg) = true := by
              split
              · exact brFree_applyRepl d nm hd hnm
              · exact htg
            have hUx := joinU_ext_bf tag hU
              (snakeCase (if tg = [] then applyRepl d nm else tg)) (brFree_snakeCase _ henv)
            have hDx := joinD_ext_bf path hD (goLower nm) (brFree_lower nm hnm)
            have htmp := collect_entry_inv fty
              (tag ++ [snakeCase (if tg = [] then applyRepl d nm else tg)])
              (path ++ [goLower nm]) false d false tmp
              hfty hd hUx.1 hDx.1 (by rw [hUx.2, hDx.2]; exact hC)
              (fun _ => Or.inr ⟨by simp, by simp⟩) heq
            exact collectFields_entry_inv rest tag path d _ l hrest hd hU hD hC
              (fun e he => by
                rcases mem_insertAllA tmp m e he with he1 | he2
                · exact hm e he1
                · exact htmp e he2) hok
    · rw [if_neg hex] at hok
      exact collectFields_entry_inv rest tag path d m l hrest hd hU hD hC hm hok

end

theorem typeBF_strip : (v : GoType) → typeBF (stripPtrs v) = typeBF v
  | .ptr t => by
    rw [show stripPtrs (.ptr t) = stripPtrs t from rfl, typeBF_strip t]
    rfl
  | .scalar _ => rfl
  | .coll _ _ _ => rfl
  | .strct _ _ => rfl

theorem buildIndex_entry_inv (v : GoType) (d : List (GoStr × GoStr)) (l : IndexL)
    (htv : typeBF v = true) (hd : replBF d = true) (hok : buildIndex v d = .ok l) :
    ∀ e ∈ l, wfStr e.1 = true ∧ wfStr e.2.path = true ∧ countBr e.1 = countBr e.2.path := by
  unfold buildIndex at hok
  dsimp only at hok
  split at hok
  · rename_i hstr
    have htv2 : typeBF (stripPtrs v) = true := by rw [typeBF_strip v]; exact htv
    match hsp : stripPtrs v, hstr, htv2 with
    | .strct tu fields, _, htv2 =>
      rw [hsp] at hok
      exact collect_entry_inv (.strct tu fields) [] [] false d false l htv2 hd rfl rfl rfl
        (fun _ => Or.inl (fun ck2 ctu2 e2 h => GoType.noConfusion h)) hok
  · injection hok with hl
    subst hl
    intro e he
    exact absurd he (List.not_mem_nil e)

/-- Claim C9 (amended): in every index built by `index.New` from a record
type whose field names and explicit env tags are bracket-free (Go
identifiers always are; tags need not be) with a bracket-free rename table,
every entry's key carries exactly as many `[]` placeholders as its stored
path — one per collection dimension crossed.  An explicit tag with literal
brackets (e.g. `env:"X[]"`) breaks the invariant. -/
theorem C9_placeholder_invariant (v : GoType) (d : List (GoStr × GoStr)) (l : IndexL)
    (htv : typeBF v = true) (hd : replBF d = true) (hok : buildIndex v d = .ok l) :
    ∀ e ∈ l, countBr e.1 = countBr e.2.path :=
  fun e he => (buildIndex_entry_inv v d l htv hd hok e he).2.2

/-- Counterexample to C9 as stated: a field tagged `env:"X[]"` (legal, and
indexed without error) produces the entry `X[] → a` whose key has one `[]`
placeholder but whose path has none. -/
theorem C9_counterexample :
    (match buildIndex (.strct false [(gs "A", gs "X[]", true, .scalar false)]) [] with
     | .ok l => l.map (fun e => (e.1, e.2.path, countBr e.1, countBr e.2.path))
     | .error _ => []) = [(gs "X[]", gs "a", 1, 0)] := by decide

/-- Witness for C9: in the index built from a record with a map field
`Tags`, the collection entry `TAGS[]` with path `tags[]` balances its
placeholder counts (one on each side). -/
theorem C9_witness :
    countBr (gs "TAGS[]") = countBr (gs "tags[]") :=
  C9_placeholder_invariant
    (.strct false [(gs "Tags", [], true, .coll .mapK false (.scalar false))])
    [] [(gs "TAGS", ⟨gs "tags", GoType.coll .mapK false (.scalar false), false⟩),
        (gs "TAGS[]", ⟨gs "tags[]", GoType.scalar false, false⟩)]
    (by decide) (by decide) rfl
    (gs "TAGS[]", ⟨gs "tags[]", GoType.scalar false, false⟩)
    (List.mem_cons_of_mem _ (List.mem_cons_self _ _))

/-- Claim C3 (amended): over an index built from a record type with
bracket-free field names and env tags and a bracket-free rename table,
`Find` applied to an index key with nonempty bracket-free contents
substituted for its `[]` placeholders (exactly one per placeholder)
succeeds and returns the stored path with the same contents substituted in
left-to-right order; in particular a placeholder-free key — every key of a
collection-free record type — round-trips to the recorded path unchanged.
With a bracket-bearing explicit tag the round-trip fails (see the
counterexample), so the bracket-free hypothesis is necessary. -/
theorem C3_find_substitution (v : GoType) (d : List (GoStr × GoStr)) (idx : IndexL)
    (k : GoStr) (it : Item) (ps : List GoStr)
    (htv : typeBF v = true) (hd : replBF d = true)
    (hok : buildIndex v d = .ok idx)
    (hlk : lookupA idx k = some it)
    (hps : ∀ p ∈ ps, brFree p = true ∧ p ≠ [])
    (hlen : ps.length = countBr k) :
    IndexL.find idx (fill k ps) = some (fill it.path ps) ∧
    (countBr k = 0 → IndexL.find idx k = some it.path) := by
  obtain ⟨hwk, hwp, hck⟩ := buildIndex_entry_inv v d idx htv hd hok (k, it)
    (lookupA_some_mem hlk)
  have hcanon : canonKey (fill k ps) = k := canon_fill k hwk ps (fun p hp => (hps p hp).1)
  have hextr : extractParams (fill k ps) = ps :=
    extract_fill k hwk ps (fun p hp => (hps p hp).1) hlen
  constructor
  · have hfind := find_unfold idx (fill k ps) it (by rw [hcanon]; exact hlk)
    rw [hextr, foldl_replaceOne_fill it.path hwp ps hps] at hfind
    exact hfind
  · intro h0
    have hps0 : ps = [] := List.length_eq_zero.mp (by rw [hlen, h0])
    subst hps0
    have hfind := find_unfold idx k it (by rw [canon_wf k hwk]; exact hlk)
    rw [extract_wf_zero k hwk h0, List.foldl_nil] at hfind
    exact hfind

/-- Counterexample to C3 as stated: the record type with the single scalar
field `F` tagged `env:"A[X]B"` has no collections, builds without error,
and its only index key is `A[X]B` — yet `Find` on that very key returns
nothing, because the bracket group canonicalizes to `A[]B` before lookup,
so the claimed round-trip fails. -/
theorem C3_counterexample :
    buildIndex (.strct false [(gs "F", gs "A[X]B", true, .scalar false)]) []
      = .ok [(gs "A[X]B", ⟨gs "f", GoType.scalar false, false⟩)] ∧
    IndexL.find [(gs "A[X]B", ⟨gs "f", GoType.scalar false, false⟩)] (gs "A[X]B") = none :=
  ⟨rfl, by decide⟩

/-- Witness for C3: in the index of a record with a map field `Tags`, the
key `TAGS[]` filled with `abc` (giving `TAGS[abc]`) resolves to `tags[]`
filled with `abc` (giving `tags[abc]`). -/
theorem C3_witness :
    IndexL.find [(gs "TAGS", ⟨gs "tags", GoType.coll .mapK false (.scalar false), false⟩),
        (gs "TAGS[]", ⟨gs "tags[]", GoType.scalar false, false⟩)]
        (fill (gs "TAGS[]") [gs "abc"])
      = some (fill (gs "tags[]") [gs "abc"]) ∧
    (countBr (gs "TAGS[]") = 0 →
      IndexL.find [(gs "TAGS", ⟨gs "tags", GoType.coll .mapK false (.scalar false), false⟩),
        (gs "TAGS[]", ⟨gs "tags[]", GoType.scalar false, false⟩)] (gs "TAGS[]")
      = some (gs "tags[]")) :=
  C3_find_substitution
    (.strct false [(gs "Tags", [], true, .coll .mapK false (.scalar false))])
    [] [(gs "TAGS", ⟨gs "tags", GoType.coll .mapK false (.scalar false), false⟩),
        (gs "TAGS[]", ⟨gs "tags[]", GoType.scalar false, false⟩)]
    (gs "TAGS[]") ⟨gs "tags[]", GoType.scalar false, false⟩ [gs "abc"]
    (by decide) (by decide) rfl rfl (by decide) (by decide)

/-! ### Record, defaults and unmarshal lemmas for the Load pipeline -/

theorem any_upsertA {β : Type} (f : List (GoStr × β)) (q : GoStr) (v : β) (P : GoStr → Bool) :
    (upsertA f q v).any (fun e => P e.1) = (f.any (fun e => P e.1) || P q) := by
  unfold upsertA
  split
  · rename_i hany
    have hq : ∃ e ∈ f, e.1 = q := by
      rw [List.any_eq_true] at hany
      obtain ⟨e, he, hq⟩ := hany
      exact ⟨e, he, by simpa using hq⟩
    obtain ⟨e0, he0, hq0⟩ := hq
    cases hval : f.any (fun e => P e.1) with
    | true =>
      rw [List.any_eq_true] at hval
      obtain ⟨e1, he1, hp1⟩ := hval
      have : (f.map (fun e => if e.1 = q then (q, v) else e)).any (fun e => P e.1) = true := by
        rw [List.any_eq_true]
        refine ⟨if e1.1 = q then (q, v) else e1, List.mem_map.mpr ⟨e1, he1, rfl⟩, ?_⟩
        by_cases he : e1.1 = q
        · rw [if_pos he]
          rw [← he]
          exact hp1
        · rw [if_neg he]
          exact hp1
      rw [this]
      rfl
    | false =>
      have hPq : P q = false := by
        rw [← hq0]
        rw [List.any_eq_false] at hval
        exact Bool.eq_false_iff.mpr (hval e0 he0)
      rw [hPq]
      rw [List.any_eq_false] at hval
      have hmf : (f.map (fun e => if e.1 = q then (q, v) else e)).any (fun e => P e.1)
          = false := by
        rw [List.any_eq_false]
        intro e he
        rw [List.mem_map] at he
        obtain ⟨a, ha, rfl⟩ := he
        by_cases haq : a.1 = q
        · rw [if_pos haq]
          intro hP
          rw [← haq] at hP
          exact hval a ha hP
        · rw [if_neg haq]
          exact hval a ha
      rw [hmf]
      simp
  · rename_i hany
    rw [List.any_append]
    simp

theorem present_upsert (f : List (GoStr × GoStr)) (al : List GoStr) (q v o : GoStr) :
    present ⟨upsertA f q v, al⟩ o
      = (present ⟨f, al⟩ o || (q == o || underPath o q)) := by
  unfold present
  dsimp only
  rw [any_upsertA f q v (fun k => k == o || underPath o k)]
  cases al.any (fun a => a == o) <;> cases f.any (fun e => e.1 == o || underPath o e.1)
    <;> simp

theorem lookupA_append_or {β : Type} :
    ∀ (a b : List (GoStr × β)) (q : GoStr),
    lookupA (a ++ b) q = (lookupA a q).or (lookupA b q)
  | [], b, q => rfl
  | e :: rest, b, q => by
    show lookupA (e :: (rest ++ b)) q = (lookupA (e :: rest) q).or (lookupA b q)
    simp only [lookupA]
    by_cases he : e.1 = q
    · rw [if_pos he, if_pos he]
      rfl
    · rw [if_neg he, if_neg he]
      exact lookupA_append_or rest b q

theorem upserts_fold_lookup {β : Type} :
    ∀ (l : List (GoStr × β)) (m0 : List (GoStr × β)) (q : GoStr),
    lookupA (l.foldl (fun m kv => upsertA m kv.1 kv.2) m0) q
      = (lookupA l.reverse q).or (lookupA m0 q)
  | [], m0, q => rfl
  | kv :: l', m0, q => by
    rw [List.foldl_cons, upserts_fold_lookup l' (upsertA m0 kv.1 kv.2) q]
    rw [List.reverse_cons, lookupA_append_or]
    rw [lookupA_upsertA]
    by_cases hq : q = kv.1
    · subst hq
      have h1 : lookupA [(kv.1, kv.2)] kv.1 = some kv.2 := by
        unfold lookupA
        rw [if_pos rfl]
      rw [h1, if_pos rfl]
      cases lookupA l'.reverse kv.1 <;> rfl
    · have h1 : lookupA [(kv.1, kv.2)] q = none := by
        unfold lookupA
        rw [if_neg (fun h => hq h.symm)]
        rfl
      rw [h1, if_neg hq]
      cases lookupA l'.reverse q <;> rfl

theorem unmarshal_fields :
    ∀ (data : List (GoStr × GoStr)) (r : Rec),
    (unmarshal data r).fields = data.foldl (fun m kv => upsertA m kv.1 kv.2) r.fields ∧
    (unmarshal data r).alloc = r.alloc
  | [], r => ⟨rfl, rfl⟩
  | kv :: data', r => by
    have h := unmarshal_fields data' ⟨upsertA r.fields kv.1 kv.2, r.alloc⟩
    unfold unmarshal at h ⊢
    simp only [List.foldl_cons]
    simpa using h

theorem unmarshal_lookup (data : List (GoStr × GoStr)) (r : Rec) (q : GoStr) :
    lookupA (unmarshal data r).fields q
      = (lookupA data.reverse q).or (lookupA r.fields q) := by
  rw [(unmarshal_fields data r).1, upserts_fold_lookup]

theorem unmarshal_frame (data : List (GoStr × GoStr)) (r : Rec) (q : GoStr)
    (h : ∀ e ∈ data, e.1 ≠ q) :
    lookupA (unmarshal data r).fields q = lookupA r.fields q := by
  rw [unmarshal_lookup]
  have h0 : lookupA data.reverse q = none := by
    rw [lookupA_eq_none_iff]
    intro e he
    exact h e (List.mem_reverse.mp he)
  rw [h0]
  rfl

theorem present_unmarshal_false (data : List (GoStr × GoStr)) (r : Rec) (o : GoStr)
    (hr : present r o = false)
    (h : ∀ e ∈ data, (e.1 == o || underPath o e.1) = false) :
    present (unmarshal data r) o = false := by
  induction data generalizing r with
  | nil => exact hr
  | cons kv data' ih =>
    show present (unmarshal data' ⟨upsertA r.fields kv.1 kv.2, r.alloc⟩) o = false
    apply ih
    · rw [present_upsert]
      rw [h kv (List.mem_cons_self _ _)]
      have : present ⟨r.fields, r.alloc⟩ o = present r o := rfl
      rw [this, hr]
      rfl
    · exact fun e he => h e (List.mem_cons_of_mem _ he)

theorem ancestorsOk_nil (r : Rec) (p : GoStr) : ancestorsOk [] r p = true := rfl

theorem ancestorsOk_mem (opt : List GoStr) (r : Rec) (p o : GoStr)
    (h : ancestorsOk opt r p = true) (ho : o ∈ opt) :
    (!underPath o p || present r o) = true := by
  unfold ancestorsOk at h
  rw [List.all_eq_true] at h
  exact h o ho

theorem ancestorsOk_single (o : GoStr) (r : Rec) (p : GoStr) :
    ancestorsOk [o] r p = (!underPath o p || present r o) := by
  unfold ancestorsOk
  simp

theorem dfold_alloc (optional : List GoStr) :
    ∀ (ds : List (GoStr × GoStr)) (r : Rec),
    (ds.foldl (fun acc kv =>
      if (lookupA acc.fields kv.1).isNone && ancestorsOk optional acc kv.1 then
        { acc with fields := upsertA acc.fields kv.1 kv.2 }
      else acc) r).alloc = r.alloc
  | [], r => rfl
  | kv :: ds', r => by
    rw [List.foldl_cons]
    split
    · exact dfold_alloc optional ds' _
    · exact dfold_alloc optional ds' r

theorem applyDefaults_alloc (sh : Shape) (optional : List GoStr) (r : Rec) :
    (applyDefaults sh optional r).alloc = r.alloc :=
  dfold_alloc optional sh.defaults r

theorem dfold_nilopt_lookup :
    ∀ (ds : List (GoStr × GoStr)) (r : Rec) (q : GoStr),
    lookupA ((ds.foldl (fun acc kv =>
      if (lookupA acc.fields kv.1).isNone && ancestorsOk [] acc kv.1 then
        { acc with fields := upsertA acc.fields kv.1 kv.2 }
      else acc) r).fields) q = (lookupA r.fields q).or (lookupA ds q)
  | [], r, q => by
    rw [List.foldl_nil]
    cases lookupA r.fields q <;> rfl
  | kv :: ds', r, q => by
    rw [List.foldl_cons, ancestorsOk_nil, Bool.and_true]
    cases hkn : (lookupA r.fields kv.1).isNone with
    | true =>
      rw [if_pos rfl]
      rw [dfold_nilopt_lookup ds' _ q]
      show (lookupA (upsertA r.fields kv.1 kv.2) q).or _ = _
      rw [lookupA_upsertA]
      by_cases hq : q = kv.1
      · subst hq
        rw [if_pos rfl]
        have h0 : lookupA r.fields kv.1 = none := Option.isNone_iff_eq_none.mp hkn
        rw [h0]
        have h1 : lookupA (kv :: ds') kv.1 = some kv.2 := by
          simp [lookupA]
        rw [h1]
        cases lookupA ds' kv.1 <;> rfl
      · rw [if_neg hq]
        have h1 : lookupA (kv :: ds') q = lookupA ds' q := by
          simp only [lookupA]
          rw [if_neg (fun h => hq h.symm)]
        rw [h1]
    | false =>
      rw [if_neg (by simp)]
      rw [dfold_nilopt_lookup ds' r q]
      by_cases hq : q = kv.1
      · subst hq
        cases h : lookupA r.fields kv.1 with
        | none => rw [h] at hkn; exact absurd hkn (by simp)
        | some v => rfl
      · have h1 : lookupA (kv :: ds') q = lookupA ds' q := by
          simp only [lookupA]
          rw [if_neg (fun h => hq h.symm)]
        rw [h1]

theorem applyDefaults_nilopt_lookup (sh : Shape) (r : Rec) (q : GoStr) :
    lookupA (applyDefaults sh [] r).fields q
      = (lookupA r.fields q).or (lookupA sh.defaults q) :=
  dfold_nilopt_lookup sh.defaults r q

theorem beq_gostr_false (a b : GoStr) (h : a ≠ b) : (a == b) = false := by
  exact beq_eq_false_iff_ne.mpr h

theorem dfold_under_frame (optional : List GoStr) (o : GoStr) (ho : o ∈ optional) :
    ∀ (ds : List (GoStr × GoStr)) (r : Rec),
    (∀ e ∈ ds, e.1 ≠ o) → present r o = false →
    present (ds.foldl (fun acc kv =>
      if (lookupA acc.fields kv.1).isNone && ancestorsOk optional acc kv.1 then
        { acc with fields := upsertA acc.fields kv.1 kv.2 }
      else acc) r) o = false ∧
    ∀ q, underPath o q = true →
      lookupA ((ds.foldl (fun acc kv =>
        if (lookupA acc.fields kv.1).isNone && ancestorsOk optional acc kv.1 then
          { acc with fields := upsertA acc.fields kv.1 kv.2 }
        else acc) r).fields) q = lookupA r.fields q
  | [], r, _, hr => ⟨hr, fun _ _ => rfl⟩
  | kv :: ds', r, hds, hr => by
    have hkvo : kv.1 ≠ o := hds kv (List.mem_cons_self _ _)
    have hds' : ∀ e ∈ ds', e.1 ≠ o := fun e he => hds e (List.mem_cons_of_mem _ he)
    rw [List.foldl_cons]
    cases hcond : ((lookupA r.fields kv.1).isNone && ancestorsOk optional r kv.1) with
    | false =>
      rw [if_neg (by simp [hcond])]
      exact dfold_under_frame optional o ho ds' r hds' hr
    | true =>
      rw [if_pos rfl]
      have hanc : ancestorsOk optional r kv.1 = true := by
        have h := hcond
        simp only [Bool.and_eq_true] at h
        exact h.2
      have hup : underPath o kv.1 = false := by
        have := ancestorsOk_mem optional r kv.1 o hanc ho
        rw [hr, Bool.or_false] at this
        simpa using this
      have hr1 : present ⟨upsertA r.fields kv.1 kv.2, r.alloc⟩ o = false := by
        rw [present_upsert]
        rw [beq_gostr_false kv.1 o hkvo, hup]
        have h0 : present ⟨r.fields, r.alloc⟩ o = present r o := rfl
        rw [h0, hr]
        rfl
      obtain ⟨hp, hf⟩ := dfold_under_frame optional o ho ds'
        ⟨upsertA r.fields kv.1 kv.2, r.alloc⟩ hds' hr1
      refine ⟨hp, fun q hq => ?_⟩
      rw [hf q hq]
      show lookupA (upsertA r.fields kv.1 kv.2) q = lookupA r.fields q
      rw [lookupA_upsertA]
      rw [if_neg (fun h => by rw [h] at hq; rw [hq] at hup; exact Bool.noConfusion hup)]

theorem applyDefaults_under_frame (sh : Shape) (optional : List GoStr) (o : GoStr)
    (ho : o ∈ optional) (r : Rec) (hds : ∀ e ∈ sh.defaults, e.1 ≠ o)
    (hr : present r o = false) :
    present (applyDefaults sh optional r) o = false ∧
    ∀ q, underPath o q = true →
      lookupA (applyDefaults sh optional r).fields q = lookupA r.fields q :=
  dfold_under_frame optional o ho sh.defaults r hds hr

theorem lookupA_filter {β : Type} (P : GoStr → Bool) :
    ∀ (l : List (GoStr × β)) (q : GoStr), P q = true →
    lookupA (l.filter (fun e => P e.1)) q = lookupA l q
  | [], q, _ => rfl
  | e :: rest, q, hP => by
    by_cases he : e.1 = q
    · have hPe : P e.1 = true := by rw [he]; exact hP
      simp only [List.filter_cons, hPe, if_true]
      simp only [lookupA]
      rw [if_pos he, if_pos he]
    · cases hPe : P e.1 with
      | true =>
        simp only [List.filter_cons, hPe, if_true]
        simp only [lookupA]
        rw [if_neg he, if_neg he]
        exact lookupA_filter P rest q hP
      | false =>
        simp only [List.filter_cons, hPe, if_false]
        have h1 : lookupA (e :: rest) q = lookupA rest q := by
          simp only [lookupA]
          rw [if_neg he]
        rw [h1]
        exact lookupA_filter P rest q hP

theorem cfold_alloc (optional : List GoStr) (o : GoStr) :
    ∀ (ds : List (GoStr × GoStr)) (r : Rec),
    (ds.foldl (fun acc kv =>
      if underPath o kv.1 && (lookupA acc.fields kv.1).isNone && ancestorsOk optional acc kv.1 then
        { acc with fields := upsertA acc.fields kv.1 kv.2 }
      else acc) r).alloc = r.alloc
  | [], r => rfl
  | kv :: ds', r => by
    rw [List.foldl_cons]
    split
    · exact cfold_alloc optional o ds' _
    · exact cfold_alloc optional o ds' r

theorem lookupCreate_alloc (sh : Shape) (optional : List GoStr) (r : Rec) (o : GoStr) :
    (lookupCreate sh optional r o).alloc = r.alloc ++ [o] := by
  unfold lookupCreate
  exact cfold_alloc optional o sh.defaults _

theorem cfold_present_false (optional : List GoStr) (o o2 : GoStr) (ho : o ∈ optional) :
    ∀ (ds : List (GoStr × GoStr)) (r : Rec),
    (∀ e ∈ ds, e.1 ≠ o) → present r o = false →
    present (ds.foldl (fun acc kv =>
      if underPath o2 kv.1 && (lookupA acc.fields kv.1).isNone
          && ancestorsOk optional acc kv.1 then
        { acc with fields := upsertA acc.fields kv.1 kv.2 }
      else acc) r) o = false
  | [], _, _, hr => hr
  | kv :: ds', r, hds, hr => by
    have hkvo : kv.1 ≠ o := hds kv (List.mem_cons_self _ _)
    have hds' : ∀ e ∈ ds', e.1 ≠ o := fun e he => hds e (List.mem_cons_of_mem _ he)
    rw [List.foldl_cons]
    cases hcond : (underPath o2 kv.1 && (lookupA r.fields kv.1).isNone
        && ancestorsOk optional r kv.1) with
    | false =>
      rw [if_neg (by simp [hcond])]
      exact cfold_present_false optional o o2 ho ds' r hds' hr
    | true =>
      rw [if_pos rfl]
      have hanc : ancestorsOk optional r kv.1 = true := by
        have h := hcond
        simp only [Bool.and_eq_true] at h
        exact h.2
      have hup : underPath o kv.1 = false := by
        have := ancestorsOk_mem optional r kv.1 o hanc ho
        rw [hr, Bool.or_false] at this
        simpa using this
      have hr1 : present ⟨upsertA r.fields kv.1 kv.2, r.alloc⟩ o = false := by
        rw [present_upsert, beq_gostr_false kv.1 o hkvo, hup]
        have h0 : present ⟨r.fields, r.alloc⟩ o = present r o := rfl
        rw [h0, hr]
        rfl
      exact cfold_present_false optional o o2 ho ds' _ hds' hr1

theorem present_alloc_append (f : List (GoStr × GoStr)) (al : List GoStr) (o o2 : GoStr) :
    present ⟨f, al ++ [o2]⟩ o = (present ⟨f, al⟩ o || o2 == o) := by
  unfold present
  dsimp only
  rw [List.any_append]
  have h1 : ([o2].any fun a => a == o) = (o2 == o) := by simp
  rw [h1]
  cases al.any (fun a => a == o) <;> cases (o2 == o) <;>
    cases f.any (fun e => e.1 == o || underPath o e.1) <;> simp

theorem lookupCreate_present_false (sh : Shape) (optional : List GoStr) (r : Rec)
    (o o2 : GoStr) (ho : o ∈ optional) (ho2 : o2 ≠ o)
    (hds : ∀ e ∈ sh.defaults, e.1 ≠ o) (hr : present r o = false) :
    present (lookupCreate sh optional r o2) o = false := by
  unfold lookupCreate
  apply cfold_present_false optional o o2 ho sh.defaults _ hds
  show present ⟨r.fields, r.alloc ++ [o2]⟩ o = false
  rw [present_alloc_append, beq_gostr_false o2 o ho2]
  have h0 : present ⟨r.fields, r.alloc⟩ o = present r o := rfl
  rw [h0, hr]
  rfl

theorem cfold_target_lookup (o : GoStr) :
    ∀ (ds : List (GoStr × GoStr)) (r : Rec),
    r.alloc.any (fun a => a == o) = true →
    ∀ q, underPath o q = true →
    lookupA ((ds.foldl (fun acc kv =>
      if underPath o kv.1 && (lookupA acc.fields kv.1).isNone
          && ancestorsOk [o] acc kv.1 then
        { acc with fields := upsertA acc.fields kv.1 kv.2 }
      else acc) r).fields) q
      = (lookupA r.fields q).or (lookupA (ds.filter (fun e => underPath o e.1)) q)
  | [], r, _, q, _ => by
    rw [List.foldl_nil]
    cases lookupA r.fields q <;> rfl
  | kv :: ds', r, hal, q, hq => by
    have hpres : present r o = true := by
      unfold present
      rw [hal]
      rfl
    have hanc : ancestorsOk [o] r kv.1 = true := by
      rw [ancestorsOk_single, hpres]
      cases underPath o kv.1 <;> rfl
    rw [List.foldl_cons]
    cases hu : underPath o kv.1 with
    | false =>
      rw [if_neg (by simp [hu])]
      simp only [List.filter_cons, hu, if_false]
      exact cfold_target_lookup o ds' r hal q hq
    | true =>
      simp only [List.filter_cons, hu, if_true]
      cases hkn : (lookupA r.fields kv.1).isNone with
      | true =>
        rw [if_pos (by rw [hanc]; rfl)]
        rw [cfold_target_lookup o ds' ⟨upsertA r.fields kv.1 kv.2, r.alloc⟩ hal q hq]
        show (lookupA (upsertA r.fields kv.1 kv.2) q).or _ = _
        rw [lookupA_upsertA]
        by_cases hqk : q = kv.1
        · subst hqk
          rw [if_pos rfl]
          rw [Option.isNone_iff_eq_none.mp hkn]
          have h1 : lookupA (kv :: ds'.filter (fun e => underPath o e.1)) kv.1 = some kv.2 := by
            simp [lookupA]
          rw [h1]
          cases lookupA (ds'.filter (fun e => underPath o e.1)) kv.1 <;> rfl
        · rw [if_neg hqk]
          have h1 : lookupA (kv :: ds'.filter (fun e => underPath o e.1)) q
              = lookupA (ds'.filter (fun e => underPath o e.1)) q := by
            simp only [lookupA]
            rw [if_neg (fun h => hqk h.symm)]
          rw [h1]
      | false =>
        rw [if_neg (by simp [hkn])]
        rw [cfold_target_lookup o ds' r hal q hq]
        by_cases hqk : q = kv.1
        · subst hqk
          cases h : lookupA r.fields kv.1 with
          | none => rw [h] at hkn; exact absurd hkn (by simp)
          | some v => rfl
        · have h1 : lookupA (kv :: ds'.filter (fun e => underPath o e.1)) q
              = lookupA (ds'.filter (fun e => underPath o e.1)) q := by
            simp only [lookupA]
            rw [if_neg (fun h => hqk h.symm)]
          rw [h1]

theorem lookupCreate_lookup_under (sh : Shape) (r : Rec) (o q : GoStr)
    (hq : underPath o q = true) :
    lookupA (lookupCreate sh [o] r o).fields q
      = (lookupA r.fields q).or
          (lookupA (sh.defaults.filter (fun e => underPath o e.1)) q) := by
  unfold lookupCreate
  apply cfold_target_lookup o sh.defaults _ _ q hq
  show (r.alloc ++ [o]).any (fun a => a == o) = true
  rw [List.any_append]
  simp

theorem envApplyKeys_present_frame (sh : Shape) (strict : Bool) (m : List (GoStr × GoStr))
    (o : GoStr) :
    ∀ (ks : List GoStr) (r r' : Rec),
    (∀ k ∈ ks, (k == o || underPath o k) = false) →
    envApplyKeys sh strict m ks r = .ok r' →
    present r' o = present r o
  | [], r, r', _, hok => by
    injection hok with h
    rw [← h]
  | k :: rest, r, r', hks, hok => by
    have hk := hks k (List.mem_cons_self _ _)
    have hrest : ∀ x ∈ rest, (x == o || underPath o x) = false :=
      fun x hx => hks x (List.mem_cons_of_mem _ hx)
    rw [envApplyKeys] at hok
    cases hls : lookupSet sh r k ((lookupA m k).getD []) with
    | ok r1 =>
      rw [hls] at hok
      have h1 := envApplyKeys_present_frame sh strict m o rest r1 r' hrest hok
      rw [h1]
      unfold lookupSet at hls
      split at hls
      · injection hls with h2
        rw [← h2]
        show present ⟨upsertA r.fields k _, r.alloc⟩ o = present r o
        rw [present_upsert, hk]
        have h0 : present ⟨r.fields, r.alloc⟩ o = present r o := rfl
        rw [h0]
        cases present r o <;> rfl
      · cases hls
    | error e =>
      rw [hls] at hok
      cases strict with
      | true => cases hok
      | false => exact envApplyKeys_present_frame sh false m o rest r r' hrest hok

theorem envApplyKeys_alloc (sh : Shape) (strict : Bool) (m : List (GoStr × GoStr)) :
    ∀ (ks : List GoStr) (r r' : Rec),
    envApplyKeys sh strict m ks r = .ok r' → r'.alloc = r.alloc
  | [], r, r', hok => by
    injection hok with h
    rw [← h]
  | k :: rest, r, r', hok => by
    rw [envApplyKeys] at hok
    cases hls : lookupSet sh r k ((lookupA m k).getD []) with
    | ok r1 =>
      rw [hls] at hok
      have h1 := envApplyKeys_alloc sh strict m rest r1 r' hok
      rw [h1]
      unfold lookupSet at hls
      split at hls
      · injection hls with h2
        rw [← h2]
      · cases hls
    | error e =>
      rw [hls] at hok
      cases strict with
      | true => cases hok
      | false => exact envApplyKeys_alloc sh false m rest r r' hok

theorem setFlags_present_frame (sh : Shape) (o : GoStr) :
    ∀ (fl : List (GoStr × BFlag)) (r r' : Rec),
    (∀ e ∈ fl, e.2.flag.changed = true → (e.1 == o || underPath o e.1) = false) →
    setFlags sh r fl = .ok r' →
    present r' o = present r o
  | [], r, r', _, hok => by
    injection hok with h
    rw [← h]
  | (k, b) :: rest, r, r', hfl, hok => by
    have hrest : ∀ e ∈ rest, e.2.flag.changed = true → (e.1 == o || underPath o e.1) = false :=
      fun e he => hfl e (List.mem_cons_of_mem _ he)
    by_cases hc : b.flag.changed
    · rw [setFlags, if_pos hc] at hok
      cases hls : lookupSet sh r k b.flag.value with
      | error e => rw [hls] at hok; cases hok
      | ok r1 =>
        rw [hls] at hok
        have h1 := setFlags_present_frame sh o rest r1 r' hrest hok
        rw [h1]
        unfold lookupSet at hls
        split at hls
        · injection hls with h2
          rw [← h2]
          show present ⟨upsertA r.fields k _, r.alloc⟩ o = present r o
          rw [present_upsert, hfl (k, b) (List.mem_cons_self _ _) hc]
          have h0 : present ⟨r.fields, r.alloc⟩ o = present r o := rfl
          rw [h0]
          cases present r o <;> rfl
        · cases hls
    · rw [setFlags, if_neg (by simpa using hc)] at hok
      exact setFlags_present_frame sh o rest r r' hrest hok

theorem setFlags_alloc (sh : Shape) :
    ∀ (fl : List (GoStr × BFlag)) (r r' : Rec),
    setFlags sh r fl = .ok r' → r'.alloc = r.alloc
  | [], r, r', hok => by
    injection hok with h
    rw [← h]
  | (k, b) :: rest, r, r', hok => by
    by_cases hc : b.flag.changed
    · rw [setFlags, if_pos hc] at hok
      cases hls : lookupSet sh r k b.flag.value with
      | error e => rw [hls] at hok; cases hok
      | ok r1 =>
        rw [hls] at hok
        have h1 := setFlags_alloc sh rest r1 r' hok
        rw [h1]
        unfold lookupSet at hls
        split at hls
        · injection hls with h2
          rw [← h2]
        · cases hls
    · rw [setFlags, if_neg (by simpa using hc)] at hok
      exact setFlags_alloc sh rest r r' hok

theorem splitAtFirst_append (a b : GoStr) (c : Char) (ha : c ∉ a) :
    splitAtFirst c (a ++ c :: b) = some (a, b) := by
  induction a with
  | nil =>
    rw [List.nil_append]
    unfold splitAtFirst
    rw [if_pos rfl]
  | cons d a' ih =>
    have hd : d ≠ c := fun h => ha (h ▸ List.mem_cons_self _ _)
    have ha' : c ∉ a' := fun h => ha (List.mem_cons_of_mem _ h)
    rw [List.cons_append]
    unfold splitAtFirst
    rw [if_neg hd, ih ha']

theorem envPfx_ne_nil (name : GoStr) (h : name ≠ []) : envPfx name ≠ [] := by
  unfold envPfx
  rw [if_neg h]
  simp

theorem processVar_entry (pfx K ev : GoStr) (idx : IndexL) (p : GoStr)
    (hpne : pfx ≠ []) (hEq : ('=' : Char) ∉ pfx ++ K)
    (hfind : IndexL.find idx (goUpper (trimBoth ['_', ' ', '\n', '\r', '\t'] K)) = some p) :
    processVar pfx idx (pfx ++ K ++ '=' :: ev)
      = .entry p (trimBoth [' ', '\n', '\r', '\t'] ev) := by
  unfold processVar
  have hsplit : splitAtFirst '=' ((pfx ++ K) ++ '=' :: ev) = some (pfx ++ K, ev) :=
    splitAtFirst_append (pfx ++ K) ev '=' hEq
  rw [List.append_assoc] at hsplit
  have htest : pfx ++ K ++ '=' :: ev = pfx ++ (K ++ '=' :: ev) := by
    rw [List.append_assoc]
  rw [htest, hsplit]
  dsimp only
  rw [if_neg hpne, if_pos (by
    rw [List.isPrefixOf_iff_prefix]
    exact ⟨K, rfl⟩)]
  rw [List.drop_left]
  dsimp only
  rw [hfind]

theorem envSet_empty (sh : Shape) (idx : IndexL) (name : GoStr) (strict : Bool) (cfg : Rec) :
    envSet sh idx name strict [] cfg = .ok cfg := rfl

theorem envApplyKeys_single (sh : Shape) (strict : Bool) (m : List (GoStr × GoStr))
    (p : GoStr) (cfg : Rec) (v : GoStr) (hv : lookupA m p = some v)
    (hvp : sh.valid p = true) :
    envApplyKeys sh strict m [p] cfg = .ok ⟨upsertA cfg.fields p v, cfg.alloc⟩ := by
  simp only [envApplyKeys, hv, Option.getD_some]
  unfold lookupSet
  rw [if_pos hvp]

theorem envSet_single (sh : Shape) (idx : IndexL) (name : GoStr) (strict : Bool)
    (K ev p : GoStr) (cfg : Rec)
    (hname : name ≠ []) (hK : ('=' : Char) ∉ envPfx name ++ K)
    (hfind : IndexL.find idx (goUpper (trimBoth ['_', ' ', '\n', '\r', '\t'] K)) = some p)
    (hvp : sh.valid p = true) :
    envSet sh idx name strict [envPfx name ++ K ++ '=' :: ev] cfg
      = .ok ⟨upsertA cfg.fields p (trimBoth [' ', '\n', '\r', '\t'] ev), cfg.alloc⟩ := by
  unfold envSet
  have hpv := processVar_entry (envPfx name) K ev idx p (envPfx_ne_nil name hname) hK hfind
  have hcol : envCollect (envPfx name) idx strict [envPfx name ++ K ++ '=' :: ev] []
      = .ok [(p, trimBoth [' ', '\n', '\r', '\t'] ev)] := by
    rw [envCollect, hpv]
    rfl
  rw [hcol]
  show envApplyKeys sh strict [(p, trimBoth [' ', '\n', '\r', '\t'] ev)]
      (sortKeys (List.map (fun e => e.1) [(p, trimBoth [' ', '\n', '\r', '\t'] ev)])) cfg
    = .ok ⟨upsertA cfg.fields p (trimBoth [' ', '\n', '\r', '\t'] ev), cfg.alloc⟩
  have hsort : sortKeys (List.map (fun e => e.1)
      [(p, trimBoth [' ', '\n', '\r', '\t'] ev)]) = [p] := rfl
  rw [hsort]
  exact envApplyKeys_single sh strict _ p cfg _ (by simp [lookupA]) hvp

theorem setFlags_single_changed (sh : Shape) (r : Rec) (k : GoStr) (b : BFlag)
    (hb : b.flag.changed = true) (hv : sh.valid k = true) :
    setFlags sh r [(k, b)] = .ok ⟨upsertA r.fields k b.flag.value, r.alloc⟩ := by
  rw [setFlags, if_pos hb]
  unfold lookupSet
  rw [if_pos hv]
  rfl

theorem setFlags_single_unchanged (sh : Shape) (r : Rec) (k : GoStr) (b : BFlag)
    (hb : b.flag.changed = false) :
    setFlags sh r [(k, b)] = .ok r := by
  rw [setFlags, if_neg (by simp [hb])]
  rfl

theorem Load_eval (sh : Shape) (idx : IndexL) (file : Option (List (GoStr × GoStr)))
    (name : GoStr) (strict : Bool) (fl : Option (List (GoStr × BFlag)))
    (environ : List GoStr)
    (hidx0 : idx.filter (fun e => e.2.optional) = []) (hname : name ≠ []) :
    Load sh idx file name strict fl environ =
      match envSet sh idx name strict environ
          (match file with
           | none => applyDefaults sh [] ⟨[], []⟩
           | some data => unmarshal data (applyDefaults sh [] ⟨[], []⟩)) with
      | .error e => .error e
      | .ok cfg => match fl with | none => .ok cfg | some flags => setFlags sh cfg flags := by
  unfold Load
  rw [hidx0]
  simp only [List.map_nil]
  rw [if_neg hname]
  cases file with
  | none => rfl
  | some data => rfl

theorem Load_eval_some (sh : Shape) (idx : IndexL) (data : List (GoStr × GoStr))
    (name : GoStr) (strict : Bool) (fl : Option (List (GoStr × BFlag)))
    (environ : List GoStr)
    (hidx0 : idx.filter (fun e => e.2.optional) = []) (hname : name ≠ []) :
    Load sh idx (some data) name strict fl environ =
      match envSet sh idx name strict environ
          (unmarshal data (applyDefaults sh [] ⟨[], []⟩)) with
      | .error e => .error e
      | .ok cfg => match fl with | none => .ok cfg | some flags => setFlags sh cfg flags :=
  Load_eval sh idx (some data) name strict fl environ hidx0 hname

theorem Load_eval_none (sh : Shape) (idx : IndexL)
    (name : GoStr) (strict : Bool) (fl : Option (List (GoStr × BFlag)))
    (environ : List GoStr)
    (hidx0 : idx.filter (fun e => e.2.optional) = []) (hname : name ≠ []) :
    Load sh idx none name strict fl environ =
      match envSet sh idx name strict environ (applyDefaults sh [] ⟨[], []⟩) with
      | .error e => .error e
      | .ok cfg => match fl with | none => .ok cfg | some flags => setFlags sh cfg flags :=
  Load_eval sh idx none name strict fl environ hidx0 hname

theorem okVal (r : Rec) (p : GoStr) :
    (match (Except.ok r : Except LookErr Rec) with
     | .ok r => lookupA r.fields p
     | .error _ => none) = lookupA r.fields p := rfl

/-- Claim C1: with a default literal, a config file assignment, an
environment variable and a bound flag all targeting the same path, `Load`
resolves them in the fixed precedence order default < file < environment <
flag: the explicitly-set flag wins; with the flag unchanged the (trimmed)
environment value wins; with no matching environment variable the file
value wins; with no file the declared default remains. -/
theorem C1_layer_precedence
    (sh : Shape) (idx : IndexL) (p dv fv K ev name : GoStr) (strict : Bool)
    (bfC bfU : BFlag)
    (hvp : sh.valid p = true)
    (hidx0 : idx.filter (fun e => e.2.optional) = [])
    (hdv : lookupA sh.defaults p = some dv)
    (hname : name ≠ [])
    (hK : ('=' : Char) ∉ envPfx name ++ K)
    (hfind : IndexL.find idx (goUpper (trimBoth ['_', ' ', '\n', '\r', '\t'] K)) = some p)
    (hbC : bfC.flag.changed = true)
    (hbU : bfU.flag.changed = false) :
    (match Load sh idx (some [(p, fv)]) name strict (some [(p, bfC)])
        [envPfx name ++ K ++ '=' :: ev] with
     | .ok r => lookupA r.fields p | .error _ => none) = some bfC.flag.value ∧
    (match Load sh idx (some [(p, fv)]) name strict (some [(p, bfU)])
        [envPfx name ++ K ++ '=' :: ev] with
     | .ok r => lookupA r.fields p | .error _ => none)
      = some (trimBoth [' ', '\n', '\r', '\t'] ev) ∧
    (match Load sh idx (some [(p, fv)]) name strict (some [(p, bfU)]) [] with
     | .ok r => lookupA r.fields p | .error _ => none) = some fv ∧
    (match Load sh idx none name strict (some [(p, bfU)]) [] with
     | .ok r => lookupA r.fields p | .error _ => none) = some dv := by
  have hfileL : lookupA (unmarshal [(p, fv)] (applyDefaults sh [] ⟨[], []⟩)).fields p
      = some fv := by
    rw [unmarshal_lookup]
    have h : lookupA ([(p, fv)].reverse) p = some fv := by simp [lookupA]
    rw [h]
    rfl
  have hdefL : lookupA (applyDefaults sh [] (⟨[], []⟩ : Rec)).fields p = some dv := by
    rw [applyDefaults_nilopt_lookup, hdv]
    rfl
  refine ⟨?_, ?_, ?_, ?_⟩
  · have hfin : Load sh idx (some [(p, fv)]) name strict (some [(p, bfC)])
        [envPfx name ++ K ++ '=' :: ev]
        = .ok ⟨upsertA (⟨upsertA (unmarshal [(p, fv)] (applyDefaults sh [] ⟨[], []⟩)).fields p
            (trimBoth [' ', '\n', '\r', '\t'] ev),
            (unmarshal [(p, fv)] (applyDefaults sh [] ⟨[], []⟩)).alloc⟩ : Rec).fields p
            bfC.flag.value,
            (unmarshal [(p, fv)] (applyDefaults sh [] ⟨[], []⟩)).alloc⟩ := by
      rw [Load_eval_some sh idx [(p, fv)] name strict (some [(p, bfC)]) _ hidx0 hname]
      rw [envSet_single sh idx name strict K ev p _ hname hK hfind hvp]
      exact setFlags_single_changed sh _ p bfC hbC hvp
    rw [hfin, okVal]
    dsimp only
    rw [lookupA_upsertA, if_pos rfl]
  · have hfin : Load sh idx (some [(p, fv)]) name strict (some [(p, bfU)])
        [envPfx name ++ K ++ '=' :: ev]
        = .ok ⟨upsertA (unmarshal [(p, fv)] (applyDefaults sh [] ⟨[], []⟩)).fields p
            (trimBoth [' ', '\n', '\r', '\t'] ev),
            (unmarshal [(p, fv)] (applyDefaults sh [] ⟨[], []⟩)).alloc⟩ := by
      rw [Load_eval_some sh idx [(p, fv)] name strict (some [(p, bfU)]) _ hidx0 hname]
      rw [envSet_single sh idx name strict K ev p _ hname hK hfind hvp]
      exact setFlags_single_unchanged sh _ p bfU hbU
    rw [hfin, okVal]
    dsimp only
    rw [lookupA_upsertA, if_pos rfl]
  · have hfin : Load sh idx (some [(p, fv)]) name strict (some [(p, bfU)]) []
        = .ok (unmarshal [(p, fv)] (applyDefaults sh [] ⟨[], []⟩)) := by
      rw [Load_eval_some sh idx [(p, fv)] name strict (some [(p, bfU)]) _ hidx0 hname]
      rw [envSet_empty]
      exact setFlags_single_unchanged sh _ p bfU hbU
    rw [hfin, okVal]
    exact hfileL
  · have hfin : Load sh idx none name strict (some [(p, bfU)]) []
        = .ok (applyDefaults sh [] ⟨[], []⟩) := by
      rw [Load_eval_none sh idx name strict (some [(p, bfU)]) _ hidx0 hname]
      rw [envSet_empty]
      exact setFlags_single_unchanged sh _ p bfU hbU
    rw [hfin, okVal]
    exact hdefL

/-- Witness for C1: the spec's `port` example — default `8080`, file `9090`,
environment variable `APP_PORT=9999`, flag `12345`: the four loads yield
`12345`, `9999`, `9090` and `8080` respectively. -/
theorem C1_witness :
    (match Load ⟨fun q => q == gs "port", [(gs "port", gs "8080")]⟩
        [(gs "PORT", ⟨gs "port", GoType.scalar false, false⟩)]
        (some [(gs "port", gs "9090")]) (gs "app") true
        (some [(gs "port", ⟨⟨gs "port", true, gs "12345"⟩, [], false⟩)])
        [gs "APP_PORT=9999"] with
     | .ok r => lookupA r.fields (gs "port") | .error _ => none) = some (gs "12345") ∧
    (match Load ⟨fun q => q == gs "port", [(gs "port", gs "8080")]⟩
        [(gs "PORT", ⟨gs "port", GoType.scalar false, false⟩)]
        (some [(gs "port", gs "9090")]) (gs "app") true
        (some [(gs "port", ⟨⟨gs "port", false, gs "7777"⟩, [], false⟩)])
        [gs "APP_PORT=9999"] with
     | .ok r => lookupA r.fields (gs "port") | .error _ => none) = some (gs "9999") ∧
    (match Load ⟨fun q => q == gs "port", [(gs "port", gs "8080")]⟩
        [(gs "PORT", ⟨gs "port", GoType.scalar false, false⟩)]
        (some [(gs "port", gs "9090")]) (gs "app") true
        (some [(gs "port", ⟨⟨gs "port", false, gs "7777"⟩, [], false⟩)]) [] with
     | .ok r => lookupA r.fields (gs "port") | .error _ => none) = some (gs "9090") ∧
    (match Load ⟨fun q => q == gs "port", [(gs "port", gs "8080")]⟩
        [(gs "PORT", ⟨gs "port", GoType.scalar false, false⟩)]
        none (gs "app") true
        (some [(gs "port", ⟨⟨gs "port", false, gs "7777"⟩, [], false⟩)]) [] with
     | .ok r => lookupA r.fields (gs "port") | .error _ => none) = some (gs "8080") :=
  C1_layer_precedence ⟨fun q => q == gs "port", [(gs "port", gs "8080")]⟩
    [(gs "PORT", ⟨gs "port", GoType.scalar false, false⟩)]
    (gs "port") (gs "8080") (gs "9090") (gs "PORT") (gs "9999") (gs "app") true
    ⟨⟨gs "port", true, gs "12345"⟩, [], false⟩ ⟨⟨gs "port", false, gs "7777"⟩, [], false⟩
    (by decide) rfl (by decide) (by decide) (by decide) (by decide) rfl rfl

theorem envSet_collect_ok (sh : Shape) (idx : IndexL) (name : GoStr) (strict : Bool)
    (environ : List GoStr) (cfg : Rec) (m : List (GoStr × GoStr))
    (hc : envCollect (envPfx name) idx strict environ [] = .ok m) :
    envSet sh idx name strict environ cfg
      = envApplyKeys sh strict m (sortKeys (m.map (fun e => e.1))) cfg := by
  unfold envSet
  rw [hc]

theorem present_of_alloc (r : Rec) (o : GoStr)
    (h : r.alloc.any (fun a => a == o) = true) : present r o = true := by
  unfold present
  rw [h]
  rfl

theorem present_of_lookup_under (r : Rec) (o q v : GoStr)
    (h : lookupA r.fields q = some v) (hq : underPath o q = true) :
    present r o = true := by
  unfold present
  have hm := lookupA_some_mem h
  have h2 : (r.fields.any fun e => e.1 == o || underPath o e.1) = true := by
    rw [List.any_eq_true]
    exact ⟨(q, v), hm, by rw [hq]; simp⟩
  rw [h2]
  cases r.alloc.any (fun a => a == o) <;> rfl

theorem Load_reload_eval (sh : Shape) (idx : IndexL) (data : List (GoStr × GoStr))
    (o : GoStr) (strict : Bool)
    (hOPT : (idx.filter (fun e => e.2.optional)).map (fun e => e.2.path) = [o])
    (hpresU : present (unmarshal data (applyDefaults sh [o] ⟨[], []⟩)) o = true) :
    Load sh idx (some data) [] strict none [] =
      .ok (unmarshal data (lookupCreate sh [o] (applyDefaults sh [o] ⟨[], []⟩) o)) := by
  unfold Load
  rw [hOPT]
  simp only [List.isEmpty_cons, List.filter_cons, List.filter_nil, hpresU, if_true,
    List.isEmpty_nil, List.foldl_cons, List.foldl_nil]
  rfl

/-- Claim C2: for a pointer-typed optional substructure `o` (the index's
only optional path): if no layer touches a path at or inside `o` — the
declared defaults name no path equal to `o` (defaults inside `o` are
blocked while `o` is nil), the file data, the collected environment
entries, and the explicitly-set flags all target paths neither equal to
nor under `o` — then `o` is still absent (nil) after `Load` succeeds.  If
instead the file partially populates `o` (it sets `pf` under `o` but omits
`pd` under `o`), the reload pass force-creates `o` and re-deserializes:
afterwards the omitted field `pd` carries its declared default, the given
field `pf` carries the file value, and `o` is present. -/
theorem C2_optional_substructure
    (sh : Shape) (idx : IndexL) (o name : GoStr) (strict : Bool)
    (fl : Option (List (GoStr × BFlag))) (environ : List GoStr)
    (data0 data menv : List (GoStr × GoStr))
    (pd pf dv vf : GoStr)
    (hOPT : (idx.filter (fun e => e.2.optional)).map (fun e => e.2.path) = [o])
    (hdo : ∀ e ∈ sh.defaults, e.1 ≠ o)
    (hname : name ≠ [])
    (hdata0 : ∀ e ∈ data0, (e.1 == o || underPath o e.1) = false)
    (henv : envCollect (envPfx name) idx strict environ [] = .ok menv)
    (hmenv : ∀ e ∈ menv, (e.1 == o || underPath o e.1) = false)
    (hfl : ∀ l, fl = some l → ∀ e ∈ l, e.2.flag.changed = true →
      (e.1 == o || underPath o e.1) = false)
    (hpdu : underPath o pd = true) (hpfu : underPath o pf = true)
    (hdvd : lookupA sh.defaults pd = some dv)
    (hfpf : lookupA data.reverse pf = some vf)
    (hfpd : ∀ e ∈ data, e.1 ≠ pd) :
    (∀ r, Load sh idx (some data0) name strict fl environ = .ok r → present r o = false) ∧
    (match Load sh idx (some data) [] strict none [] with
     | .ok r => lookupA r.fields pd = some dv ∧ lookupA r.fields pf = some vf ∧
         present r o = true
     | .error _ => False) := by
  have ho : o ∈ [o] := List.mem_singleton.mpr rfl
  have hpres0 : present (applyDefaults sh [o] ⟨[], []⟩) o = false :=
    (applyDefaults_under_frame sh [o] o ho ⟨[], []⟩ hdo rfl).1
  constructor
  · intro r hok
    have hpres1 : present (unmarshal data0 (applyDefaults sh [o] ⟨[], []⟩)) o = false :=
      present_unmarshal_false data0 _ o hpres0 hdata0
    unfold Load at hok
    rw [hOPT] at hok
    simp only [List.isEmpty_cons, List.filter_cons, List.filter_nil, hpres1,
      Bool.false_eq_true, if_false, List.isEmpty_nil, if_true] at hok
    rw [if_neg hname] at hok
    rw [envSet_collect_ok sh idx name strict environ _ menv henv] at hok
    have hks : ∀ k ∈ sortKeys (menv.map (fun e => e.1)),
        (k == o || underPath o k) = false := by
      intro k hk
      have hk2 : k ∈ menv.map (fun e => e.1) := (sortKeys_perm _).mem_iff.mp hk
      rw [List.mem_map] at hk2
      obtain ⟨e, he, rfl⟩ := hk2
      exact hmenv e he
    cases hEA : envApplyKeys sh strict menv (sortKeys (menv.map (fun e => e.1)))
        (unmarshal data0 (applyDefaults sh [o] ⟨[], []⟩)) with
    | error e =>
      rw [hEA] at hok
      exact absurd hok (by simp)
    | ok r2 =>
      rw [hEA] at hok
      have hpres2 : present r2 o = false := by
        rw [envApplyKeys_present_frame sh strict menv o _ _ r2 hks hEA]
        exact hpres1
      cases hfl2 : fl with
      | none =>
        rw [hfl2] at hok
        have hok2 : (Except.ok r2 : Except LookErr Rec) = .ok r := hok
        injection hok2 with h
        rw [← h]
        exact hpres2
      | some l =>
        rw [hfl2] at hok
        have hok2 : setFlags sh r2 l = .ok r := hok
        rw [setFlags_present_frame sh o l r2 r (hfl l hfl2) hok2]
        exact hpres2
  · have hUpf : lookupA (unmarshal data (applyDefaults sh [o] ⟨[], []⟩)).fields pf
        = some vf := by
      rw [unmarshal_lookup, hfpf]
      rfl
    have hpresU : present (unmarshal data (applyDefaults sh [o] ⟨[], []⟩)) o = true :=
      present_of_lookup_under _ o pf vf hUpf hpfu
    rw [Load_reload_eval sh idx data o strict hOPT hpresU]
    refine ⟨?_, ?_, ?_⟩
    · rw [unmarshal_frame data _ pd hfpd]
      rw [lookupCreate_lookup_under sh _ o pd hpdu]
      have hTpd : lookupA (applyDefaults sh [o] (⟨[], []⟩ : Rec)).fields pd
          = lookupA (⟨[], []⟩ : Rec).fields pd :=
        (applyDefaults_under_frame sh [o] o ho ⟨[], []⟩ hdo rfl).2 pd hpdu
      rw [hTpd]
      show (lookupA (sh.defaults.filter (fun e => underPath o e.1)) pd) = some dv
      rw [lookupA_filter (fun q => underPath o q) sh.defaults pd hpdu]
      exact hdvd
    · rw [unmarshal_lookup, hfpf]
      rfl
    · apply present_of_alloc
      rw [(unmarshal_fields data _).2, lookupCreate_alloc, applyDefaults_alloc]
      simp

/-- Witness for C2: a record with the only optional substructure `sub2`
(declared default `sub2.d = D`): loading a file that never mentions `sub2`
leaves it absent, while loading a file that sets only `sub2.f = V`
force-creates `sub2` with `sub2.d = D` (default) and `sub2.f = V` (file). -/
theorem C2_witness :
    (∀ r, Load ⟨fun _ => true, [(gs "sub2.d", gs "D"), (gs "host", gs "H")]⟩
        [(gs "SUB2", ⟨gs "sub2", GoType.scalar false, true⟩)]
        (some [(gs "host", gs "x")]) (gs "app") true none []
        = .ok r → present r (gs "sub2") = false) ∧
    (match Load ⟨fun _ => true, [(gs "sub2.d", gs "D"), (gs "host", gs "H")]⟩
        [(gs "SUB2", ⟨gs "sub2", GoType.scalar false, true⟩)]
        (some [(gs "sub2.f", gs "V")]) [] true none [] with
     | .ok r => lookupA r.fields (gs "sub2.d") = some (gs "D") ∧
         lookupA r.fields (gs "sub2.f") = some (gs "V") ∧
         present r (gs "sub2") = true
     | .error _ => False) :=
  C2_optional_substructure
    ⟨fun _ => true, [(gs "sub2.d", gs "D"), (gs "host", gs "H")]⟩
    [(gs "SUB2", ⟨gs "sub2", GoType.scalar false, true⟩)]
    (gs "sub2") (gs "app") true none [] [(gs "host", gs "x")]
    [(gs "sub2.f", gs "V")] [] (gs "sub2.d") (gs "sub2.f") (gs "D") (gs "V")
    rfl (by decide) (by decide) (by decide) rfl (by decide)
    (fun l h => nomatch h) (by decide) (by decide) (by decide) (by decide) (by decide)
